import Mathlib

/-!
# Rollup operator: state transition of `L2chain/operator.go`

A shallow embedding of the operator's per-transfer step (`Operator.updateState`),
of `Operator.readAccount` and of `Transfer.Verify` / `Transfer.Sign`.

Conventions of the embedding.

* A Go `[]byte` is a `List Nat`; `uint64` values are `Nat` with explicit `% 2 ^ 64`
  where the code can wrap; an `fr.Element` is a `Nat` read modulo `frModulus`.
* The library collaborators (hash, EdDSA, Merkle accumulator) are the fields of `Env`.
* A Go run-time panic (slice bounds, index out of range) is the outer `none` of an
  `Option`; a returned `error` is an `Option Error` with `none` for `nil`.
* `backend.Assignments` is the sequence of its `Assign` calls; `Assign` panics on a
  name that is already assigned.
* `readAccount` computes the offset `int(i)*SizeAccount` in a 64-bit `int`, which wraps
  around (`slotOffset`). The writes of `updateState` come after the proofs of inclusion
  were built for the same positions, which are leaves of the ledger then; their offsets
  are taken as they are.
-/

namespace Rollup

/-! ## Bytes and field elements -/

/-- Big-endian encoding of `n` on `len` bytes (the low `len` bytes of `n`). -/
def toBytesBE : Nat → Nat → List Nat
  | 0, _ => []
  | len + 1, n => toBytesBE len (n / 256) ++ [n % 256]

/-- Big-endian decoding of a byte sequence. -/
def fromBytesBE (bs : List Nat) : Nat :=
  bs.foldl (fun acc b => acc * 256 + b) 0

/-- Order of the scalar field of bn256, the modulus of `fr.Element`
(`github.com/consensys/gurvy/bn256/fr`). -/
def frModulus : Nat :=
  21888242871839275222246405745257275088548364400416034343698204186575808495617

/-- `fr.Element.Add`. -/
def frAdd (a b : Nat) : Nat := (a + b) % frModulus

/-- `fr.Element.Sub`: subtraction modulo the field order. -/
def frSub (a b : Nat) : Nat := (a % frModulus + (frModulus - b % frModulus)) % frModulus

/-- `fr.Element.ToBigIntRegular`: the integer representative in `[0, frModulus)`. -/
def ToBigIntRegular (a : Nat) : Nat := a % frModulus

/-- `fr.Element.Bytes`: the 32-byte big-endian form of the integer representative. -/
def frBytes (a : Nat) : List Nat := toBytesBE 32 (a % frModulus)

/-- `fr.Element.SetBytes`: the big-endian value of the bytes, reduced. -/
def frSetBytes (bs : List Nat) : Nat := fromBytesBE bs % frModulus

/-- Go's builtin `copy(dst, src)`: overwrites the first `min(len dst, len src)` bytes
of `dst`; the result is the new content of `dst`. -/
def copyBytes (dst src : List Nat) : List Nat :=
  src.take dst.length ++ dst.drop src.length

/-- The statement `copy(dst[lo:], src)`; slicing panics when `lo > len(dst)`. -/
def copyFrom (dst : List Nat) (lo : Nat) (src : List Nat) : Option (List Nat) :=
  if lo ≤ dst.length then some (dst.take lo ++ copyBytes (dst.drop lo) src) else none

/-- The statement `copy(dst[lo:hi], src)`; slicing panics when `hi > len(dst)` or
`lo > hi`. -/
def copyRange (dst : List Nat) (lo hi : Nat) (src : List Nat) : Option (List Nat) :=
  if lo ≤ hi ∧ hi ≤ dst.length then
    some (dst.take lo ++ copyBytes ((dst.drop lo).take (hi - lo)) src ++ dst.drop hi)
  else none

/-- `strconv.Itoa`. -/
def Itoa : Int → String
  | Int.ofNat m => Nat.repr m
  | Int.negSucc m => "-" ++ Nat.repr (m + 1)

/-! ## Errors (`error.go`) -/

/-- The error values of `error.go`; `external` stands for an error value returned by
a library collaborator, which is none of the package's own. -/
inductive Error where
  | ErrSizeByteSlice
  | ErrNonExistingAccount
  | ErrNonConsistantAccount
  | ErrWrongSignature
  | ErrAmountTooHigh
  | ErrNonce
  | external (code : Nat)
  deriving DecidableEq, Repr

/-! ## Keys, signatures, accounts -/

/-- `eddsa.PublicKey`: the point `A`, by its coordinates. -/
structure PublicKey where
  X : Nat
  Y : Nat
  deriving DecidableEq, Repr

/-- `eddsa.Signature`: the point `R` and the scalar `S`. -/
structure Signature where
  Rx : Nat
  Ry : Nat
  S : Nat
  deriving DecidableEq, Repr

/-- `eddsa.PrivateKey`, kept abstract as a scalar. -/
abbrev PrivateKey := Nat

/-- Modelled from the spec: the type `Account` is declared in a file that is not among
the sources; its fields are those `updateState` reads and the spec's data model lists
(index, nonce, balance, identity). -/
structure Account where
  index : Nat
  nonce : Nat
  balance : Nat
  pubKey : PublicKey
  deriving DecidableEq, Repr

/-- Modelled from the spec: the constant `SizeAccount` is not among the sources; the
layout comment of `Operator.State` gives five chunks of 256 bits. -/
def SizeAccount : Nat := 160

/-- Modelled from the spec: `Account.Serialize` is not among the sources; the fixed-width
concatenation `index || nonce || balance || pubkeyX || pubkeyY`, each chunk 32 bytes,
big-endian. -/
def Account.Serialize (ac : Account) : List Nat :=
  toBytesBE 32 (ac.index % 2 ^ 64) ++ toBytesBE 32 (ac.nonce % 2 ^ 64) ++
    frBytes ac.balance ++ frBytes ac.pubKey.X ++ frBytes ac.pubKey.Y

/-- Modelled from the spec: `Deserialize` is not among the sources; the inverse of the
fixed-width layout, which fails with `ErrSizeByteSlice` on a slice whose length is not
the account width. -/
def Deserialize (data : List Nat) : Except Error Account :=
  if data.length ≠ SizeAccount then .error .ErrSizeByteSlice
  else .ok
    { index := fromBytesBE (data.take 32) % 2 ^ 64
      nonce := fromBytesBE ((data.drop 32).take 32) % 2 ^ 64
      balance := frSetBytes ((data.drop 64).take 32)
      pubKey :=
        { X := frSetBytes ((data.drop 96).take 32)
          Y := frSetBytes ((data.drop 128).take 32) } }

/-! ## Transfers (`transfer.go`) -/

/-- The struct `Transfer`. -/
structure Transfer where
  nonce : Nat
  amount : Nat
  senderPubKey : PublicKey
  receiverPubKey : PublicKey
  signature : Signature
  deriving DecidableEq, Repr

/-- `NewTransfer`. -/
def NewTransfer (amount : Nat) (src dst : PublicKey) (nonce : Nat) : Transfer :=
  { nonce := nonce
    amount := (amount % 2 ^ 64) % frModulus
    senderPubKey := src
    receiverPubKey := dst
    signature := ⟨0, 0, 0⟩ }

/-! ## Collaborators -/

/-- The library collaborators of the operator.

* `hsize` is `h.Size()`; `hash b` is `h.Reset(); h.Write(b); h.Sum([]byte{})`
  (several `Write`s hash the concatenation);
* `eddsaSign`, `eddsaVerify` are `eddsa.Sign`, `eddsa.Verify`;
* `buildReaderProof hs seg i` is `merkletree.BuildReaderProof` on a reader over `hs`,
  returning root, proof set and number of leaves;
* `verifyProof` is `merkletree.VerifyProof`, `generateProofHelper` is
  `merkle.GenerateProofHelper`. -/
structure Env where
  hsize : Nat
  hash : List Nat → List Nat
  eddsaSign : Nat → PublicKey → PrivateKey → Except Nat Signature
  eddsaVerify : Signature → Nat → PublicKey → Except Nat Bool
  buildReaderProof : List Nat → Nat → Nat → Except Nat (List Nat × List (List Nat) × Nat)
  verifyProof : List Nat → List (List Nat) → Nat → Nat → Bool
  generateProofHelper : List (List Nat) → Nat → Nat → List Int

/-- `Transfer.Sign`: the signature returned, the error, and the transfer afterwards.
The hash is fed `nonce || amount || senderPubKey (x, y) || receiverPubKey (x, y)`. -/
def Transfer.Sign (env : Env) (t : Transfer) (priv : PrivateKey) :
    Option Signature × Option Error × Transfer :=
  let frNonce := t.nonce % 2 ^ 64
  let bmsg := env.hash (frBytes frNonce ++ frBytes t.amount ++
    frBytes t.senderPubKey.X ++ frBytes t.senderPubKey.Y ++
    frBytes t.receiverPubKey.X ++ frBytes t.receiverPubKey.Y)
  let msg := frSetBytes bmsg
  match env.eddsaSign msg t.senderPubKey priv with
  | .error e => (none, some (.external e), t)
  | .ok sig => (some sig, none, { t with signature := sig })

/-- `Transfer.Verify`: the pair `(bool, error)` it returns. -/
def Transfer.Verify (env : Env) (t : Transfer) : Bool × Option Error :=
  let frNonce := t.nonce % 2 ^ 64
  let bmsg := env.hash (frBytes frNonce ++ frBytes t.amount ++
    frBytes t.senderPubKey.X ++ frBytes t.senderPubKey.Y ++
    frBytes t.receiverPubKey.X ++ frBytes t.receiverPubKey.Y)
  let msg := frSetBytes bmsg
  match env.eddsaVerify t.signature msg t.senderPubKey with
  | .error e => (false, some (.external e))
  | .ok resSig => if !resSig then (false, some .ErrWrongSignature) else (true, none)

/-! ## Witnesses -/

/-- `backend.Visibility`, as far as the operator uses it. -/
inductive Visibility where
  | Secret
  | Public
  deriving DecidableEq, Repr

/-- The values the operator hands to `Assign`. -/
inductive Value where
  | u64 (n : Nat)
  | fe (x : Nat)
  | bytes (b : List Nat)
  | int (i : Int)
  deriving DecidableEq, Repr

/-- One call `o.witnesses.Assign(visibility, name, value)`. -/
structure Assignment where
  visibility : Visibility
  name : String
  value : Value
  deriving DecidableEq, Repr

/-- The statement `o.witnesses.Assign(v, name, value)`: the witness record is kept as
the sequence of `Assign` calls, in program order. `Assign` panics when `name` is already
assigned. -/
def Assign (w : List Assignment) (v : Visibility) (name : String) (value : Value) :
    Option (List Assignment) :=
  if w.any (fun a => a.name == name) then none else some (w ++ [⟨v, name, value⟩])

/-- A run of `Assign` calls, in order. -/
def assignAll (w : List Assignment) : List Assignment → Option (List Assignment)
  | [] => some w
  | a :: rest =>
    match Assign w a.visibility a.name a.value with
    | none => none
    | some w => assignAll w rest

/-! ## Witness names (`operator.go`, lines 30-78) -/

def baseNameSenderMerkleBefore : String := "merkle_sender_proof_before_"
def baseNameSenderProofHelperBefore : String := "merkle_sender_proof_helper_before"
def baseNameReceiverMerkleBefore : String := "merkle_receiver_proof_before_"
def baseNameReceiverProofHelperBefore : String := "merkle_receiver_proof_helper_before"
def baseNameRootHashBefore : String := "merkle_rh_before_"

def baseNameSenderMerkleAfter : String := "merkle_sender_proof_after_"
def baseNameSenderProofHelperAfter : String := "merkle_sender_proof_helper_after"
def baseNameReceiverMerkleAfter : String := "merkle_receiver_proof_after_"
def baseNameReceiverProofHelperAfter : String := "merkle_receiver_proof_helper_after"
def baseNameRootHashAfter : String := "merkle_rh_after_"

def baseNameSenderAccountPubkeyx : String := "a_sender_pubkeyx_"
def baseNameSenderAccountPubkeyy : String := "a_sender_pubkeyy_"

def baseNameSenderAccountIndexBefore : String := "a_sender_index_before_"
def baseNameSenderAccountNonceBefore : String := "a_sender_nonce_before_"
def baseNameSenderAccountBalanceBefore : String := "a_sender_balance_before_"

def baseNameSenderAccountIndexAfter : String := "a_sender_index_before_after_"
def baseNameSenderAccountNonceAfter : String := "a_sender_nonce_before_after_"
def baseNameSenderAccountBalanceAfter : String := "a_sender_balance_before_after_"

def baseNameReceiverAccountPubkeyx : String := "a_receiver_pubkeyx_"
def baseNameReceiverAccountPubkeyy : String := "a_receiver_pubkeyy_"

def baseNameReceiverAccountIndexBefore : String := "a_receiver_index_before_"
def baseNameReceiverAccountNonceBefore : String := "a_receiver_nonce_before_"
def baseNameReceiverAccountBalanceBefore : String := "a_receiver_balance_before_"

def baseNameReceiverAccountIndexAfter : String := "a_receiver_index_after_"
def baseNameReceiverAccountNonceAfter : String := "a_receiver_nonce_after_"
def baseNameReceiverAccountBalanceAfter : String := "a_receiver_balance_after_"

def baseNameTransferAmount : String := "t_sender_amount_"
def baseNameTransferSigRx : String := "t_sig_Rx_"
def baseNameTransferSigRy : String := "t_sig_Ry_"
def baseNameTransferSigS : String := "t_sig_S_"

/-- `BatchSize`. -/
def BatchSize : Nat := 10

/-! ## The operator (`operator.go`) -/

/-- The struct `Operator`. The hash `h` is the `Env`; the queue `q` is a channel and
takes no part in `updateState`. `AccountMap` is keyed by the bytes of `pubkey.X`. -/
structure Operator where
  State : List Nat
  HashState : List Nat
  AccountMap : List (List Nat × Nat)
  nbAccounts : Nat
  batch : Nat
  witnesses : List Assignment
  deriving DecidableEq, Repr

/-- What a call of a method of `*Operator` leaves behind: the returned `error`
(`none` is `nil`) and the operator afterwards. -/
structure Outcome where
  err : Option Error
  op : Operator
  deriving DecidableEq, Repr

/-- The offset `int(i)*SizeAccount` of line 149 into a slice of `len` bytes. The product
is taken in a 64-bit `int` and wraps around; a Go slice has fewer than `2 ^ 63` bytes, so
a product that wrapped to a negative value, read here as a value of `2 ^ 63` or more,
lies outside the slice like any offset beyond its end. (On a list too long to be a
slice the offset is taken as it is.) -/
def slotOffset (len i : Nat) : Nat :=
  if len < 2 ^ 63 then (i * SizeAccount) % 2 ^ 64 else i * SizeAccount

/-- `Operator.readAccount`: the slice expression
`State[int(i)*SizeAccount : int(i)*SizeAccount+SizeAccount]` panics (outer `none`) when
it does not lie inside `State`; there is no other check of `i`. -/
def Operator.readAccount (o : Operator) (i : Nat) : Option (Except Error Account) :=
  let lo := slotOffset o.State.length i
  if lo + SizeAccount ≤ o.State.length then
    some (Deserialize ((o.State.drop lo).take SizeAccount))
  else none

/-- Witnesses for the public keys and the accounts before update (lines 185-198). -/
def assignAccountsBefore (w : List Assignment) (ext : String)
    (senderAccount receiverAccount : Account) : Option (List Assignment) := do
  let w ← Assign w .Secret (baseNameSenderAccountPubkeyx ++ ext) (.fe senderAccount.pubKey.X)
  let w ← Assign w .Secret (baseNameSenderAccountPubkeyy ++ ext) (.fe senderAccount.pubKey.Y)
  let w ← Assign w .Secret (baseNameReceiverAccountPubkeyx ++ ext) (.fe receiverAccount.pubKey.X)
  let w ← Assign w .Secret (baseNameReceiverAccountPubkeyy ++ ext) (.fe receiverAccount.pubKey.Y)
  let w ← Assign w .Secret (baseNameSenderAccountIndexBefore ++ ext) (.u64 senderAccount.index)
  let w ← Assign w .Secret (baseNameSenderAccountNonceBefore ++ ext) (.u64 senderAccount.nonce)
  let w ← Assign w .Secret (baseNameSenderAccountBalanceBefore ++ ext) (.fe senderAccount.balance)
  let w ← Assign w .Secret (baseNameReceiverAccountIndexBefore ++ ext) (.u64 receiverAccount.index)
  let w ← Assign w .Secret (baseNameReceiverAccountNonceBefore ++ ext) (.u64 receiverAccount.nonce)
  Assign w .Secret (baseNameReceiverAccountBalanceBefore ++ ext) (.fe receiverAccount.balance)

/-- Witnesses for the accounts after update (lines 272-279). -/
def assignAccountsAfter (w : List Assignment) (ext : String)
    (senderAccount receiverAccount : Account) : Option (List Assignment) := do
  let w ← Assign w .Secret (baseNameSenderAccountIndexAfter ++ ext) (.u64 senderAccount.index)
  let w ← Assign w .Secret (baseNameSenderAccountNonceAfter ++ ext) (.u64 senderAccount.nonce)
  let w ← Assign w .Secret (baseNameSenderAccountBalanceAfter ++ ext) (.fe senderAccount.balance)
  let w ← Assign w .Secret (baseNameReceiverAccountIndexAfter ++ ext) (.u64 receiverAccount.index)
  let w ← Assign w .Secret (baseNameReceiverAccountNonceAfter ++ ext) (.u64 receiverAccount.nonce)
  Assign w .Secret (baseNameReceiverAccountBalanceAfter ++ ext) (.fe receiverAccount.balance)

/-- Witnesses for the transfer (lines 234-238). -/
def assignTransfer (w : List Assignment) (ext : String) (t : Transfer) :
    Option (List Assignment) := do
  let w ← Assign w .Secret (baseNameTransferAmount ++ ext) (.fe t.amount)
  let w ← Assign w .Secret (baseNameTransferSigRx ++ ext) (.fe t.signature.Rx)
  let w ← Assign w .Secret (baseNameTransferSigRy ++ ext) (.fe t.signature.Ry)
  Assign w .Secret (baseNameTransferSigS ++ ext) (.fe t.signature.S)

/-- One iteration `i` of the loops at lines 224-232 and 318-326. `bound` is the length
whose predecessor guards the helper assignments (`i < bound - 1` over `int`, that is
`i + 1 < bound`). An index out of range panics, and so does a name already assigned. -/
def proofStep (w : List Assignment) (nameS nameR nameHS nameHR ext : String) (bound : Nat)
    (proofS proofR : List (List Nat)) (helperS helperR : List Int) (i : Nat) :
    Option (List Assignment) :=
  match proofS[i]?, proofR[i]? with
  | some ps, some pr =>
    match Assign w .Secret (nameS ++ ext ++ Itoa i) (.bytes ps) with
    | none => none
    | some w =>
    match Assign w .Secret (nameR ++ ext ++ Itoa i) (.bytes pr) with
    | none => none
    | some w =>
    if i + 1 < bound then
      match helperS[i]?, helperR[i]? with
      | some hs, some hr =>
        match Assign w .Secret (nameHS ++ ext ++ Itoa i) (.int hs) with
        | none => none
        | some w => Assign w .Secret (nameHR ++ ext ++ Itoa i) (.int hr)
      | _, _ => none
    else some w
  | _, _ => none

/-- The loop `for i := 0; i < len(proofS); i++`, run from `i` for `k` more iterations. -/
def proofLoop (nameS nameR nameHS nameHR ext : String) (bound : Nat)
    (proofS proofR : List (List Nat)) (helperS helperR : List Int) :
    Nat → Nat → List Assignment → Option (List Assignment)
  | 0, _, w => some w
  | k + 1, i, w =>
    match proofStep w nameS nameR nameHS nameHR ext bound proofS proofR helperS helperR i with
    | none => none
    | some w => proofLoop nameS nameR nameHS nameHR ext bound proofS proofR helperS helperR k (i + 1) w

/-- The ledger update of lines 281-292: both accounts are serialized into their slots
of `State` and the digests of the serialized forms into their segments of `HashState`,
the sender first. A slice expression out of range panics. The two positions are leaves
for which the accumulator has built proofs of inclusion at lines 207-222, and it returns
an error for an index that is no leaf of the digest sequence; the products
`int(pos)*SizeAccount` and `int(pos)*h.Size()` of such a position do not wrap around and
are taken as natural numbers. -/
def Operator.writeAccounts (env : Env) (o : Operator) (posSender posReceiver : Nat)
    (senderAccount receiverAccount : Account) : Option Operator :=
  match copyFrom o.State (posSender * SizeAccount) senderAccount.Serialize with
  | none => none
  | some st1 =>
  let bufSender := env.hash senderAccount.Serialize
  match copyRange o.HashState (posSender * env.hsize) ((posSender + 1) * env.hsize) bufSender with
  | none => none
  | some hs1 =>
  match copyFrom st1 (posReceiver * SizeAccount) receiverAccount.Serialize with
  | none => none
  | some st2 =>
  let bufReceiver := env.hash receiverAccount.Serialize
  match copyRange hs1 (posReceiver * env.hsize) ((posReceiver + 1) * env.hsize) bufReceiver with
  | none => none
  | some hs2 => some { o with State := st2, HashState := hs2 }

/-- Lines 294-326: the proofs of inclusion after update and their witnesses. -/
def Operator.proofsAfter (env : Env) (o : Operator) (ext : String)
    (posSender posReceiver numLeaves : Nat) : Option Outcome :=
  let segmentSize := env.hsize
  match env.buildReaderProof o.HashState segmentSize posSender with
  | .error e => some ⟨some (.external e), o⟩
  | .ok (merkleRootAfer, proofInclusionSenderAfter, _) =>
  let merkleProofHelperSenderAfter :=
    env.generateProofHelper proofInclusionSenderAfter posSender numLeaves
  match env.buildReaderProof o.HashState segmentSize posReceiver with
  | .error e => some ⟨some (.external e), o⟩
  | .ok (_, proofInclusionReceiverAfter, _) =>
  let merkleProofHelperReceiverAfter :=
    env.generateProofHelper proofInclusionReceiverAfter posReceiver numLeaves
  match Assign o.witnesses .Public (baseNameRootHashAfter ++ ext) (.bytes merkleRootAfer) with
  | none => none
  | some w =>
  match proofLoop baseNameSenderMerkleAfter baseNameReceiverMerkleAfter
      baseNameSenderProofHelperAfter baseNameReceiverProofHelperAfter ext
      proofInclusionSenderAfter.length proofInclusionSenderAfter proofInclusionReceiverAfter
      merkleProofHelperSenderAfter merkleProofHelperReceiverAfter
      proofInclusionSenderAfter.length 0 w with
  | none => none
  | some w => some ⟨none, { o with witnesses := w }⟩

/-- Lines 240-326: signature, amount and nonce checks, then the update of the two
accounts, of the ledger and of the witnesses. -/
def Operator.validateAndApply (env : Env) (o : Operator) (t : Transfer) (ext : String)
    (posSender posReceiver numLeaves : Nat) (senderAccount receiverAccount : Account) :
    Option Outcome :=
  match t.Verify env with
  | (_, some err) => some ⟨some err, o⟩
  | (resSig, none) =>
  if !resSig then some ⟨some .ErrWrongSignature, o⟩
  else
  let bBalance := ToBigIntRegular receiverAccount.balance
  let bAmount := ToBigIntRegular t.amount
  if bAmount > bBalance then some ⟨some .ErrAmountTooHigh, o⟩
  else if t.nonce ≠ senderAccount.nonce then some ⟨some .ErrNonce, o⟩
  else
  let senderAccount := { senderAccount with balance := frSub senderAccount.balance t.amount }
  let receiverAccount :=
    { receiverAccount with balance := frAdd receiverAccount.balance t.amount }
  let senderAccount := { senderAccount with nonce := (senderAccount.nonce + 1) % 2 ^ 64 }
  match assignAccountsAfter o.witnesses ext senderAccount receiverAccount with
  | none => none
  | some w =>
  let o := { o with witnesses := w }
  match o.writeAccounts env posSender posReceiver senderAccount receiverAccount with
  | none => none
  | some o => o.proofsAfter env ext posSender posReceiver numLeaves

/-- Lines 185-238: witnesses for the accounts before update, for the proofs of
inclusion before update and for the transfer; then the rest of the step. The result
of `merkletree.VerifyProof` is discarded by the code. -/
def Operator.recordAndApply (env : Env) (o : Operator) (t : Transfer) (ext : String)
    (posSender posReceiver : Nat) (senderAccount receiverAccount : Account) :
    Option Outcome :=
  let segmentSize := env.hsize
  match assignAccountsBefore o.witnesses ext senderAccount receiverAccount with
  | none => none
  | some w =>
  let o := { o with witnesses := w }
  match env.buildReaderProof o.HashState segmentSize posSender with
  | .error e => some ⟨some (.external e), o⟩
  | .ok (merkleRootBefore, proofInclusionSenderBefore, numLeaves) =>
  let _ := env.verifyProof merkleRootBefore proofInclusionSenderBefore posSender numLeaves
  let merkleProofHelperSenderBefore :=
    env.generateProofHelper proofInclusionSenderBefore posSender numLeaves
  match env.buildReaderProof o.HashState segmentSize posReceiver with
  | .error e => some ⟨some (.external e), o⟩
  | .ok (_, proofInclusionReceiverBefore, _) =>
  let merkleProofHelperReceiverBefore :=
    env.generateProofHelper proofInclusionReceiverBefore posReceiver numLeaves
  match Assign o.witnesses .Public (baseNameRootHashBefore ++ ext) (.bytes merkleRootBefore) with
  | none => none
  | some w =>
  match proofLoop baseNameSenderMerkleBefore baseNameReceiverMerkleBefore
      baseNameSenderProofHelperBefore baseNameReceiverProofHelperBefore ext
      proofInclusionReceiverBefore.length proofInclusionSenderBefore proofInclusionReceiverBefore
      merkleProofHelperSenderBefore merkleProofHelperReceiverBefore
      proofInclusionSenderBefore.length 0 w with
  | none => none
  | some w =>
  match assignTransfer w ext t with
  | none => none
  | some w =>
  let o := { o with witnesses := w }
  o.validateAndApply env t ext posSender posReceiver numLeaves senderAccount receiverAccount

/-- `Operator.updateState`. The outer `none` is a run-time panic (a slice or an index
out of range, a witness name already assigned); otherwise the returned error and the
operator afterwards. `bytes.Buffer.Write` returns a `nil` error,
so the checks of `err` that follow it never return. -/
def Operator.updateState (env : Env) (o : Operator) (t : Transfer) (numTransfer : Int) :
    Option Outcome :=
  let ext := Itoa numTransfer
  match o.AccountMap.lookup (frBytes t.senderPubKey.X) with
  | none => some ⟨some .ErrNonExistingAccount, o⟩
  | some posSender =>
  match o.readAccount posSender with
  | none => none
  | some (.error err) => some ⟨some err, o⟩
  | some (.ok senderAccount) =>
  match o.AccountMap.lookup (frBytes t.receiverPubKey.X) with
  | none => some ⟨some .ErrNonExistingAccount, o⟩
  | some posReceiver =>
  match o.readAccount posReceiver with
  | none => none
  | some (.error err) => some ⟨some err, o⟩
  | some (.ok receiverAccount) =>
  o.recordAndApply env t ext posSender posReceiver senderAccount receiverAccount

/-! ## Well-formed operators and the accumulator's contract -/

/-- The shape `NewOperator` gives an operator: `nbAccounts` slots of `SizeAccount` bytes,
as many digests of `h.Size()` bytes, and an `AccountMap` whose values are slots. -/
structure Operator.WellFormed (env : Env) (o : Operator) : Prop where
  state_len : o.State.length = SizeAccount * o.nbAccounts
  hash_len : o.HashState.length = env.hsize * o.nbAccounts
  slots : ∀ p ∈ o.AccountMap, p.2 < o.nbAccounts

/-- What the operator relies on from the Merkle accumulator and the proof helper, as the
libraries provide it: a proof is built for every leaf that lies inside the digest
sequence; the length of the proof of a leaf depends on the length of the sequence and on
the leaf, not on the digests; and the proof helper has one entry less than the proof.
The proofs of two leaves of one sequence need not have the same length. -/
structure Env.MerkleOK (env : Env) : Prop where
  build : ∀ hs i, (i + 1) * env.hsize ≤ hs.length →
    ∃ res, env.buildReaderProof hs env.hsize i = .ok res
  shape : ∀ hs hs' i res res', hs.length = hs'.length →
    env.buildReaderProof hs env.hsize i = .ok res →
    env.buildReaderProof hs' env.hsize i = .ok res' → res.2.1.length = res'.2.1.length
  helper : ∀ proof i n, (env.generateProofHelper proof i n).length = proof.length - 1

/-- The proofs of inclusion the accumulator builds from `hs` for the leaves `i` and `j`
have the same length: the two leaves lie at one depth of the tree. -/
def Env.SameDepth (env : Env) (hs : List Nat) (i j : Nat) : Prop :=
  ∀ ri rj, env.buildReaderProof hs env.hsize i = .ok ri →
    env.buildReaderProof hs env.hsize j = .ok rj → ri.2.1.length = rj.2.1.length

/-! ## A concrete instance

A small instantiation of the collaborators and a few ledgers, on which the model is
evaluated. -/

namespace Demo

/-- A 32-byte digest of a byte sequence. -/
def hash (bs : List Nat) : List Nat :=
  toBytesBE 32 (bs.foldl (fun a b => (a * 31 + b + 7) % frModulus) 0)

/-- The leaves of the tree over a digest sequence: its segments of `seg` bytes. -/
def leaves (hs : List Nat) (seg : Nat) : List (List Nat) :=
  (List.range ((hs.length + seg - 1) / seg)).map (fun j => (hs.drop (j * seg)).take seg)

/-- The number of leaves of the left subtree of a tree of `n` leaves, for `n ≥ 2`: the
largest power of two below `n`. -/
def splitPoint (n : Nat) : Nat := 2 ^ Nat.log2 (n - 1)

/-- The root of the tree over the leaves `ls`, of depth at most `k`: a leaf is hashed
behind the byte 0, the two subtrees of a node behind the byte 1. -/
def treeRoot : Nat → List (List Nat) → List Nat
  | 0, _ => []
  | k + 1, ls =>
    if ls.length ≤ 1 then hash (0 :: ls.flatten)
    else
      hash (1 :: treeRoot k (ls.take (splitPoint ls.length)) ++
        treeRoot k (ls.drop (splitPoint ls.length)))

/-- The roots of the sibling subtrees on the way from leaf `i` up to the root. -/
def treePath : Nat → List (List Nat) → Nat → List (List Nat)
  | 0, _, _ => []
  | k + 1, ls, i =>
    if ls.length ≤ 1 then []
    else if i < splitPoint ls.length then
      treePath k (ls.take (splitPoint ls.length)) i ++
        [treeRoot k (ls.drop (splitPoint ls.length))]
    else
      treePath k (ls.drop (splitPoint ls.length)) (i - splitPoint ls.length) ++
        [treeRoot k (ls.take (splitPoint ls.length))]

/-- The length of `treePath` on `n` leaves. -/
def pathLength : Nat → Nat → Nat → Nat
  | 0, _, _ => 0
  | k + 1, n, i =>
    if n ≤ 1 then 0
    else if i < splitPoint n then pathLength k (min (splitPoint n) n) i + 1
    else pathLength k (n - splitPoint n) (i - splitPoint n) + 1

/-- Collaborators: `hash` as the hash function, a signature that `eddsaVerify` accepts
exactly when it is the one `eddsaSign` produces for the key, and an accumulator with the
trees of the library: the proof of a leaf is the leaf followed by the roots of the
sibling subtrees, the left subtree of a node being the largest full one, so that on a
number of leaves that is no power of two the proofs differ in length (3, 3 and 2 entries
on three leaves). It returns an error for a leaf that is not in the sequence. -/
def env : Env where
  hsize := 32
  hash := hash
  eddsaSign := fun msg pub priv => .ok ⟨pub.X, priv, (msg + pub.X) % frModulus⟩
  eddsaVerify := fun sig msg pub => .ok (sig.S == (msg + pub.X) % frModulus)
  buildReaderProof := fun hs seg i =>
    if seg = 0 ∨ hs.length ≤ i * seg then .error 1
    else .ok (treeRoot (leaves hs seg).length (leaves hs seg),
      (hs.drop (i * seg)).take seg :: treePath (leaves hs seg).length (leaves hs seg) i,
      (leaves hs seg).length)
  verifyProof := fun _ _ _ _ => true
  generateProofHelper := fun p i _ =>
    (List.range (p.length - 1)).map (fun k => ((i / 2 ^ k % 2 : Nat) : Int))

/-- The account of slot `i`, with public key `(1000 + i, 2000 + i)`. -/
def account (i nonce balance : Nat) : Account := ⟨i, nonce, balance, ⟨1000 + i, 2000 + i⟩⟩

/-- The operator whose ledger holds the accounts `l`, with their digests and the map
from identities to slots. -/
def mkOperator (l : List Account) : Operator where
  State := (l.map Account.Serialize).flatten
  HashState := (l.map (fun a => hash a.Serialize)).flatten
  AccountMap := l.map (fun a => (frBytes a.pubKey.X, a.index))
  nbAccounts := l.length
  batch := 0
  witnesses := []

/-- A signed transfer of `amount` from the account of slot `i` to that of slot `j`. -/
def transfer (amount i j nonce : Nat) : Transfer :=
  (Transfer.Sign env (NewTransfer amount ⟨1000 + i, 2000 + i⟩ ⟨1000 + j, 2000 + j⟩ nonce) 5).2.2

/-- Two accounts, with balances 100 and 50. -/
def op2 : Operator := mkOperator [account 0 0 100, account 1 0 50]

/-- Two accounts, the sender with balance 5 and the receiver with balance 50. -/
def opPoor : Operator := mkOperator [account 0 0 5, account 1 0 50]

/-- Two accounts, the receiver five units below the field order. -/
def opFull : Operator := mkOperator [account 0 0 100, account 1 0 (frModulus - 5)]

/-- Four accounts, with balances 100, 50, 70 and 30. -/
def op4 : Operator := mkOperator [account 0 0 100, account 1 0 50, account 2 0 70, account 3 0 30]

/-- The ledger of the scenario: 16 accounts, account 0 funded with 100, the others
with balance 0. -/
def op16 : Operator :=
  mkOperator (account 0 0 100 :: (List.range 15).map (fun i => account (i + 1) 0 0))

end Demo

/-- The balance stored in slot `i`, when the slot can be read. -/
def Operator.balanceAt (o : Operator) (i : Nat) : Option Nat :=
  match o.readAccount i with
  | some (.ok a) => some a.balance
  | _ => none

/-- The nonce stored in slot `i`, when the slot can be read. -/
def Operator.nonceAt (o : Operator) (i : Nat) : Option Nat :=
  match o.readAccount i with
  | some (.ok a) => some a.nonce
  | _ => none

deriving instance DecidableEq for Except

/-! ## Definitions for the witness record, the ledger invariant and the name scheme -/

/-- The slice expression `s[lo:hi]`; it panics when `lo > hi` or `hi > len(s)`. -/
def slice (s : List Nat) (lo hi : Nat) : Option (List Nat) :=
  if lo ≤ hi ∧ hi ≤ s.length then some ((s.drop lo).take (hi - lo)) else none

/-- The loop of `NewOperator` (lines 129-134), run from `i` for `k` more iterations:
the digest of slot `i` of `state` is copied into segment `i` of the digests. -/
def NewOperator.hashLoop (env : Env) (state : List Nat) :
    Nat → Nat → List Nat → Option (List Nat)
  | 0, _, hashState => some hashState
  | k + 1, i, hashState =>
    match slice state (i * SizeAccount) (i * SizeAccount + SizeAccount) with
    | none => none
    | some seg =>
      let s := env.hash seg
      match copyRange hashState (i * env.hsize) ((i + 1) * env.hsize) s with
      | none => none
      | some hashState => NewOperator.hashLoop env state k (i + 1) hashState

/-- `NewOperator`: a ledger of `nbAccounts` empty accounts with their digests, an empty
`AccountMap` and an empty witness record. The outer `none` is a run-time panic. -/
def NewOperator (env : Env) (nbAccounts : Nat) : Option Operator :=
  let State := List.replicate (SizeAccount * nbAccounts) 0
  let HashState := List.replicate (env.hsize * nbAccounts) 0
  match NewOperator.hashLoop env State nbAccounts 0 HashState with
  | none => none
  | some HashState =>
    some { State := State, HashState := HashState, AccountMap := [], nbAccounts := nbAccounts,
           batch := 0, witnesses := [] }

/-- The contract of `hash.Hash` the operator relies on: `Sum` returns `Size()` bytes. -/
def Env.HashOK (env : Env) : Prop := ∀ b, (env.hash b).length = env.hsize

/-- Digest consistency: segment `i` of `HashState` is the digest of slot `i` of `State`,
for every slot of the ledger. -/
def Operator.DigestConsistent (env : Env) (o : Operator) : Prop :=
  ∀ i, i < o.nbAccounts →
    (o.HashState.drop (i * env.hsize)).take env.hsize =
      env.hash ((o.State.drop (i * SizeAccount)).take SizeAccount)

/-- The message the spec has the validator check the signature against: the hash of
`(nonce, amount, sender identity, receiver identity)`, for the identities given. -/
def signedMessage (env : Env) (nonce amount : Nat) (sender receiver : PublicKey) : Nat :=
  frSetBytes (env.hash (frBytes (nonce % 2 ^ 64) ++ frBytes amount ++
    frBytes sender.X ++ frBytes sender.Y ++ frBytes receiver.X ++ frBytes receiver.Y))

/-- The assignments of one iteration `i` of the proof loops, in order. -/
def proofStepEntries (nameS nameR nameHS nameHR ext : String) (bound : Nat)
    (proofS proofR : List (List Nat)) (helperS helperR : List Int) (i : Nat) :
    List Assignment :=
  match proofS[i]?, proofR[i]? with
  | some ps, some pr =>
    [⟨.Secret, nameS ++ ext ++ Itoa i, .bytes ps⟩, ⟨.Secret, nameR ++ ext ++ Itoa i, .bytes pr⟩] ++
      (if i + 1 < bound then
        match helperS[i]?, helperR[i]? with
        | some hs, some hr =>
          [⟨.Secret, nameHS ++ ext ++ Itoa i, .int hs⟩, ⟨.Secret, nameHR ++ ext ++ Itoa i, .int hr⟩]
        | _, _ => []
      else [])
  | _, _ => []

/-- The assignments of `k` iterations of a proof loop, from iteration `i` on. -/
def proofLoopEntries (nameS nameR nameHS nameHR ext : String) (bound : Nat)
    (proofS proofR : List (List Nat)) (helperS helperR : List Int) : Nat → Nat → List Assignment
  | 0, _ => []
  | k + 1, i =>
    proofStepEntries nameS nameR nameHS nameHR ext bound proofS proofR helperS helperR i ++
      proofLoopEntries nameS nameR nameHS nameHR ext bound proofS proofR helperS helperR k (i + 1)

/-- The assignments of lines 185-198, in order. -/
def accountsBeforeEntries (ext : String) (senderAccount receiverAccount : Account) :
    List Assignment :=
  [⟨.Secret, baseNameSenderAccountPubkeyx ++ ext, .fe senderAccount.pubKey.X⟩,
   ⟨.Secret, baseNameSenderAccountPubkeyy ++ ext, .fe senderAccount.pubKey.Y⟩,
   ⟨.Secret, baseNameReceiverAccountPubkeyx ++ ext, .fe receiverAccount.pubKey.X⟩,
   ⟨.Secret, baseNameReceiverAccountPubkeyy ++ ext, .fe receiverAccount.pubKey.Y⟩,
   ⟨.Secret, baseNameSenderAccountIndexBefore ++ ext, .u64 senderAccount.index⟩,
   ⟨.Secret, baseNameSenderAccountNonceBefore ++ ext, .u64 senderAccount.nonce⟩,
   ⟨.Secret, baseNameSenderAccountBalanceBefore ++ ext, .fe senderAccount.balance⟩,
   ⟨.Secret, baseNameReceiverAccountIndexBefore ++ ext, .u64 receiverAccount.index⟩,
   ⟨.Secret, baseNameReceiverAccountNonceBefore ++ ext, .u64 receiverAccount.nonce⟩,
   ⟨.Secret, baseNameReceiverAccountBalanceBefore ++ ext, .fe receiverAccount.balance⟩]

/-- The assignments of lines 234-238, in order. -/
def transferEntries (ext : String) (t : Transfer) : List Assignment :=
  [⟨.Secret, baseNameTransferAmount ++ ext, .fe t.amount⟩,
   ⟨.Secret, baseNameTransferSigRx ++ ext, .fe t.signature.Rx⟩,
   ⟨.Secret, baseNameTransferSigRy ++ ext, .fe t.signature.Ry⟩,
   ⟨.Secret, baseNameTransferSigS ++ ext, .fe t.signature.S⟩]

/-- The assignments of lines 272-279, in order. -/
def accountsAfterEntries (ext : String) (senderAccount receiverAccount : Account) :
    List Assignment :=
  [⟨.Secret, baseNameSenderAccountIndexAfter ++ ext, .u64 senderAccount.index⟩,
   ⟨.Secret, baseNameSenderAccountNonceAfter ++ ext, .u64 senderAccount.nonce⟩,
   ⟨.Secret, baseNameSenderAccountBalanceAfter ++ ext, .fe senderAccount.balance⟩,
   ⟨.Secret, baseNameReceiverAccountIndexAfter ++ ext, .u64 receiverAccount.index⟩,
   ⟨.Secret, baseNameReceiverAccountNonceAfter ++ ext, .u64 receiverAccount.nonce⟩,
   ⟨.Secret, baseNameReceiverAccountBalanceAfter ++ ext, .fe receiverAccount.balance⟩]

/-- The witness record `w` holds a snapshot of the digest sequence `hs`: the proofs the
accumulator builds from `hs` for the slots `posS` and `posR`, element by element under
the names `nameS`, `nameR`, and under `rootName` the root it returns for `hs`. -/
def SnapshotRecorded (env : Env) (hs : List Nat) (posS posR : Nat)
    (rootName nameS nameR ext : String) (w : List Assignment) : Prop :=
  ∃ root proofS nS root' proofR nR,
    env.buildReaderProof hs env.hsize posS = .ok (root, proofS, nS) ∧
    env.buildReaderProof hs env.hsize posR = .ok (root', proofR, nR) ∧
    (⟨.Public, rootName ++ ext, .bytes root⟩ : Assignment) ∈ w ∧
    ∀ j, j < proofS.length → ∃ ps pr, proofS[j]? = some ps ∧ proofR[j]? = some pr ∧
      (⟨.Secret, nameS ++ ext ++ Itoa j, .bytes ps⟩ : Assignment) ∈ w ∧
      (⟨.Secret, nameR ++ ext ++ Itoa j, .bytes pr⟩ : Assignment) ∈ w

/-- Three accounts, with balances 100, 50 and 70. -/
def Demo.op3 : Operator := Demo.mkOperator [Demo.account 0 0 100, Demo.account 1 0 50, Demo.account 2 0 70]

/-- The value assigned to `name` in a witness record (the first entry of that name). -/
def witnessValue (w : List Assignment) (name : String) : Option Value :=
  (w.find? (fun a => a.name == name)).map (fun a => a.value)

/-- The base names that are suffixed with the batch position alone. -/
def plainBaseNames : List String :=
  [baseNameRootHashBefore, baseNameRootHashAfter,
   baseNameSenderAccountPubkeyx, baseNameSenderAccountPubkeyy,
   baseNameSenderAccountIndexBefore, baseNameSenderAccountNonceBefore,
   baseNameSenderAccountBalanceBefore,
   baseNameSenderAccountIndexAfter, baseNameSenderAccountNonceAfter,
   baseNameSenderAccountBalanceAfter,
   baseNameReceiverAccountPubkeyx, baseNameReceiverAccountPubkeyy,
   baseNameReceiverAccountIndexBefore, baseNameReceiverAccountNonceBefore,
   baseNameReceiverAccountBalanceBefore,
   baseNameReceiverAccountIndexAfter, baseNameReceiverAccountNonceAfter,
   baseNameReceiverAccountBalanceAfter,
   baseNameTransferAmount, baseNameTransferSigRx, baseNameTransferSigRy, baseNameTransferSigS]

/-- The base names that are suffixed with the batch position and a proof-path ordinal. -/
def pathBaseNames : List String :=
  [baseNameSenderMerkleBefore, baseNameSenderProofHelperBefore,
   baseNameReceiverMerkleBefore, baseNameReceiverProofHelperBefore,
   baseNameSenderMerkleAfter, baseNameSenderProofHelperAfter,
   baseNameReceiverMerkleAfter, baseNameReceiverProofHelperAfter]

/-- A witness name written under the suffix `ext`: a plain base name followed by `ext`,
or a proof-path base name followed by `ext` and `decimal(i)` for a proof-path ordinal `i`. -/
def IsWitnessNameFor (ext : String) (name : String) : Prop :=
  (∃ b ∈ plainBaseNames, name = b ++ ext) ∨
  (∃ b ∈ pathBaseNames, ∃ i : Nat, name = b ++ ext ++ Itoa i)

/-- A witness name `updateState` can write for batch position `n`: a plain base name
followed by `decimal(n)`, or a proof-path base name followed by `decimal(n)` and
`decimal(i)` for a proof-path ordinal `i`. -/
def IsWitnessName (n : Int) (name : String) : Prop := IsWitnessNameFor (Itoa n) name

/-- No witness name of batch position `n` is in the witness record of the operator. -/
def Operator.PositionUnused (o : Operator) (n : Int) : Prop :=
  ∀ a ∈ o.witnesses, ¬ IsWitnessName n a.name

/-- The names of the assignments `es` are pairwise distinct and none of them is in the
record `w`: the run of `Assign` calls `es` on `w` does not panic. -/
def NamesFresh (w es : List Assignment) : Prop :=
  (es.map Assignment.name).Nodup ∧ ∀ a ∈ w, a.name ∉ es.map Assignment.name

/-- The iterations `i`, ..., `i + k - 1` of a proof loop index the proofs and the proof
helpers in range. -/
def LoopInRange (bound : Nat) (proofS proofR : List (List Nat)) (helperS helperR : List Int)
    (k i : Nat) : Prop :=
  ∀ j, i ≤ j → j < i + k → j < proofS.length ∧ j < proofR.length ∧
    (j + 1 < bound → j < helperS.length ∧ j < helperR.length)

/-- Whether `b1 ++ d1 :: s1 = b2 ++ d2 :: s2` is excluded for all decimal digits
`d1 ≠ d2` and all `s1`, `s2`: the two base names differ at some position, or one ends
where the other goes on with a character that is no digit. -/
def noClash : List Char → List Char → Bool
  | [], [] => true
  | [], c :: _ => !c.isDigit
  | c :: _, [] => !c.isDigit
  | c1 :: b1, c2 :: b2 => if c1 = c2 then noClash b1 b2 else true

namespace Demo

/-- The collaborators of `env`, with a `VerifyProof` that rejects every proof. -/
def envRejecting : Env := { env with verifyProof := fun _ _ _ _ => false }

/-- The collaborators of `env`, with an `eddsa.Verify` that returns an error. -/
def envFailing : Env := { env with eddsaVerify := fun _ _ _ => .error 7 }

/-- The collaborators of `env`, with an accumulator that fails to build any proof. -/
def envNoProof : Env := { env with buildReaderProof := fun _ _ _ => .error 3 }

/-- A signed transfer of 10 from the account of slot 0 to a receiver key that has the X
of slot 1 and another Y than the key stored there. -/
def otherY : Transfer :=
  (Transfer.Sign env (NewTransfer 10 ⟨1000, 2000⟩ ⟨1001, 9999⟩ 0) 5).2.2

end Demo

/-! ## Definitions for the names of one call and for the hash object -/

/-- Whether two base names differ at a position both of them have: then no suffixes
make them equal. -/
def diverge : List Char → List Char → Bool
  | c1 :: b1, c2 :: b2 => if c1 = c2 then diverge b1 b2 else true
  | _, _ => false

/-- The number a sequence of decimal digits stands for. -/
def decimalValue (cs : List Char) : Nat :=
  cs.foldl (fun a c => a * 10 + (c.toNat - 48)) 0

/-- The plain base names in the order in which `updateState` assigns them. -/
def callPlainBaseNames : List String :=
  [baseNameSenderAccountPubkeyx, baseNameSenderAccountPubkeyy,
   baseNameReceiverAccountPubkeyx, baseNameReceiverAccountPubkeyy,
   baseNameSenderAccountIndexBefore, baseNameSenderAccountNonceBefore,
   baseNameSenderAccountBalanceBefore,
   baseNameReceiverAccountIndexBefore, baseNameReceiverAccountNonceBefore,
   baseNameReceiverAccountBalanceBefore,
   baseNameRootHashBefore,
   baseNameTransferAmount, baseNameTransferSigRx, baseNameTransferSigRy, baseNameTransferSigS,
   baseNameSenderAccountIndexAfter, baseNameSenderAccountNonceAfter,
   baseNameSenderAccountBalanceAfter,
   baseNameReceiverAccountIndexAfter, baseNameReceiverAccountNonceAfter,
   baseNameReceiverAccountBalanceAfter,
   baseNameRootHashAfter]

/-- The state of a `hash.Hash`: the bytes written to it since the last `Reset`. -/
structure Hasher where
  written : List Nat
  deriving DecidableEq, Repr

/-- `h.Reset()`. -/
def Hasher.Reset (_ : Hasher) : Hasher := ⟨[]⟩

/-- `h.Write(p)`. -/
def Hasher.Write (h : Hasher) (p : List Nat) : Hasher := ⟨h.written ++ p⟩

/-- `h.Sum([]byte{})`: the digest of the bytes written, the state being left as it is. -/
def Hasher.Sum (env : Env) (h : Hasher) : List Nat := env.hash h.written

/-- Lines 51-64 of `Transfer.Sign`, on a hash object found in state `h`: the hash object
at the call of `h.Sum`, and the message `msg` handed to `eddsa.Sign`. -/
def Transfer.signMessage (env : Env) (t : Transfer) (h : Hasher) : Hasher × Nat :=
  let h := h.Reset
  let frNonce := t.nonce % 2 ^ 64
  let h := h.Write (frBytes frNonce)
  let h := h.Write (frBytes t.amount)
  let h := h.Write (frBytes t.senderPubKey.X)
  let h := h.Write (frBytes t.senderPubKey.Y)
  let h := h.Write (frBytes t.receiverPubKey.X)
  let h := h.Write (frBytes t.receiverPubKey.Y)
  let bmsg := h.Sum env
  (h, frSetBytes bmsg)

/-- Lines 78-92 of `Transfer.Verify`, on a hash object found in state `h`: the hash
object at the call of `h.Sum`, and the message `msg` handed to `eddsa.Verify`. -/
def Transfer.verifyMessage (env : Env) (t : Transfer) (h : Hasher) : Hasher × Nat :=
  let h := h.Reset
  let frNonce := t.nonce % 2 ^ 64
  let h := h.Write (frBytes frNonce)
  let h := h.Write (frBytes t.amount)
  let h := h.Write (frBytes t.senderPubKey.X)
  let h := h.Write (frBytes t.senderPubKey.Y)
  let h := h.Write (frBytes t.receiverPubKey.X)
  let h := h.Write (frBytes t.receiverPubKey.Y)
  let bmsg := h.Sum env
  (h, frSetBytes bmsg)

/-- The byte sequence of the specification:
`nonce || amount || sender X || sender Y || receiver X || receiver Y`, each a chunk of 256
bits. -/
def Transfer.specEncoding (t : Transfer) : List Nat :=
  frBytes (t.nonce % 2 ^ 64) ++ frBytes t.amount ++
    frBytes t.senderPubKey.X ++ frBytes t.senderPubKey.Y ++
    frBytes t.receiverPubKey.X ++ frBytes t.receiverPubKey.Y

namespace Demo

/-- The transfer of 10 from the account of slot 0 to that of slot 1, not yet signed. -/
def unsigned : Transfer := NewTransfer 10 ⟨1000, 2000⟩ ⟨1001, 2001⟩ 0

end Demo

/-! ## The assignments of one call -/

/-- The assignments of a call before the signature check (lines 185-238), in program
order: the accounts before update, the root and the two proofs before update, the
transfer. -/
def entriesBefore (ext : String) (sa ra : Account) (t : Transfer) (rootB : List Nat)
    (pSB pRB : List (List Nat)) (hSB hRB : List Int) : List Assignment :=
  accountsBeforeEntries ext sa ra ++
    [⟨.Public, baseNameRootHashBefore ++ ext, .bytes rootB⟩] ++
    proofLoopEntries baseNameSenderMerkleBefore baseNameReceiverMerkleBefore
      baseNameSenderProofHelperBefore baseNameReceiverProofHelperBefore ext
      pRB.length pSB pRB hSB hRB pSB.length 0 ++
    transferEntries ext t

/-- The assignments of a call after the checks (lines 272-326), in program order: the
accounts after update, the root and the two proofs after update. -/
def entriesAfter (ext : String) (sa ra : Account) (rootA : List Nat)
    (pSA pRA : List (List Nat)) (hSA hRA : List Int) : List Assignment :=
  accountsAfterEntries ext sa ra ++
    [⟨.Public, baseNameRootHashAfter ++ ext, .bytes rootA⟩] ++
    proofLoopEntries baseNameSenderMerkleAfter baseNameReceiverMerkleAfter
      baseNameSenderProofHelperAfter baseNameReceiverProofHelperAfter ext
      pSA.length pSA pRA hSA hRA pSA.length 0

/-! ## Lemmas on bytes, slots and serialization -/

theorem toBytesBE_length (len n : Nat) : (toBytesBE len n).length = len := by
  induction len generalizing n with
  | zero => rfl
  | succ k ih => simp [toBytesBE, ih]

theorem fromBytesBE_append_singleton (bs : List Nat) (b : Nat) :
    fromBytesBE (bs ++ [b]) = fromBytesBE bs * 256 + b := by
  simp [fromBytesBE, List.foldl_append]

theorem fromBytesBE_toBytesBE (len n : Nat) :
    fromBytesBE (toBytesBE len n) = n % 256 ^ len := by
  induction len generalizing n with
  | zero => simp [toBytesBE, fromBytesBE, Nat.mod_one]
  | succ k ih =>
    rw [toBytesBE, fromBytesBE_append_singleton, ih, pow_succ, Nat.mul_comm (256 ^ k) 256,
      Nat.mod_mul]
    omega

theorem frModulus_pos : 0 < frModulus := by decide

theorem frModulus_le : frModulus ≤ 256 ^ 32 := by decide

theorem two_pow_64_le : 2 ^ 64 ≤ 256 ^ 32 := by decide

theorem fromBytesBE_frBytes (a : Nat) : frSetBytes (frBytes a) = a % frModulus := by
  unfold frSetBytes frBytes
  rw [fromBytesBE_toBytesBE, Nat.mod_eq_of_lt (lt_of_lt_of_le (Nat.mod_lt _ frModulus_pos) frModulus_le),
    Nat.mod_mod]

theorem frBytes_length (a : Nat) : (frBytes a).length = 32 := toBytesBE_length _ _

theorem Serialize_length (ac : Account) : ac.Serialize.length = SizeAccount := by
  simp [Account.Serialize, toBytesBE_length, frBytes_length, SizeAccount]

theorem chunks5 {α} (a b c d e : List α) (ha : a.length = 32) (hb : b.length = 32)
    (hc : c.length = 32) (hd : d.length = 32) (he : e.length = 32) :
    (a ++ b ++ c ++ d ++ e).take 32 = a ∧ ((a ++ b ++ c ++ d ++ e).drop 32).take 32 = b ∧
    ((a ++ b ++ c ++ d ++ e).drop 64).take 32 = c ∧
    ((a ++ b ++ c ++ d ++ e).drop 96).take 32 = d ∧
    ((a ++ b ++ c ++ d ++ e).drop 128).take 32 = e := by
  have hnil : ∀ (l : List α) (n : Nat), l.length = 32 → 32 ≤ n → l.drop n = [] :=
    fun l n hl hn => List.drop_eq_nil_of_le (by omega)
  have htake : ∀ (l : List α), l.length = 32 → l.take 32 = l :=
    fun l hl => List.take_of_length_le (by omega)
  simp [List.take_append_eq_append_take, List.drop_append_eq_append_drop, ha, hb, hc, hd, he,
    hnil a 96 ha, hnil a 128 ha, hnil b 64 hb, hnil b 96 hb, hnil c 64 hc, htake e he]

/-- Reading back a serialized account gives the account with its fields reduced. -/
theorem Deserialize_Serialize (ac : Account) :
    Deserialize ac.Serialize = .ok
      { index := ac.index % 2 ^ 64, nonce := ac.nonce % 2 ^ 64, balance := ac.balance % frModulus,
        pubKey := ⟨ac.pubKey.X % frModulus, ac.pubKey.Y % frModulus⟩ } := by
  have h64 : ∀ n, n % 2 ^ 64 % 256 ^ 32 = n % 2 ^ 64 := fun n =>
    Nat.mod_eq_of_lt (lt_of_lt_of_le (Nat.mod_lt _ (by decide)) two_pow_64_le)
  have hlen := Serialize_length ac
  unfold Deserialize
  rw [if_neg (by simp [hlen])]
  unfold Account.Serialize
  obtain ⟨h1, h2, h3, h4, h5⟩ := chunks5 (toBytesBE 32 (ac.index % 2 ^ 64))
    (toBytesBE 32 (ac.nonce % 2 ^ 64)) (frBytes ac.balance) (frBytes ac.pubKey.X)
    (frBytes ac.pubKey.Y) (toBytesBE_length _ _) (toBytesBE_length _ _) (frBytes_length _)
    (frBytes_length _) (frBytes_length _)
  rw [h1, h2, h3, h4, h5, fromBytesBE_toBytesBE, fromBytesBE_toBytesBE, fromBytesBE_frBytes,
    fromBytesBE_frBytes, fromBytesBE_frBytes, h64, h64, Nat.mod_mod, Nat.mod_mod]

theorem getElem?_copyBytes (dst src : List Nat) (k : Nat) :
    (copyBytes dst src)[k]? = if k < src.length ∧ k < dst.length then src[k]? else dst[k]? := by
  unfold copyBytes
  rw [List.getElem?_append, List.getElem?_take, List.getElem?_drop, List.length_take]
  by_cases h1 : k < src.length <;> by_cases h2 : k < dst.length
  · rw [if_pos (by omega), if_pos h2, if_pos ⟨h1, h2⟩]
  · rw [if_neg (by omega), if_neg (by omega),  List.getElem?_eq_none (by omega),
      List.getElem?_eq_none (by omega)]
  · rw [if_neg (by omega), if_neg (by omega)]
    congr 1; omega
  · rw [if_neg (by omega), if_neg (by omega),  List.getElem?_eq_none (by omega),
      List.getElem?_eq_none (by omega)]

theorem length_copyBytes (dst src : List Nat) : (copyBytes dst src).length = dst.length := by
  unfold copyBytes
  simp only [List.length_append, List.length_take, List.length_drop]
  omega

theorem length_copyFrom {dst src : List Nat} {lo : Nat} {out : List Nat}
    (h : copyFrom dst lo src = some out) : out.length = dst.length := by
  unfold copyFrom at h
  split at h
  · cases h
    simp only [List.length_append, List.length_take, length_copyBytes, List.length_drop]
    omega
  · cases h

theorem length_copyRange {dst src : List Nat} {lo hi : Nat} {out : List Nat}
    (h : copyRange dst lo hi src = some out) : out.length = dst.length := by
  unfold copyRange at h
  split at h
  · cases h
    simp only [List.length_append, List.length_take, length_copyBytes, List.length_drop]
    omega
  · cases h

theorem getElem?_copyFrom {dst src : List Nat} {lo : Nat} {out : List Nat}
    (h : copyFrom dst lo src = some out) (k : Nat) :
    out[k]? = if lo ≤ k ∧ k < lo + src.length ∧ k < dst.length then src[k - lo]? else dst[k]? := by
  unfold copyFrom at h
  split at h
  next hlo =>
    cases h
    rw [List.getElem?_append, List.length_take, getElem?_copyBytes, List.length_drop,
      List.getElem?_drop, List.getElem?_take]
    by_cases h1 : k < lo
    · rw [if_pos (by omega), if_pos h1, if_neg (by omega)]
    · rw [if_neg (by omega)]
      have h3 : min lo dst.length = lo := by omega
      rw [h3]
      by_cases h4 : k - lo < src.length ∧ k - lo < dst.length - lo
      · rw [if_pos h4, if_pos (by omega)]
      · rw [if_neg h4, if_neg (by omega)]
        congr 1; omega
  next => cases h

/-- Bytes `[i * w, i * w + w)` of a sequence: the slot `i` of width `w`. -/
theorem getElem?_slot (s : List Nat) (a w k : Nat) :
    ((s.drop a).take w)[k]? = if k < w then s[a + k]? else none := by
  rw [List.getElem?_take, List.getElem?_drop]

theorem slot_copyFrom_same {dst src out : List Nat} {i w : Nat}
    (h : copyFrom dst (i * w) src = some out) (hsrc : src.length = w)
    (hin : i * w + w ≤ dst.length) : (out.drop (i * w)).take w = src := by
  apply List.ext_getElem?
  intro k
  rw [getElem?_slot, getElem?_copyFrom h]
  by_cases hk : k < w
  · rw [if_pos hk, if_pos (by omega)]
    congr 1; omega
  · rw [if_neg hk, List.getElem?_eq_none (by omega)]

theorem slot_copyFrom_other {dst src out : List Nat} {i j w : Nat}
    (h : copyFrom dst (i * w) src = some out) (hsrc : src.length = w) (hij : j ≠ i) :
    (out.drop (j * w)).take w = (dst.drop (j * w)).take w := by
  apply List.ext_getElem?
  intro k
  rw [getElem?_slot, getElem?_slot, getElem?_copyFrom h]
  by_cases hk : k < w
  · rw [if_pos hk, if_pos hk, if_neg]
    rintro ⟨h1, h2, -⟩
    rcases Nat.lt_or_gt_of_ne hij with hlt | hgt
    · have := Nat.mul_le_mul_right w (Nat.succ_le_of_lt hlt)
      rw [Nat.succ_mul] at this
      omega
    · have := Nat.mul_le_mul_right w (Nat.succ_le_of_lt hgt)
      rw [Nat.succ_mul] at this
      omega
  · rw [if_neg hk, if_neg hk]

theorem getElem?_copyRange {dst src : List Nat} {lo hi : Nat} {out : List Nat}
    (h : copyRange dst lo hi src = some out) (k : Nat) :
    out[k]? = if lo ≤ k ∧ k < hi ∧ k < lo + src.length then src[k - lo]? else dst[k]? := by
  unfold copyRange at h
  split at h
  next hc =>
    obtain ⟨h1, h2⟩ := hc
    cases h
    rw [List.append_assoc, List.getElem?_append, List.length_take, List.getElem?_take]
    by_cases hk : k < lo
    · rw [if_pos (by omega), if_pos hk, if_neg (by omega)]
    · rw [if_neg (by omega)]
      have h3 : min lo dst.length = lo := by omega
      rw [h3, List.getElem?_append, length_copyBytes, List.length_take, List.length_drop,
        getElem?_copyBytes, List.length_take, List.length_drop, List.getElem?_take,
        List.getElem?_drop, List.getElem?_drop]
      have h4 : min (hi - lo) (dst.length - lo) = hi - lo := by omega
      rw [h4]
      by_cases hk2 : k < hi
      · rw [if_pos (by omega)]
        by_cases hk3 : k - lo < src.length
        · rw [if_pos ⟨hk3, by omega⟩, if_pos (by omega)]
        · rw [if_neg (by omega), if_pos (by omega), if_neg (by omega)]
          congr 1; omega
      · rw [if_neg (by omega), if_neg (by omega)]
        congr 1; omega
  next => cases h

theorem seg_copyRange_same {dst src out : List Nat} {i w : Nat}
    (h : copyRange dst (i * w) ((i + 1) * w) src = some out) (hsrc : src.length = w) :
    (out.drop (i * w)).take w = src := by
  have hw : (i + 1) * w = i * w + w := Nat.succ_mul i w
  apply List.ext_getElem?
  intro k
  rw [getElem?_slot, getElem?_copyRange h]
  by_cases hk : k < w
  · rw [if_pos hk, if_pos (by omega)]
    congr 1; omega
  · rw [if_neg hk, List.getElem?_eq_none (by omega)]

theorem seg_copyRange_other {dst src out : List Nat} {i j w : Nat}
    (h : copyRange dst (i * w) ((i + 1) * w) src = some out) (hij : j ≠ i) :
    (out.drop (j * w)).take w = (dst.drop (j * w)).take w := by
  have hw : (i + 1) * w = i * w + w := Nat.succ_mul i w
  apply List.ext_getElem?
  intro k
  rw [getElem?_slot, getElem?_slot, getElem?_copyRange h]
  by_cases hk : k < w
  · rw [if_pos hk, if_pos hk, if_neg]
    rintro ⟨h1, h2, -⟩
    rcases Nat.lt_or_gt_of_ne hij with hlt | hgt
    · have := Nat.mul_le_mul_right w (Nat.succ_le_of_lt hlt)
      rw [Nat.succ_mul] at this
      omega
    · have := Nat.mul_le_mul_right w (Nat.succ_le_of_lt hgt)
      rw [Nat.succ_mul] at this
      omega
  · rw [if_neg hk, if_neg hk]

/-! ## Lemmas on reading and writing accounts -/

theorem slotOffset_of_le {len i : Nat} (h : i * SizeAccount ≤ len) :
    slotOffset len i = i * SizeAccount := by
  unfold slotOffset
  split
  next hlen =>
    apply Nat.mod_eq_of_lt
    have : (2 : Nat) ^ 63 < 2 ^ 64 := by decide
    omega
  next => rfl

/-- A slot that lies inside `State` is read where it lies. -/
theorem readAccount_inRange {o : Operator} {i : Nat}
    (h : i * SizeAccount + SizeAccount ≤ o.State.length) :
    o.readAccount i =
      some (Deserialize ((o.State.drop (i * SizeAccount)).take SizeAccount)) := by
  unfold Operator.readAccount
  dsimp only
  rw [slotOffset_of_le (by omega), if_pos h]

theorem readAccount_ok {o : Operator} {i : Nat} {a : Account}
    (h : o.readAccount i = some (.ok a)) (hle : i * SizeAccount ≤ o.State.length) :
    i * SizeAccount + SizeAccount ≤ o.State.length ∧
      Deserialize ((o.State.drop (i * SizeAccount)).take SizeAccount) = .ok a := by
  unfold Operator.readAccount at h
  dsimp only at h
  rw [slotOffset_of_le hle] at h
  split at h
  next hle' => exact ⟨hle', by simpa using h⟩
  next => cases h

theorem readAccount_deser {o : Operator} {i : Nat} {a : Account}
    (h : o.readAccount i = some (.ok a)) : ∃ data, Deserialize data = .ok a := by
  unfold Operator.readAccount at h
  dsimp only at h
  split at h
  next => exact ⟨_, by simpa using h⟩
  next => cases h

theorem Deserialize_reduced {data : List Nat} {a : Account} (h : Deserialize data = .ok a) :
    a.index % 2 ^ 64 = a.index ∧ a.nonce % 2 ^ 64 = a.nonce ∧
      a.balance % frModulus = a.balance ∧ a.pubKey.X % frModulus = a.pubKey.X ∧
      a.pubKey.Y % frModulus = a.pubKey.Y := by
  unfold Deserialize at h
  split at h
  · cases h
  · cases h
    simp [frSetBytes, Nat.mod_mod]

theorem readAccount_of_slot {o : Operator} {i : Nat} {a : Account}
    (hin : i * SizeAccount + SizeAccount ≤ o.State.length)
    (hslot : (o.State.drop (i * SizeAccount)).take SizeAccount = a.Serialize) :
    o.readAccount i = some (.ok
      { index := a.index % 2 ^ 64, nonce := a.nonce % 2 ^ 64, balance := a.balance % frModulus,
        pubKey := ⟨a.pubKey.X % frModulus, a.pubKey.Y % frModulus⟩ }) := by
  rw [readAccount_inRange hin, hslot, Deserialize_Serialize]

theorem Deserialize_slot_ok (s : List Nat) (lo : Nat) (h : lo + SizeAccount ≤ s.length) :
    ∃ a, Deserialize ((s.drop lo).take SizeAccount) = .ok a := by
  unfold Deserialize
  rw [if_neg]
  · exact ⟨_, rfl⟩
  · rw [List.length_take, List.length_drop]
    simp only [ne_eq, not_not]
    omega

theorem readAccount_of_in {o : Operator} {i : Nat}
    (h : i * SizeAccount + SizeAccount ≤ o.State.length) :
    ∃ a, o.readAccount i = some (.ok a) := by
  obtain ⟨a, ha⟩ := Deserialize_slot_ok o.State (i * SizeAccount) h
  exact ⟨a, by rw [readAccount_inRange h, ha]⟩

theorem readAccount_ne_error {o : Operator} {i : Nat} {e : Error} :
    o.readAccount i ≠ some (.error e) := by
  intro h
  unfold Operator.readAccount at h
  dsimp only at h
  split at h
  next hin =>
    obtain ⟨a, ha⟩ := Deserialize_slot_ok o.State _ hin
    rw [ha] at h
    cases h
  next => cases h

/-- Reading a slot depends on `State` alone. -/
theorem readAccount_congr {o o2 : Operator} (h : o.State = o2.State) (i : Nat) :
    o.readAccount i = o2.readAccount i := by
  unfold Operator.readAccount
  rw [h]

theorem writeAccounts_some {env : Env} {o o2 : Operator} {posS posR : Nat} {a b : Account}
    (h : o.writeAccounts env posS posR a b = some o2) :
    ∃ st1 hs1, copyFrom o.State (posS * SizeAccount) a.Serialize = some st1 ∧
      copyRange o.HashState (posS * env.hsize) ((posS + 1) * env.hsize) (env.hash a.Serialize)
        = some hs1 ∧
      copyFrom st1 (posR * SizeAccount) b.Serialize = some o2.State ∧
      copyRange hs1 (posR * env.hsize) ((posR + 1) * env.hsize) (env.hash b.Serialize)
        = some o2.HashState ∧
      o2.AccountMap = o.AccountMap ∧ o2.nbAccounts = o.nbAccounts ∧ o2.batch = o.batch ∧
      o2.witnesses = o.witnesses := by
  unfold Operator.writeAccounts at h
  dsimp only at h
  split at h
  · cases h
  next st1 h1 =>
    split at h
    · cases h
    next hs1 h2 =>
      split at h
      · cases h
      next st2 h3 =>
        split at h
        · cases h
        next hs2 h4 =>
          cases h
          exact ⟨st1, hs1, h1, h2, h3, h4, rfl, rfl, rfl, rfl⟩

/-- The offsets of a ledger update that did not panic lie inside `State`. -/
theorem writeAccounts_bounds {env : Env} {o o2 : Operator} {posS posR : Nat} {a b : Account}
    (h : o.writeAccounts env posS posR a b = some o2) :
    posS * SizeAccount ≤ o.State.length ∧ posR * SizeAccount ≤ o.State.length := by
  obtain ⟨st1, hs1, h1, -, h3, -, -⟩ := writeAccounts_some h
  have l1 := length_copyFrom h1
  unfold copyFrom at h1 h3
  split at h1
  next c1 =>
    split at h3
    next c3 => exact ⟨c1, by rw [← l1]; exact c3⟩
    next => cases h3
  next => cases h1

theorem lookup_mem {α β} [BEq α] {l : List (α × β)} {k : α} {v : β}
    (h : l.lookup k = some v) : ∃ p ∈ l, p.2 = v := by
  induction l with
  | nil => cases h
  | cons p l ih =>
    obtain ⟨a, b⟩ := p
    rw [List.lookup_cons] at h
    split at h
    · exact ⟨(a, b), List.mem_cons_self _ _, by simpa using h⟩
    · obtain ⟨q, hq, hv⟩ := ih h
      exact ⟨q, List.mem_cons_of_mem _ hq, hv⟩

theorem Operator.WellFormed.slot_in {env : Env} {o : Operator} (hwf : o.WellFormed env) {key : List Nat}
    {pos : Nat} (h : o.AccountMap.lookup key = some pos) :
    pos * SizeAccount + SizeAccount ≤ o.State.length ∧
      (pos + 1) * env.hsize ≤ o.HashState.length := by
  obtain ⟨p, hp, rfl⟩ := lookup_mem h
  have hlt := hwf.slots p hp
  rw [hwf.state_len, hwf.hash_len]
  constructor
  · have := Nat.mul_le_mul_left SizeAccount (Nat.succ_le_of_lt hlt)
    rw [Nat.mul_succ] at this
    rw [Nat.mul_comm p.2]; exact this
  · rw [Nat.mul_comm]
    exact Nat.mul_le_mul_left _ (Nat.succ_le_of_lt hlt)

/-! ## Lemmas on `Assign` -/

theorem Assign_eq_some {w w' : List Assignment} {v : Visibility} {n : String} {x : Value}
    (h : Assign w v n x = some w') : w' = w ++ [⟨v, n, x⟩] ∧ ∀ a ∈ w, a.name ≠ n := by
  unfold Assign at h
  split at h
  · cases h
  next hany =>
    refine ⟨(Option.some.inj h).symm, fun a ha hn => hany ?_⟩
    exact List.any_eq_true.mpr ⟨a, ha, by simp [hn]⟩

theorem Assign_of_fresh {w : List Assignment} (v : Visibility) {n : String} (x : Value)
    (h : ∀ a ∈ w, a.name ≠ n) : Assign w v n x = some (w ++ [⟨v, n, x⟩]) := by
  unfold Assign
  rw [if_neg]
  intro hany
  obtain ⟨a, ha, hn⟩ := List.any_eq_true.mp hany
  exact h a ha (by simpa using hn)

theorem assignAll_nil (w : List Assignment) : assignAll w [] = some w := rfl

theorem assignAll_cons (w : List Assignment) (a : Assignment) (rest : List Assignment) :
    assignAll w (a :: rest) =
      (Assign w a.visibility a.name a.value).bind (fun w1 => assignAll w1 rest) := by
  rw [assignAll]
  cases Assign w a.visibility a.name a.value <;> rfl

theorem assignAll_singleton (w : List Assignment) (a : Assignment) :
    assignAll w [a] = Assign w a.visibility a.name a.value := by
  rw [assignAll_cons]
  cases Assign w a.visibility a.name a.value <;> rfl

theorem assignAll_append (w a b : List Assignment) :
    assignAll w (a ++ b) = (assignAll w a).bind (fun w1 => assignAll w1 b) := by
  induction a generalizing w with
  | nil => rfl
  | cons x a ih =>
    rw [List.cons_append, assignAll_cons, assignAll_cons]
    cases Assign w x.visibility x.name x.value with
    | none => rfl
    | some w1 => exact ih w1

/-- A run of `Assign` calls does not panic exactly when its names are new and distinct;
it appends the calls to the record. -/
theorem assignAll_some_iff {w es w' : List Assignment} :
    assignAll w es = some w' ↔ w' = w ++ es ∧ NamesFresh w es := by
  induction es generalizing w w' with
  | nil =>
    simp [assignAll, NamesFresh, eq_comm]
  | cons e es ih =>
    rw [assignAll_cons]
    constructor
    · intro h
      cases h1 : Assign w e.visibility e.name e.value with
      | none => rw [h1] at h; cases h
      | some w1 =>
        rw [h1] at h
        obtain ⟨rfl, hf⟩ := Assign_eq_some h1
        obtain ⟨rfl, hnd, hfresh⟩ := ih.mp h
        refine ⟨by simp, ?_, ?_⟩
        · rw [List.map_cons, List.nodup_cons]
          exact ⟨fun hmem => hfresh ⟨e.visibility, e.name, e.value⟩ (by simp) hmem, hnd⟩
        · intro a ha hmem
          rw [List.map_cons, List.mem_cons] at hmem
          rcases hmem with hmem | hmem
          · exact hf a ha hmem
          · exact hfresh a (List.mem_append_left _ ha) hmem
    · rintro ⟨rfl, hnd, hfresh⟩
      rw [List.map_cons, List.nodup_cons] at hnd
      have h1 : Assign w e.visibility e.name e.value = some (w ++ [e]) :=
        Assign_of_fresh _ _ (fun a ha hn => hfresh a ha (by simp [hn]))
      rw [h1]
      refine ih.mpr ⟨by simp, hnd.2, ?_⟩
      intro a ha hmem
      rcases List.mem_append.mp ha with ha | ha
      · exact hfresh a ha (List.mem_cons_of_mem _ hmem)
      · rw [List.mem_singleton.mp ha] at hmem
        exact hnd.1 hmem

theorem assignAll_some {w es w' : List Assignment} (h : assignAll w es = some w') :
    w' = w ++ es := (assignAll_some_iff.mp h).1

theorem assignAll_of_fresh {w es : List Assignment} (h : NamesFresh w es) :
    assignAll w es = some (w ++ es) := assignAll_some_iff.mpr ⟨rfl, h⟩

theorem NamesFresh.append {w a b : List Assignment} (h : NamesFresh w (a ++ b)) :
    NamesFresh w a ∧ NamesFresh (w ++ a) b := by
  have h1 := assignAll_of_fresh h
  rw [assignAll_append] at h1
  cases h2 : assignAll w a with
  | none => rw [h2] at h1; cases h1
  | some w1 =>
    rw [h2] at h1
    obtain ⟨rfl, hfa⟩ := assignAll_some_iff.mp h2
    exact ⟨hfa, (assignAll_some_iff.mp h1).2⟩

theorem assignAccountsBefore_eq (w : List Assignment) (ext : String) (sa ra : Account) :
    assignAccountsBefore w ext sa ra = assignAll w (accountsBeforeEntries ext sa ra) := by
  simp only [assignAccountsBefore, accountsBeforeEntries, assignAll_cons, assignAll_nil, Option.bind_eq_bind,
    Option.bind_some]

theorem assignTransfer_eq (w : List Assignment) (ext : String) (t : Transfer) :
    assignTransfer w ext t = assignAll w (transferEntries ext t) := by
  simp only [assignTransfer, transferEntries, assignAll_cons, assignAll_nil, Option.bind_eq_bind,
    Option.bind_some]

theorem assignAccountsAfter_eq (w : List Assignment) (ext : String) (sa ra : Account) :
    assignAccountsAfter w ext sa ra = assignAll w (accountsAfterEntries ext sa ra) := by
  simp only [assignAccountsAfter, accountsAfterEntries, assignAll_cons, assignAll_nil, Option.bind_eq_bind,
    Option.bind_some]

/-! ## Lemmas on the proof loops -/

theorem bind_eq_some_iff' {α β} {x : Option α} {f : α → Option β} {b : β} :
    x.bind f = some b ↔ ∃ a, x = some a ∧ f a = some b := by
  cases x <;> simp

/-- One iteration of a proof loop does not panic exactly when its indices are in range
and its names are new; it appends its assignments to the record. -/
theorem proofStep_some_iff {w w' : List Assignment} {nameS nameR nameHS nameHR ext : String}
    {bound : Nat} {proofS proofR : List (List Nat)} {helperS helperR : List Int} {i : Nat} :
    proofStep w nameS nameR nameHS nameHR ext bound proofS proofR helperS helperR i = some w' ↔
      (i < proofS.length ∧ i < proofR.length ∧
        (i + 1 < bound → i < helperS.length ∧ i < helperR.length)) ∧
      assignAll w (proofStepEntries nameS nameR nameHS nameHR ext bound proofS proofR
        helperS helperR i) = some w' := by
  unfold proofStep proofStepEntries
  by_cases h1 : i < proofS.length
  swap
  · rw [List.getElem?_eq_none (by omega)]
    simp [h1]
  by_cases h2 : i < proofR.length
  swap
  · rw [List.getElem?_eq_none (Nat.le_of_not_lt h2)]
    simp [h2]
  rw [List.getElem?_eq_getElem h1, List.getElem?_eq_getElem h2]
  dsimp only
  by_cases hb : i + 1 < bound
  · simp only [hb, ↓reduceIte]
    by_cases h3 : i < helperS.length
    swap
    · rw [List.getElem?_eq_none (Nat.le_of_not_lt h3)]
      simp only [h3, hb, false_and, imp_false, not_true_eq_false, and_false, iff_false]
      intro h
      split at h
      · cases h
      · split at h <;> cases h
    by_cases h4 : i < helperR.length
    swap
    · rw [List.getElem?_eq_getElem h3, List.getElem?_eq_none (Nat.le_of_not_lt h4)]
      simp only [h4, hb, and_false, imp_false, not_true_eq_false, false_and, iff_false]
      intro h
      split at h
      · cases h
      · split at h <;> cases h
    rw [List.getElem?_eq_getElem h3, List.getElem?_eq_getElem h4]
    dsimp only
    simp only [List.cons_append, List.nil_append, assignAll_cons, assignAll_nil,
      Option.bind_some, h1, h2, h3, h4, true_and, and_self, implies_true]
    cases Assign w Visibility.Secret (nameS ++ ext ++ Itoa i) (Value.bytes proofS[i]) with
    | none => simp
    | some w1 =>
      dsimp only [Option.bind]
      cases Assign w1 Visibility.Secret (nameR ++ ext ++ Itoa i) (Value.bytes proofR[i]) with
      | none => simp
      | some w2 =>
        dsimp only [Option.bind]
        cases Assign w2 Visibility.Secret (nameHS ++ ext ++ Itoa i) (Value.int helperS[i]) with
        | none => simp
        | some w3 =>
          dsimp only [Option.bind]
          cases Assign w3 Visibility.Secret (nameHR ++ ext ++ Itoa i)
            (Value.int helperR[i]) <;> simp
  · simp only [hb, ↓reduceIte]
    simp only [List.append_nil, assignAll_cons, assignAll_nil, Option.bind_some, h1, h2,
      true_and, hb, false_implies, and_true]
    cases Assign w Visibility.Secret (nameS ++ ext ++ Itoa i) (Value.bytes proofS[i]) with
    | none => simp
    | some w1 =>
      dsimp only [Option.bind]
      cases Assign w1 Visibility.Secret (nameR ++ ext ++ Itoa i) (Value.bytes proofR[i]) <;>
        simp

theorem LoopInRange.succ {bound : Nat} {proofS proofR : List (List Nat)}
    {helperS helperR : List Int} {k i : Nat} :
    LoopInRange bound proofS proofR helperS helperR (k + 1) i ↔
      (i < proofS.length ∧ i < proofR.length ∧
        (i + 1 < bound → i < helperS.length ∧ i < helperR.length)) ∧
      LoopInRange bound proofS proofR helperS helperR k (i + 1) := by
  unfold LoopInRange
  constructor
  · intro h
    exact ⟨h i (Nat.le_refl i) (by omega), fun j h1 h2 => h j (by omega) (by omega)⟩
  · rintro ⟨h0, h⟩ j h1 h2
    by_cases hj : j = i
    · subst hj; exact h0
    · exact h j (by omega) (by omega)

/-- A proof loop does not panic exactly when its indices are in range and its names are
new; it appends its assignments to the record. -/
theorem proofLoop_some_iff {nameS nameR nameHS nameHR ext : String}
    {bound : Nat} {proofS proofR : List (List Nat)} {helperS helperR : List Int}
    {k i : Nat} {w w' : List Assignment} :
    proofLoop nameS nameR nameHS nameHR ext bound proofS proofR helperS helperR k i w
        = some w' ↔
      LoopInRange bound proofS proofR helperS helperR k i ∧
      assignAll w (proofLoopEntries nameS nameR nameHS nameHR ext bound proofS proofR
        helperS helperR k i) = some w' := by
  induction k generalizing i w with
  | zero =>
    simp only [proofLoop, proofLoopEntries, assignAll, LoopInRange]
    constructor
    · intro h
      exact ⟨fun j h1 h2 => by omega, h⟩
    · exact fun h => h.2
  | succ k ih =>
    rw [proofLoop, proofLoopEntries, assignAll_append, LoopInRange.succ, bind_eq_some_iff']
    constructor
    · intro h
      split at h
      · cases h
      next w1 h1 =>
        obtain ⟨hr1, ha1⟩ := proofStep_some_iff.mp h1
        obtain ⟨hr2, ha2⟩ := ih.mp h
        exact ⟨⟨hr1, hr2⟩, w1, ha1, ha2⟩
    · rintro ⟨⟨hr1, hr2⟩, w1, ha1, ha2⟩
      rw [proofStep_some_iff.mpr ⟨hr1, ha1⟩]
      exact ih.mpr ⟨hr2, ha2⟩

theorem proofStep_entries {w w' : List Assignment} {nameS nameR nameHS nameHR ext : String}
    {bound : Nat} {proofS proofR : List (List Nat)} {helperS helperR : List Int} {i : Nat}
    (h : proofStep w nameS nameR nameHS nameHR ext bound proofS proofR helperS helperR i
      = some w') :
    w' = w ++ proofStepEntries nameS nameR nameHS nameHR ext bound proofS proofR
      helperS helperR i :=
  assignAll_some (proofStep_some_iff.mp h).2

theorem proofLoop_entries {nameS nameR nameHS nameHR ext : String}
    {bound : Nat} {proofS proofR : List (List Nat)} {helperS helperR : List Int}
    (k : Nat) {i : Nat} {w w' : List Assignment}
    (h : proofLoop nameS nameR nameHS nameHR ext bound proofS proofR helperS helperR k i w
      = some w') :
    w' = w ++ proofLoopEntries nameS nameR nameHS nameHR ext bound proofS proofR
      helperS helperR k i :=
  assignAll_some (proofLoop_some_iff.mp h).2

theorem proofStepEntries_elems (nameS nameR nameHS nameHR ext : String)
    (bound : Nat) {proofS proofR : List (List Nat)} (helperS helperR : List Int) {i : Nat}
    (h1 : i < proofS.length) (h2 : i < proofR.length) :
    ∃ ps pr, proofS[i]? = some ps ∧ proofR[i]? = some pr ∧
      (⟨.Secret, nameS ++ ext ++ Itoa i, .bytes ps⟩ : Assignment) ∈
        proofStepEntries nameS nameR nameHS nameHR ext bound proofS proofR helperS helperR i ∧
      (⟨.Secret, nameR ++ ext ++ Itoa i, .bytes pr⟩ : Assignment) ∈
        proofStepEntries nameS nameR nameHS nameHR ext bound proofS proofR helperS helperR i := by
  refine ⟨proofS[i], proofR[i], List.getElem?_eq_getElem h1, List.getElem?_eq_getElem h2, ?_, ?_⟩ <;>
  · unfold proofStepEntries
    rw [List.getElem?_eq_getElem h1, List.getElem?_eq_getElem h2]
    simp

theorem proofLoopEntries_elems (nameS nameR nameHS nameHR ext : String)
    {bound : Nat} {proofS proofR : List (List Nat)} {helperS helperR : List Int}
    (k : Nat) {i : Nat} (hr : LoopInRange bound proofS proofR helperS helperR k i) :
    ∀ j, i ≤ j → j < i + k → ∃ ps pr, proofS[j]? = some ps ∧ proofR[j]? = some pr ∧
      (⟨.Secret, nameS ++ ext ++ Itoa j, .bytes ps⟩ : Assignment) ∈
        proofLoopEntries nameS nameR nameHS nameHR ext bound proofS proofR helperS helperR k i ∧
      (⟨.Secret, nameR ++ ext ++ Itoa j, .bytes pr⟩ : Assignment) ∈
        proofLoopEntries nameS nameR nameHS nameHR ext bound proofS proofR helperS helperR
          k i := by
  induction k generalizing i with
  | zero => intro j h1 h2; omega
  | succ k ih =>
    obtain ⟨h0, hr'⟩ := LoopInRange.succ.mp hr
    intro j hj1 hj2
    rw [proofLoopEntries]
    by_cases hji : j = i
    · subst hji
      obtain ⟨ps, pr, e1, e2, m1, m2⟩ := proofStepEntries_elems nameS nameR nameHS nameHR ext
        bound helperS helperR h0.1 h0.2.1
      exact ⟨ps, pr, e1, e2, List.mem_append_left _ m1, List.mem_append_left _ m2⟩
    · obtain ⟨ps, pr, e1, e2, m1, m2⟩ := ih hr' j (by omega) (by omega)
      exact ⟨ps, pr, e1, e2, List.mem_append_right _ m1, List.mem_append_right _ m2⟩

theorem proofLoop_elems {nameS nameR nameHS nameHR ext : String}
    {bound : Nat} {proofS proofR : List (List Nat)} {helperS helperR : List Int}
    (k : Nat) {i : Nat} {w w' : List Assignment}
    (h : proofLoop nameS nameR nameHS nameHR ext bound proofS proofR helperS helperR k i w
      = some w') :
    ∀ j, i ≤ j → j < i + k → ∃ ps pr, proofS[j]? = some ps ∧ proofR[j]? = some pr ∧
      (⟨.Secret, nameS ++ ext ++ Itoa j, .bytes ps⟩ : Assignment) ∈ w' ∧
      (⟨.Secret, nameR ++ ext ++ Itoa j, .bytes pr⟩ : Assignment) ∈ w' := by
  intro j h1 h2
  obtain ⟨hr, ha⟩ := proofLoop_some_iff.mp h
  obtain ⟨ps, pr, e1, e2, m1, m2⟩ :=
    proofLoopEntries_elems nameS nameR nameHS nameHR ext k hr j h1 h2
  rw [assignAll_some ha]
  exact ⟨ps, pr, e1, e2, List.mem_append_right _ m1, List.mem_append_right _ m2⟩

theorem proofStepEntries_secret (nameS nameR nameHS nameHR ext : String)
    (bound : Nat) (proofS proofR : List (List Nat)) (helperS helperR : List Int) (i : Nat) :
    ∀ x ∈ proofStepEntries nameS nameR nameHS nameHR ext bound proofS proofR helperS helperR i,
      x.visibility = .Secret ∧
      (x.name = nameS ++ ext ++ Itoa i ∨ x.name = nameR ++ ext ++ Itoa i ∨
        x.name = nameHS ++ ext ++ Itoa i ∨ x.name = nameHR ++ ext ++ Itoa i) := by
  intro x hx
  unfold proofStepEntries at hx
  split at hx
  · split at hx
    · split at hx
      · simp at hx
        rcases hx with rfl | rfl | rfl | rfl <;> simp
      · simp at hx
        rcases hx with rfl | rfl <;> simp
    · simp at hx
      rcases hx with rfl | rfl <;> simp
  · cases hx

theorem proofLoopEntries_secret (nameS nameR nameHS nameHR ext : String)
    (bound : Nat) (proofS proofR : List (List Nat)) (helperS helperR : List Int) (k i : Nat) :
    ∀ x ∈ proofLoopEntries nameS nameR nameHS nameHR ext bound proofS proofR helperS helperR k i,
      x.visibility = .Secret ∧ ∃ j : Nat,
      (x.name = nameS ++ ext ++ Itoa j ∨ x.name = nameR ++ ext ++ Itoa j ∨
        x.name = nameHS ++ ext ++ Itoa j ∨ x.name = nameHR ++ ext ++ Itoa j) := by
  induction k generalizing i with
  | zero => intro x hx; cases hx
  | succ k ih =>
    intro x hx
    rw [proofLoopEntries, List.mem_append] at hx
    rcases hx with hx | hx
    · obtain ⟨h1, h2⟩ := proofStepEntries_secret _ _ _ _ _ _ _ _ _ _ _ x hx
      exact ⟨h1, i, h2⟩
    · exact ih (i + 1) x hx

/-! ## Lemmas on witness names -/

theorem noClash_sound (b1 b2 : List Char) (h : noClash b1 b2 = true) (d1 d2 : Char)
    (h1 : d1.isDigit = true) (h2 : d2.isDigit = true) (hd : d1 ≠ d2) (s1 s2 : List Char) :
    b1 ++ d1 :: s1 ≠ b2 ++ d2 :: s2 := by
  induction b1 generalizing b2 with
  | nil =>
    cases b2 with
    | nil =>
      intro heq
      exact hd (List.cons.inj heq).1
    | cons c b2 =>
      intro heq
      have hc : d1 = c := (List.cons.inj heq).1
      subst hc
      simp [noClash, h1] at h
  | cons c1 b1 ih =>
    cases b2 with
    | nil =>
      intro heq
      have hc : c1 = d2 := (List.cons.inj heq).1
      subst hc
      simp [noClash, h2] at h
    | cons c2 b2 =>
      intro heq
      obtain ⟨hc, ht⟩ := List.cons.inj heq
      subst hc
      simp only [noClash, if_true] at h
      exact ih b2 h ht

theorem baseNames_noClash :
    ∀ x ∈ plainBaseNames ++ pathBaseNames, ∀ y ∈ plainBaseNames ++ pathBaseNames,
      noClash x.data y.data = true := by
  decide!

theorem Itoa_digit : ∀ a, a < 10 →
    (Itoa (Int.ofNat a)).data = [Nat.digitChar a] ∧ (Nat.digitChar a).isDigit = true := by
  decide!

theorem digitChar_inj : ∀ a, a < 10 → ∀ b, b < 10 → Nat.digitChar a = Nat.digitChar b → a = b := by
  decide!

/-- The characters of a witness name: a base name, the suffix, and a tail. -/
theorem IsWitnessNameFor.data {ext name : String} (h : IsWitnessNameFor ext name) :
    ∃ b ∈ plainBaseNames ++ pathBaseNames, ∃ s : List Char,
      name.data = b.data ++ ext.data ++ s := by
  rcases h with ⟨b, hb, rfl⟩ | ⟨b, hb, i, rfl⟩
  · exact ⟨b, List.mem_append_left _ hb, [], by simp⟩
  · exact ⟨b, List.mem_append_right _ hb, (Itoa i).data, by simp⟩

/-- Names written for two different single-digit batch positions differ. -/
theorem witnessName_disjoint (a b : Nat) (ha : a < 10) (hb : b < 10) (hab : a ≠ b)
    (x y : String) (hx : IsWitnessName a x) (hy : IsWitnessName b y) : x ≠ y := by
  obtain ⟨bx, hbx, sx, ex⟩ := IsWitnessNameFor.data hx
  obtain ⟨by', hby, sy, ey⟩ := IsWitnessNameFor.data hy
  obtain ⟨da, ha'⟩ := Itoa_digit a ha
  obtain ⟨db, hb'⟩ := Itoa_digit b hb
  intro hxy
  have hdata : x.data = y.data := by rw [hxy]
  rw [ex, ey] at hdata
  have e1 : (Itoa (a : Int)).data = [Nat.digitChar a] := da
  have e2 : (Itoa (b : Int)).data = [Nat.digitChar b] := db
  rw [e1, e2] at hdata
  simp only [List.append_assoc, List.singleton_append] at hdata
  exact noClash_sound _ _ (baseNames_noClash bx hbx by' hby) _ _ ha' hb'
    (fun h => hab (digitChar_inj a ha b hb h)) _ _ hdata

theorem plain_name {ext : String} {b : String} (hb : b ∈ plainBaseNames) :
    IsWitnessNameFor ext (b ++ ext) := Or.inl ⟨b, hb, rfl⟩

theorem accountsBeforeEntries_names (ext : String) (sa ra : Account) :
    ∀ x ∈ accountsBeforeEntries ext sa ra, IsWitnessNameFor ext x.name := by
  intro x hx
  simp only [accountsBeforeEntries, List.mem_cons, List.mem_singleton, List.not_mem_nil,
    or_false] at hx
  rcases hx with rfl | rfl | rfl | rfl | rfl | rfl | rfl | rfl | rfl | rfl <;>
    exact plain_name (by simp [plainBaseNames])

theorem transferEntries_names (ext : String) (t : Transfer) :
    ∀ x ∈ transferEntries ext t, IsWitnessNameFor ext x.name := by
  intro x hx
  simp only [transferEntries, List.mem_cons, List.mem_singleton, List.not_mem_nil,
    or_false] at hx
  rcases hx with rfl | rfl | rfl | rfl <;> exact plain_name (by simp [plainBaseNames])

theorem accountsAfterEntries_names (ext : String) (sa ra : Account) :
    ∀ x ∈ accountsAfterEntries ext sa ra, IsWitnessNameFor ext x.name := by
  intro x hx
  simp only [accountsAfterEntries, List.mem_cons, List.mem_singleton, List.not_mem_nil,
    or_false] at hx
  rcases hx with rfl | rfl | rfl | rfl | rfl | rfl <;> exact plain_name (by simp [plainBaseNames])

theorem proofLoopEntries_names {nameS nameR nameHS nameHR : String} (ext : String)
    (hS : nameS ∈ pathBaseNames) (hR : nameR ∈ pathBaseNames) (hHS : nameHS ∈ pathBaseNames)
    (hHR : nameHR ∈ pathBaseNames)
    (bound : Nat) (proofS proofR : List (List Nat)) (helperS helperR : List Int) (k i : Nat) :
    ∀ x ∈ proofLoopEntries nameS nameR nameHS nameHR ext bound proofS proofR helperS helperR k i,
      IsWitnessNameFor ext x.name := by
  intro x hx
  obtain ⟨-, j, hj⟩ := proofLoopEntries_secret _ _ _ _ _ _ _ _ _ _ _ _ x hx
  rcases hj with h | h | h | h <;> rw [h]
  · exact Or.inr ⟨_, hS, j, rfl⟩
  · exact Or.inr ⟨_, hR, j, rfl⟩
  · exact Or.inr ⟨_, hHS, j, rfl⟩
  · exact Or.inr ⟨_, hHR, j, rfl⟩

theorem names_append {ext : String} {l1 l2 : List Assignment}
    (h1 : ∀ x ∈ l1, IsWitnessNameFor ext x.name) (h2 : ∀ x ∈ l2, IsWitnessNameFor ext x.name) :
    ∀ x ∈ l1 ++ l2, IsWitnessNameFor ext x.name := by
  intro x hx
  rcases List.mem_append.mp hx with h | h
  · exact h1 x h
  · exact h2 x h

theorem names_singleton {ext : String} {a : Assignment} (h : IsWitnessNameFor ext a.name) :
    ∀ x ∈ [a], IsWitnessNameFor ext x.name := by
  intro x hx
  rw [List.mem_singleton.mp hx]
  exact h

/-! ## Lemmas on the names of one call -/

theorem diverge_sound (b1 b2 : List Char) (h : diverge b1 b2 = true) (s1 s2 : List Char) :
    b1 ++ s1 ≠ b2 ++ s2 := by
  induction b1 generalizing b2 with
  | nil => simp [diverge] at h
  | cons c1 b1 ih =>
    cases b2 with
    | nil => simp [diverge] at h
    | cons c2 b2 =>
      intro heq
      obtain ⟨hc, ht⟩ := List.cons.inj heq
      subst hc
      simp only [diverge, if_true] at h
      exact ih b2 h ht

theorem digitChar_toNat : ∀ d, d < 10 → (Nat.digitChar d).toNat - 48 = d := by
  decide!

theorem decimalValue_append (cs : List Char) (c : Char) :
    decimalValue (cs ++ [c]) = decimalValue cs * 10 + (c.toNat - 48) := by
  simp [decimalValue, List.foldl_append]

theorem toDigitsCore_append (fuel n : Nat) (ds : List Char) :
    Nat.toDigitsCore 10 fuel n ds = Nat.toDigitsCore 10 fuel n [] ++ ds := by
  induction fuel generalizing n ds with
  | zero => simp [Nat.toDigitsCore]
  | succ fuel ih =>
    simp only [Nat.toDigitsCore]
    split
    · simp
    · rw [ih (n / 10) (_ :: ds), ih (n / 10) [_]]
      simp

theorem decimalValue_toDigitsCore (fuel n : Nat) (h : n < fuel) :
    decimalValue (Nat.toDigitsCore 10 fuel n []) = n := by
  induction fuel generalizing n with
  | zero => omega
  | succ fuel ih =>
    simp only [Nat.toDigitsCore]
    split
    · next h0 =>
      have hn : n < 10 := by
        rcases Nat.lt_or_ge n 10 with h1 | h1
        · exact h1
        · have := Nat.div_pos h1 (by decide : 0 < 10)
          omega
      have := decimalValue_append [] (Nat.digitChar (n % 10))
      simp only [List.nil_append] at this
      rw [this, digitChar_toNat _ (Nat.mod_lt _ (by decide))]
      simp [decimalValue]
      omega
    · next h0 =>
      rw [toDigitsCore_append, decimalValue_append, ih (n / 10) (by omega),
        digitChar_toNat _ (Nat.mod_lt _ (by decide))]
      omega

/-- `strconv.Itoa` is injective on the loop counters. -/
theorem Itoa_natCast_inj (i j : Nat) (h : Itoa (i : Int) = Itoa (j : Int)) : i = j := by
  have h' : Nat.repr i = Nat.repr j := h
  have hd : Nat.toDigits 10 i = Nat.toDigits 10 j := by
    have := congrArg String.data h'
    simpa [Nat.repr, List.asString] using this
  have hi := decimalValue_toDigitsCore (i + 1) i (by omega)
  have hj := decimalValue_toDigitsCore (j + 1) j (by omega)
  unfold Nat.toDigits at hd
  rw [hd] at hi
  omega

theorem pathBases_diverge :
    ∀ q ∈ pathBaseNames, (∀ p ∈ plainBaseNames, diverge p.data q.data = true) ∧
      ∀ q' ∈ pathBaseNames, q = q' ∨ diverge q.data q'.data = true := by
  decide!

theorem callPlainBaseNames_nodup : callPlainBaseNames.Nodup := by
  decide!

theorem callPlainBaseNames_plain : ∀ b ∈ callPlainBaseNames, b ∈ plainBaseNames := by
  decide!

theorem append_ext_inj (ext : String) : Function.Injective (fun b : String => b ++ ext) := by
  intro a b h
  have := congrArg String.data h
  simp only [String.data_append] at this
  exact String.ext (List.append_cancel_right this)

/-- Two proof-path names of one call are equal only for the same base name and the same
ordinal. -/
theorem pathName_inj {q1 q2 : String} (h1 : q1 ∈ pathBaseNames) (h2 : q2 ∈ pathBaseNames)
    (ext : String) (i j : Nat) (h : q1 ++ ext ++ Itoa i = q2 ++ ext ++ Itoa j) :
    q1 = q2 ∧ i = j := by
  have hd := congrArg String.data h
  simp only [String.data_append, List.append_assoc] at hd
  rcases (pathBases_diverge q1 h1).2 q2 h2 with rfl | hdiv
  · refine ⟨rfl, Itoa_natCast_inj i j ?_⟩
    exact String.ext (List.append_cancel_left (List.append_cancel_left hd))
  · exact absurd hd (diverge_sound _ _ hdiv _ _)

/-- A plain name and a proof-path name of one call differ. -/
theorem plain_ne_path {p q : String} (hp : p ∈ plainBaseNames) (hq : q ∈ pathBaseNames)
    (ext : String) (j : Nat) : p ++ ext ≠ q ++ ext ++ Itoa j := by
  intro h
  have hd := congrArg String.data h
  simp only [String.data_append, List.append_assoc] at hd
  exact diverge_sound _ _ ((pathBases_diverge q hq).1 p hp) _ _ hd

theorem proofStepEntries_sublist (nameS nameR nameHS nameHR ext : String)
    (bound : Nat) (proofS proofR : List (List Nat)) (helperS helperR : List Int) (i : Nat) :
    List.Sublist
      ((proofStepEntries nameS nameR nameHS nameHR ext bound proofS proofR helperS helperR i).map
        Assignment.name)
      [nameS ++ ext ++ Itoa i, nameR ++ ext ++ Itoa i, nameHS ++ ext ++ Itoa i,
        nameHR ++ ext ++ Itoa i] := by
  unfold proofStepEntries
  split
  · split
    · split
      · simp
      · simp
    · simp
  · simp

theorem proofLoopEntries_name_ge (nameS nameR nameHS nameHR ext : String)
    (bound : Nat) (proofS proofR : List (List Nat)) (helperS helperR : List Int) (k i : Nat) :
    ∀ x ∈ proofLoopEntries nameS nameR nameHS nameHR ext bound proofS proofR helperS helperR k i,
      ∃ j : Nat, i ≤ j ∧
      (x.name = nameS ++ ext ++ Itoa j ∨ x.name = nameR ++ ext ++ Itoa j ∨
        x.name = nameHS ++ ext ++ Itoa j ∨ x.name = nameHR ++ ext ++ Itoa j) := by
  induction k generalizing i with
  | zero => intro x hx; cases hx
  | succ k ih =>
    intro x hx
    rw [proofLoopEntries, List.mem_append] at hx
    rcases hx with hx | hx
    · obtain ⟨-, h2⟩ := proofStepEntries_secret _ _ _ _ _ _ _ _ _ _ _ x hx
      exact ⟨i, Nat.le_refl i, h2⟩
    · obtain ⟨j, hj, h2⟩ := ih (i + 1) x hx
      exact ⟨j, by omega, h2⟩

/-- The names one proof loop assigns are pairwise distinct, whatever the length of the
proofs. -/
theorem proofLoopEntries_nodup {nameS nameR nameHS nameHR : String} (ext : String)
    (hS : nameS ∈ pathBaseNames) (hR : nameR ∈ pathBaseNames) (hHS : nameHS ∈ pathBaseNames)
    (hHR : nameHR ∈ pathBaseNames)
    (hd : [nameS, nameR, nameHS, nameHR].Nodup)
    (bound : Nat) (proofS proofR : List (List Nat)) (helperS helperR : List Int) (k i : Nat) :
    ((proofLoopEntries nameS nameR nameHS nameHR ext bound proofS proofR helperS helperR k i).map
      Assignment.name).Nodup := by
  induction k generalizing i with
  | zero => simp [proofLoopEntries]
  | succ k ih =>
    rw [proofLoopEntries, List.map_append, List.nodup_append]
    refine ⟨?_, ih (i + 1), ?_⟩
    · refine List.Sublist.nodup (proofStepEntries_sublist _ _ _ _ _ _ _ _ _ _ _) ?_
      have := List.Nodup.map (append_ext_inj (ext ++ Itoa i)) hd
      simpa [String.append_assoc] using this
    · intro a ha hb
      obtain ⟨x, hx, rfl⟩ := List.mem_map.mp ha
      obtain ⟨y, hy, hxy⟩ := List.mem_map.mp hb
      obtain ⟨-, h1⟩ := proofStepEntries_secret _ _ _ _ _ _ _ _ _ _ _ x hx
      obtain ⟨j, hj, h2⟩ := proofLoopEntries_name_ge _ _ _ _ _ _ _ _ _ _ _ _ y hy
      have key : ∀ q1 ∈ pathBaseNames, ∀ q2 ∈ pathBaseNames,
          x.name = q1 ++ ext ++ Itoa i → y.name = q2 ++ ext ++ Itoa j → False := by
        intro q1 hq1 q2 hq2 e1 e2
        have := (pathName_inj hq2 hq1 ext j i (by rw [← e1, ← e2, hxy])).2
        omega
      rcases h1 with h1 | h1 | h1 | h1 <;> rcases h2 with h2 | h2 | h2 | h2 <;>
        first
        | exact key _ hS _ hS h1 h2 | exact key _ hS _ hR h1 h2
        | exact key _ hS _ hHS h1 h2 | exact key _ hS _ hHR h1 h2
        | exact key _ hR _ hS h1 h2 | exact key _ hR _ hR h1 h2
        | exact key _ hR _ hHS h1 h2 | exact key _ hR _ hHR h1 h2
        | exact key _ hHS _ hS h1 h2 | exact key _ hHS _ hR h1 h2
        | exact key _ hHS _ hHS h1 h2 | exact key _ hHS _ hHR h1 h2
        | exact key _ hHR _ hS h1 h2 | exact key _ hHR _ hR h1 h2
        | exact key _ hHR _ hHS h1 h2 | exact key _ hHR _ hHR h1 h2

/-- The proof-path names of a loop are proof-path names of the call. -/
theorem proofLoopEntries_path {nameS nameR nameHS nameHR : String} (ext : String)
    (hS : nameS ∈ pathBaseNames) (hR : nameR ∈ pathBaseNames) (hHS : nameHS ∈ pathBaseNames)
    (hHR : nameHR ∈ pathBaseNames)
    (bound : Nat) (proofS proofR : List (List Nat)) (helperS helperR : List Int) (k i : Nat) :
    ∀ a ∈ (proofLoopEntries nameS nameR nameHS nameHR ext bound proofS proofR helperS helperR
        k i).map Assignment.name,
      ∃ q ∈ [nameS, nameR, nameHS, nameHR], q ∈ pathBaseNames ∧ ∃ j : Nat, a = q ++ ext ++ Itoa j := by
  intro a ha
  obtain ⟨x, hx, rfl⟩ := List.mem_map.mp ha
  obtain ⟨-, j, hj⟩ := proofLoopEntries_secret _ _ _ _ _ _ _ _ _ _ _ _ x hx
  rcases hj with h | h | h | h
  · exact ⟨_, by simp, hS, j, h⟩
  · exact ⟨_, by simp, hR, j, h⟩
  · exact ⟨_, by simp, hHS, j, h⟩
  · exact ⟨_, by simp, hHR, j, h⟩

/-- Four interleaved lists have no duplicate when the first and third together, the
second and the fourth have none, and the groups are disjoint. -/
theorem nodup_interleave {α} {a b c d : List α} (hac : (a ++ c).Nodup) (hb : b.Nodup)
    (hd : d.Nodup) (hacb : ∀ x ∈ a ++ c, x ∉ b) (hacd : ∀ x ∈ a ++ c, x ∉ d)
    (hbd : ∀ x ∈ b, x ∉ d) : (a ++ b ++ c ++ d).Nodup := by
  rw [List.nodup_append] at hac
  obtain ⟨ha, hc, hdis⟩ := hac
  simp only [List.nodup_append, List.Disjoint, List.mem_append] at *
  refine ⟨⟨⟨ha, hb, ?_⟩, hc, ?_⟩, hd, ?_⟩
  · intro x hx hx'
    exact hacb x (Or.inl hx) hx'
  · intro x hx hx'
    rcases hx with hx | hx
    · exact hdis hx hx'
    · exact hacb x (Or.inr hx') hx
  · intro x hx hx'
    rcases hx with (hx | hx) | hx
    · exact hacd x (Or.inl hx) hx'
    · exact hbd x hx hx'
    · exact hacd x (Or.inr hx) hx'

/-- In a record whose names are pairwise distinct every entry is the one found under
its name. -/
theorem witnessValue_of_nodup (l : List Assignment) (h : (l.map Assignment.name).Nodup) :
    ∀ a ∈ l, witnessValue l a.name = some a.value := by
  induction l with
  | nil => intro a ha; cases ha
  | cons b l ih =>
    intro a ha
    rw [List.map_cons, List.nodup_cons] at h
    rcases List.mem_cons.mp ha with rfl | ha'
    · simp [witnessValue, List.find?]
    · have hne : b.name ≠ a.name := by
        intro e
        exact h.1 (e ▸ List.mem_map_of_mem _ ha')
      have hb : (b.name == a.name) = false := by simpa using hne
      have := ih h.2 a ha'
      unfold witnessValue at this ⊢
      rw [List.find?_cons, hb]
      exact this

theorem pathBefore_nodup : [baseNameSenderMerkleBefore, baseNameReceiverMerkleBefore,
    baseNameSenderProofHelperBefore, baseNameReceiverProofHelperBefore].Nodup := by decide!

theorem pathAfter_nodup : [baseNameSenderMerkleAfter, baseNameReceiverMerkleAfter,
    baseNameSenderProofHelperAfter, baseNameReceiverProofHelperAfter].Nodup := by decide!

theorem pathBefore_ne_after :
    ∀ q ∈ [baseNameSenderMerkleBefore, baseNameReceiverMerkleBefore,
      baseNameSenderProofHelperBefore, baseNameReceiverProofHelperBefore],
    ∀ q' ∈ [baseNameSenderMerkleAfter, baseNameReceiverMerkleAfter,
      baseNameSenderProofHelperAfter, baseNameReceiverProofHelperAfter], q ≠ q' := by decide!

theorem plainBaseNames_call : ∀ b ∈ plainBaseNames, b ∈ callPlainBaseNames := by decide!

/-- The plain names of a call, in program order: those assigned before the first proof
loop, then those assigned between the two loops. -/
theorem plainEntries_names (ext : String) (sa ra sa' ra' : Account) (t : Transfer)
    (rootB rootA : List Nat) :
    (accountsBeforeEntries ext sa ra ++
        [(⟨.Public, baseNameRootHashBefore ++ ext, .bytes rootB⟩ : Assignment)]).map
          Assignment.name ++
      (transferEntries ext t ++ accountsAfterEntries ext sa' ra' ++
        [(⟨.Public, baseNameRootHashAfter ++ ext, .bytes rootA⟩ : Assignment)]).map
          Assignment.name =
      callPlainBaseNames.map (fun b => b ++ ext) := by
  simp [accountsBeforeEntries, transferEntries, accountsAfterEntries, callPlainBaseNames]

/-! ## Lemmas on the steps of `updateState` -/

theorem assignAll_append_some {w a b w' : List Assignment} :
    assignAll w (a ++ b) = some w' ↔
      ∃ w1, assignAll w a = some w1 ∧ assignAll w1 b = some w' := by
  rw [assignAll_append, bind_eq_some_iff']

/-- The root assignment followed by a proof loop. -/
theorem rootAndLoop_some_iff {nameS nameR nameHS nameHR ext : String} {rootName : String}
    {root : List Nat} {bound : Nat} {proofS proofR : List (List Nat)}
    {helperS helperR : List Int} {k : Nat} {w w' : List Assignment} :
    (match Assign w .Public (rootName ++ ext) (.bytes root) with
      | none => none
      | some w1 =>
        proofLoop nameS nameR nameHS nameHR ext bound proofS proofR helperS helperR k 0 w1)
      = some w' ↔
    LoopInRange bound proofS proofR helperS helperR k 0 ∧
      NamesFresh w ([(⟨.Public, rootName ++ ext, .bytes root⟩ : Assignment)] ++
        proofLoopEntries nameS nameR nameHS nameHR ext bound proofS proofR helperS helperR k 0) ∧
      w' = w ++ ([(⟨.Public, rootName ++ ext, .bytes root⟩ : Assignment)] ++
        proofLoopEntries nameS nameR nameHS nameHR ext bound proofS proofR helperS helperR k 0) := by
  constructor
  · intro h
    split at h
    · cases h
    next w1 h1 =>
      obtain ⟨hr, ha⟩ := proofLoop_some_iff.mp h
      have hall : assignAll w ([(⟨.Public, rootName ++ ext, .bytes root⟩ : Assignment)] ++
          proofLoopEntries nameS nameR nameHS nameHR ext bound proofS proofR helperS helperR k 0)
          = some w' :=
        assignAll_append_some.mpr ⟨w1, by rw [assignAll_singleton]; exact h1, ha⟩
      obtain ⟨e, hf⟩ := assignAll_some_iff.mp hall
      exact ⟨hr, hf, e⟩
  · rintro ⟨hr, hf, rfl⟩
    obtain ⟨w1, h1, ha⟩ := assignAll_append_some.mp (assignAll_of_fresh hf)
    rw [assignAll_singleton] at h1
    rw [h1]
    exact proofLoop_some_iff.mpr ⟨hr, ha⟩

theorem proofsAfter_buildError {env : Env} {o : Operator} (ext : String) {posS posR : Nat}
    (nl : Nat) {e : Nat}
    (h : env.buildReaderProof o.HashState env.hsize posS = .error e ∨
      ((∃ res, env.buildReaderProof o.HashState env.hsize posS = .ok res) ∧
        env.buildReaderProof o.HashState env.hsize posR = .error e)) :
    o.proofsAfter env ext posS posR nl = some ⟨some (.external e), o⟩ := by
  unfold Operator.proofsAfter
  dsimp only
  rcases h with h | ⟨⟨res, h1⟩, h2⟩
  · rw [h]
  · rw [h1]
    dsimp only
    rw [h2]

/-- The proofs after update, once both are built: the step does not panic exactly when
the loop indexes in range and its names are new. -/
theorem proofsAfter_ok_iff {env : Env} {o : Operator} {ext : String} {posS posR nl : Nat}
    {r : Outcome} {rootA rootA' : List Nat} {pSA pRA : List (List Nat)} {nA nA' : Nat}
    (hS : env.buildReaderProof o.HashState env.hsize posS = .ok (rootA, pSA, nA))
    (hR : env.buildReaderProof o.HashState env.hsize posR = .ok (rootA', pRA, nA')) :
    o.proofsAfter env ext posS posR nl = some r ↔
      LoopInRange pSA.length pSA pRA (env.generateProofHelper pSA posS nl)
        (env.generateProofHelper pRA posR nl) pSA.length 0 ∧
      NamesFresh o.witnesses ([(⟨.Public, baseNameRootHashAfter ++ ext, .bytes rootA⟩ : Assignment)] ++
        proofLoopEntries baseNameSenderMerkleAfter baseNameReceiverMerkleAfter
          baseNameSenderProofHelperAfter baseNameReceiverProofHelperAfter ext
          pSA.length pSA pRA (env.generateProofHelper pSA posS nl)
          (env.generateProofHelper pRA posR nl) pSA.length 0) ∧
      r = ⟨none, ⟨o.State, o.HashState, o.AccountMap, o.nbAccounts, o.batch,
        o.witnesses ++ ([(⟨.Public, baseNameRootHashAfter ++ ext, .bytes rootA⟩ : Assignment)] ++
          proofLoopEntries baseNameSenderMerkleAfter baseNameReceiverMerkleAfter
            baseNameSenderProofHelperAfter baseNameReceiverProofHelperAfter ext
            pSA.length pSA pRA (env.generateProofHelper pSA posS nl)
            (env.generateProofHelper pRA posR nl) pSA.length 0)⟩⟩ := by
  unfold Operator.proofsAfter
  dsimp only
  rw [hS]
  dsimp only
  rw [hR]
  dsimp only
  constructor
  · intro h
    have key := fun w2 => @rootAndLoop_some_iff baseNameSenderMerkleAfter
      baseNameReceiverMerkleAfter baseNameSenderProofHelperAfter
      baseNameReceiverProofHelperAfter ext baseNameRootHashAfter
      rootA pSA.length pSA pRA (env.generateProofHelper pSA posS nl)
      (env.generateProofHelper pRA posR nl) pSA.length o.witnesses w2
    split at h
    · cases h
    next w1 h1 =>
      split at h
      · cases h
      next w2 h2 =>
        obtain ⟨hr, hf, e⟩ := (key w2).mp (by rw [h1]; exact h2)
        refine ⟨hr, hf, ?_⟩
        rw [← e]
        exact (Option.some.inj h).symm
  · rintro ⟨hr, hf, rfl⟩
    have key := (@rootAndLoop_some_iff baseNameSenderMerkleAfter baseNameReceiverMerkleAfter
      baseNameSenderProofHelperAfter baseNameReceiverProofHelperAfter ext baseNameRootHashAfter
      rootA pSA.length pSA pRA (env.generateProofHelper pSA posS nl)
      (env.generateProofHelper pRA posR nl) pSA.length o.witnesses _).mpr ⟨hr, hf, rfl⟩
    cases hA : Assign o.witnesses .Public (baseNameRootHashAfter ++ ext) (.bytes rootA) with
    | none =>
      rw [hA] at key
      cases key
    | some w1 =>
      rw [hA] at key
      dsimp only at key
      simp only [key]

theorem proofsAfter_trace {env : Env} {o : Operator} {ext : String} {posS posR nl : Nat}
    {r : Outcome} (h : o.proofsAfter env ext posS posR nl = some r) :
    (∃ e, (env.buildReaderProof o.HashState env.hsize posS = .error e ∨
        env.buildReaderProof o.HashState env.hsize posR = .error e) ∧
      r = ⟨some (.external e), o⟩) ∨
    (∃ rootA pSA nA rootA' pRA nA',
      env.buildReaderProof o.HashState env.hsize posS = .ok (rootA, pSA, nA) ∧
      env.buildReaderProof o.HashState env.hsize posR = .ok (rootA', pRA, nA') ∧
      LoopInRange pSA.length pSA pRA (env.generateProofHelper pSA posS nl)
        (env.generateProofHelper pRA posR nl) pSA.length 0 ∧
      r = ⟨none, ⟨o.State, o.HashState, o.AccountMap, o.nbAccounts, o.batch,
        o.witnesses ++ ([(⟨.Public, baseNameRootHashAfter ++ ext, .bytes rootA⟩ : Assignment)] ++
          proofLoopEntries baseNameSenderMerkleAfter baseNameReceiverMerkleAfter
            baseNameSenderProofHelperAfter baseNameReceiverProofHelperAfter ext
            pSA.length pSA pRA (env.generateProofHelper pSA posS nl)
            (env.generateProofHelper pRA posR nl) pSA.length 0)⟩⟩) := by
  cases hS : env.buildReaderProof o.HashState env.hsize posS with
  | error e =>
    rw [proofsAfter_buildError ext nl (Or.inl hS)] at h
    exact Or.inl ⟨e, Or.inl rfl, (Option.some.inj h).symm⟩
  | ok resS =>
    obtain ⟨rootA, pSA, nA⟩ := resS
    cases hR : env.buildReaderProof o.HashState env.hsize posR with
    | error e =>
      rw [proofsAfter_buildError ext nl (Or.inr ⟨⟨_, hS⟩, hR⟩)] at h
      exact Or.inl ⟨e, Or.inr rfl, (Option.some.inj h).symm⟩
    | ok resR =>
      obtain ⟨rootA', pRA, nA'⟩ := resR
      obtain ⟨hr, -, e⟩ := (proofsAfter_ok_iff hS hR).mp h
      exact Or.inr ⟨rootA, pSA, nA, rootA', pRA, nA', rfl, rfl, hr, e⟩

theorem proofsAfter_some {env : Env} {o : Operator} {ext : String} {posS posR nl : Nat}
    {r : Outcome} (h : o.proofsAfter env ext posS posR nl = some r) :
    r.op.State = o.State ∧ r.op.HashState = o.HashState ∧ r.op.AccountMap = o.AccountMap ∧
      r.op.nbAccounts = o.nbAccounts ∧ r.op.batch = o.batch ∧
      (r.err = none ∨ ∃ e, r.err = some (.external e)) := by
  rcases proofsAfter_trace h with ⟨e, -, rfl⟩ | ⟨_, _, _, _, _, _, -, -, -, rfl⟩
  · exact ⟨rfl, rfl, rfl, rfl, rfl, Or.inr ⟨_, rfl⟩⟩
  · exact ⟨rfl, rfl, rfl, rfl, rfl, Or.inl rfl⟩

/-- The outcomes of the validation and update step. -/
theorem validateAndApply_some {env : Env} {o : Operator} {t : Transfer} {ext : String}
    {posS posR nl : Nat} {sa ra : Account} {r : Outcome}
    (h : o.validateAndApply env t ext posS posR nl sa ra = some r) :
    (∃ e, (t.Verify env).2 = some e ∧ r = ⟨some e, o⟩) ∨
    (t.Verify env = (false, none) ∧ r = ⟨some .ErrWrongSignature, o⟩) ∨
    (t.Verify env = (true, none) ∧ ToBigIntRegular t.amount > ToBigIntRegular ra.balance ∧
      r = ⟨some .ErrAmountTooHigh, o⟩) ∨
    (t.Verify env = (true, none) ∧ ToBigIntRegular t.amount ≤ ToBigIntRegular ra.balance ∧
      t.nonce ≠ sa.nonce ∧ r = ⟨some .ErrNonce, o⟩) ∨
    (t.Verify env = (true, none) ∧ ToBigIntRegular t.amount ≤ ToBigIntRegular ra.balance ∧
      t.nonce = sa.nonce ∧
      ∃ o2, Operator.writeAccounts env
          ⟨o.State, o.HashState, o.AccountMap, o.nbAccounts, o.batch,
            o.witnesses ++ accountsAfterEntries ext
              ⟨sa.index, (sa.nonce + 1) % 2 ^ 64, frSub sa.balance t.amount, sa.pubKey⟩
              ⟨ra.index, ra.nonce, frAdd ra.balance t.amount, ra.pubKey⟩⟩
          posS posR
          ⟨sa.index, (sa.nonce + 1) % 2 ^ 64, frSub sa.balance t.amount, sa.pubKey⟩
          ⟨ra.index, ra.nonce, frAdd ra.balance t.amount, ra.pubKey⟩ = some o2 ∧
        o2.proofsAfter env ext posS posR nl = some r) := by
  unfold Operator.validateAndApply at h
  dsimp only at h
  split at h
  next b e hv =>
    left
    exact ⟨e, by rw [hv], (Option.some.inj h).symm⟩
  next b hv =>
    right
    cases b with
    | false =>
      left
      simp only [Bool.not_false, if_true] at h
      exact ⟨hv, (Option.some.inj h).symm⟩
    | true =>
      right
      simp only [Bool.not_true, Bool.false_eq_true, if_false] at h
      split at h
      next hgt => left; exact ⟨hv, hgt, (Option.some.inj h).symm⟩
      next hle =>
        right
        split at h
        next hne => left; exact ⟨hv, Nat.le_of_not_gt hle, hne, (Option.some.inj h).symm⟩
        next heq =>
          right
          refine ⟨hv, Nat.le_of_not_gt hle, not_not.mp heq, ?_⟩
          split at h
          · cases h
          next w hw =>
            rw [assignAccountsAfter_eq] at hw
            obtain rfl := assignAll_some hw
            split at h
            · cases h
            next o2 ho2 => exact ⟨o2, ho2, h⟩

theorem validateAndApply_amount {env : Env} {o : Operator} {t : Transfer} {ext : String}
    {posS posR nl : Nat} {sa ra : Account} (hv : t.Verify env = (true, none))
    (hgt : ToBigIntRegular t.amount > ToBigIntRegular ra.balance) :
    o.validateAndApply env t ext posS posR nl sa ra = some ⟨some .ErrAmountTooHigh, o⟩ := by
  unfold Operator.validateAndApply
  rw [hv]
  dsimp only
  rw [if_neg (by simp), if_pos hgt]

theorem validateAndApply_nonce {env : Env} {o : Operator} {t : Transfer} {ext : String}
    {posS posR nl : Nat} {sa ra : Account} (hv : t.Verify env = (true, none))
    (hle : ToBigIntRegular t.amount ≤ ToBigIntRegular ra.balance) (hne : t.nonce ≠ sa.nonce) :
    o.validateAndApply env t ext posS posR nl sa ra = some ⟨some .ErrNonce, o⟩ := by
  unfold Operator.validateAndApply
  rw [hv]
  dsimp only
  rw [if_neg (by simp), if_neg (Nat.not_lt.mpr hle), if_pos hne]

theorem validateAndApply_verifyError {env : Env} (o : Operator) {t : Transfer} (ext : String)
    (posS posR nl : Nat) (sa ra : Account) {b : Bool} {e : Error}
    (hv : t.Verify env = (b, some e)) :
    o.validateAndApply env t ext posS posR nl sa ra = some ⟨some e, o⟩ := by
  unfold Operator.validateAndApply
  rw [hv]

/-- The update step of a transfer that passed the checks, once the ledger is written:
what remains is the proofs after update. -/
theorem validateAndApply_write {env : Env} {o o2 : Operator} {t : Transfer} (ext : String)
    {posS posR : Nat} (nl : Nat) {sa ra : Account} (hv : t.Verify env = (true, none))
    (hle : ToBigIntRegular t.amount ≤ ToBigIntRegular ra.balance) (heq : t.nonce = sa.nonce)
    (hf : NamesFresh o.witnesses (accountsAfterEntries ext
      ⟨sa.index, (sa.nonce + 1) % 2 ^ 64, frSub sa.balance t.amount, sa.pubKey⟩
      ⟨ra.index, ra.nonce, frAdd ra.balance t.amount, ra.pubKey⟩))
    (ho2 : Operator.writeAccounts env
      ⟨o.State, o.HashState, o.AccountMap, o.nbAccounts, o.batch,
        o.witnesses ++ accountsAfterEntries ext
          ⟨sa.index, (sa.nonce + 1) % 2 ^ 64, frSub sa.balance t.amount, sa.pubKey⟩
          ⟨ra.index, ra.nonce, frAdd ra.balance t.amount, ra.pubKey⟩⟩
      posS posR
      ⟨sa.index, (sa.nonce + 1) % 2 ^ 64, frSub sa.balance t.amount, sa.pubKey⟩
      ⟨ra.index, ra.nonce, frAdd ra.balance t.amount, ra.pubKey⟩ = some o2) :
    o.validateAndApply env t ext posS posR nl sa ra = o2.proofsAfter env ext posS posR nl := by
  unfold Operator.validateAndApply
  rw [hv]
  dsimp only
  rw [if_neg (by simp), if_neg (Nat.not_lt.mpr hle), if_neg (not_not.mpr heq),
    assignAccountsAfter_eq, assignAll_of_fresh hf]
  dsimp only
  rw [ho2]

theorem recordAndApply_trace {env : Env} {o : Operator} {t : Transfer} {ext : String}
    {posS posR : Nat} {sa ra : Account} {r : Outcome}
    (h : o.recordAndApply env t ext posS posR sa ra = some r) :
    (∃ e, (env.buildReaderProof o.HashState env.hsize posS = .error e ∨
        env.buildReaderProof o.HashState env.hsize posR = .error e) ∧
      r = ⟨some (.external e), ⟨o.State, o.HashState, o.AccountMap, o.nbAccounts, o.batch,
        o.witnesses ++ accountsBeforeEntries ext sa ra⟩⟩) ∨
    (∃ rootB pSB nB rootB' pRB nB',
      env.buildReaderProof o.HashState env.hsize posS = .ok (rootB, pSB, nB) ∧
      env.buildReaderProof o.HashState env.hsize posR = .ok (rootB', pRB, nB') ∧
      LoopInRange pRB.length pSB pRB (env.generateProofHelper pSB posS nB)
        (env.generateProofHelper pRB posR nB) pSB.length 0 ∧
      Operator.validateAndApply env
        ⟨o.State, o.HashState, o.AccountMap, o.nbAccounts, o.batch,
          o.witnesses ++ entriesBefore ext sa ra t rootB pSB pRB
            (env.generateProofHelper pSB posS nB) (env.generateProofHelper pRB posR nB)⟩
        t ext posS posR nB sa ra = some r) := by
  unfold Operator.recordAndApply at h
  dsimp only at h
  split at h
  · cases h
  next w0 h0 =>
    rw [assignAccountsBefore_eq] at h0
    obtain rfl := assignAll_some h0
    split at h
    next e he => exact Or.inl ⟨e, Or.inl he, (Option.some.inj h).symm⟩
    next rootB pSB nB hS =>
      split at h
      next e he => exact Or.inl ⟨e, Or.inr he, (Option.some.inj h).symm⟩
      next rootB' pRB nB' hR =>
        right
        split at h
        · cases h
        next w1 h1 =>
          split at h
          · cases h
          next w2 h2 =>
            split at h
            · cases h
            next w3 h3 =>
              obtain ⟨rfl, -⟩ := Assign_eq_some h1
              obtain ⟨hr, ha⟩ := proofLoop_some_iff.mp h2
              obtain rfl := assignAll_some ha
              rw [assignTransfer_eq] at h3
              obtain rfl := assignAll_some h3
              refine ⟨rootB, pSB, nB, rootB', pRB, nB', hS, hR, hr, ?_⟩
              simp only [entriesBefore, List.append_assoc] at h ⊢
              exact h

theorem recordAndApply_some {env : Env} {o : Operator} {t : Transfer} {ext : String}
    {posS posR : Nat} {sa ra : Account} {r : Outcome}
    (h : o.recordAndApply env t ext posS posR sa ra = some r) :
    (∃ e w, r = ⟨some (.external e),
        ⟨o.State, o.HashState, o.AccountMap, o.nbAccounts, o.batch, w⟩⟩) ∨
    (∃ w nl, Operator.validateAndApply env
        ⟨o.State, o.HashState, o.AccountMap, o.nbAccounts, o.batch, w⟩
        t ext posS posR nl sa ra = some r) := by
  rcases recordAndApply_trace h with ⟨e, -, rfl⟩ | ⟨_, _, nB, _, _, _, -, -, -, h2⟩
  · exact Or.inl ⟨e, _, rfl⟩
  · exact Or.inr ⟨_, nB, h2⟩

/-- The recording step of a call whose proofs before update are built, whose loop indexes
in range and whose names are new: what remains is the validation and update step. -/
theorem recordAndApply_eq {env : Env} {o : Operator} (t : Transfer) (ext : String)
    {posS posR : Nat} (sa ra : Account) {rootB rootB' : List Nat} {pSB pRB : List (List Nat)}
    {nB nB' : Nat}
    (hS : env.buildReaderProof o.HashState env.hsize posS = .ok (rootB, pSB, nB))
    (hR : env.buildReaderProof o.HashState env.hsize posR = .ok (rootB', pRB, nB'))
    (hr : LoopInRange pRB.length pSB pRB (env.generateProofHelper pSB posS nB)
      (env.generateProofHelper pRB posR nB) pSB.length 0)
    (hf : NamesFresh o.witnesses (entriesBefore ext sa ra t rootB pSB pRB
      (env.generateProofHelper pSB posS nB) (env.generateProofHelper pRB posR nB))) :
    o.recordAndApply env t ext posS posR sa ra =
      Operator.validateAndApply env
        ⟨o.State, o.HashState, o.AccountMap, o.nbAccounts, o.batch,
          o.witnesses ++ entriesBefore ext sa ra t rootB pSB pRB
            (env.generateProofHelper pSB posS nB) (env.generateProofHelper pRB posR nB)⟩
        t ext posS posR nB sa ra := by
  have hall := assignAll_of_fresh hf
  unfold entriesBefore at hall
  obtain ⟨w3, h3, h4⟩ := assignAll_append_some.mp hall
  obtain ⟨w2, h2, h3'⟩ := assignAll_append_some.mp h3
  obtain ⟨w1, h1, h2'⟩ := assignAll_append_some.mp h2
  rw [assignAll_singleton] at h2'
  have e4 := assignAll_some hall
  unfold Operator.recordAndApply
  dsimp only
  rw [assignAccountsBefore_eq, h1]
  dsimp only
  rw [hS]
  dsimp only
  rw [hR]
  dsimp only
  rw [h2']
  dsimp only
  rw [proofLoop_some_iff.mpr ⟨hr, h3'⟩]
  dsimp only
  rw [assignTransfer_eq, h4]
  dsimp only
  rw [e4]
  rfl

theorem recordAndApply_buildError {env : Env} {o : Operator} (t : Transfer) (ext : String)
    {posS posR : Nat} (sa ra : Account) {e : Nat}
    (hf : NamesFresh o.witnesses (accountsBeforeEntries ext sa ra))
    (h : env.buildReaderProof o.HashState env.hsize posS = .error e ∨
      ((∃ res, env.buildReaderProof o.HashState env.hsize posS = .ok res) ∧
        env.buildReaderProof o.HashState env.hsize posR = .error e)) :
    o.recordAndApply env t ext posS posR sa ra =
      some ⟨some (.external e), ⟨o.State, o.HashState, o.AccountMap, o.nbAccounts, o.batch,
        o.witnesses ++ accountsBeforeEntries ext sa ra⟩⟩ := by
  unfold Operator.recordAndApply
  dsimp only
  rw [assignAccountsBefore_eq, assignAll_of_fresh hf]
  dsimp only
  rcases h with h | ⟨⟨res, h1⟩, h2⟩
  · rw [h]
  · rw [h1]
    dsimp only
    rw [h2]

/-! ## The names of one call are new at an unused position -/

theorem pathBefore_mem :
    baseNameSenderMerkleBefore ∈ pathBaseNames ∧ baseNameReceiverMerkleBefore ∈ pathBaseNames ∧
    baseNameSenderProofHelperBefore ∈ pathBaseNames ∧
    baseNameReceiverProofHelperBefore ∈ pathBaseNames := by
  simp [pathBaseNames]

theorem pathAfter_mem :
    baseNameSenderMerkleAfter ∈ pathBaseNames ∧ baseNameReceiverMerkleAfter ∈ pathBaseNames ∧
    baseNameSenderProofHelperAfter ∈ pathBaseNames ∧
    baseNameReceiverProofHelperAfter ∈ pathBaseNames := by
  simp [pathBaseNames]

/-- The names a call assigns are pairwise distinct, whatever the proofs. -/
theorem callEntries_nodup (ext : String) (sa ra sa' ra' : Account) (t : Transfer)
    (rootB rootA : List Nat) (pSB pRB pSA pRA : List (List Nat)) (hSB hRB hSA hRA : List Int) :
    ((entriesBefore ext sa ra t rootB pSB pRB hSB hRB ++
      entriesAfter ext sa' ra' rootA pSA pRA hSA hRA).map Assignment.name).Nodup := by
  obtain ⟨mSB, mRB, mHSB, mHRB⟩ := pathBefore_mem
  obtain ⟨mSA, mRA, mHSA, mHRA⟩ := pathAfter_mem
  have hplain := plainEntries_names ext sa ra sa' ra' t rootB rootA
  have hLB := proofLoopEntries_path ext mSB mRB mHSB mHRB pRB.length pSB pRB hSB hRB
    pSB.length 0
  have hLA := proofLoopEntries_path ext mSA mRA mHSA mHRA pSA.length pSA pRA hSA hRA
    pSA.length 0
  have hplainMem : ∀ x ∈ callPlainBaseNames.map (fun b => b ++ ext),
      ∃ p ∈ plainBaseNames, x = p ++ ext := by
    intro x hx
    obtain ⟨p, hp, rfl⟩ := List.mem_map.mp hx
    exact ⟨p, callPlainBaseNames_plain p hp, rfl⟩
  have hnodup := nodup_interleave
    (hplain ▸ List.Nodup.map (append_ext_inj ext) callPlainBaseNames_nodup)
    (proofLoopEntries_nodup ext mSB mRB mHSB mHRB pathBefore_nodup pRB.length pSB pRB
      hSB hRB pSB.length 0)
    (proofLoopEntries_nodup ext mSA mRA mHSA mHRA pathAfter_nodup pSA.length pSA pRA
      hSA hRA pSA.length 0)
    (by
      intro x hx hx'
      rw [hplain] at hx
      obtain ⟨p, hp, rfl⟩ := hplainMem x hx
      obtain ⟨q, -, hq, j, e⟩ := hLB _ hx'
      exact plain_ne_path hp hq _ j e)
    (by
      intro x hx hx'
      rw [hplain] at hx
      obtain ⟨p, hp, rfl⟩ := hplainMem x hx
      obtain ⟨q, -, hq, j, e⟩ := hLA _ hx'
      exact plain_ne_path hp hq _ j e)
    (by
      intro x hx hx'
      obtain ⟨q, hq4, hq, j, rfl⟩ := hLB _ hx
      obtain ⟨q', hq4', hq', j', e⟩ := hLA _ hx'
      exact pathBefore_ne_after q hq4 q' hq4' (pathName_inj hq hq' _ j j' e).1)
  unfold entriesBefore entriesAfter
  simpa only [List.map_append, List.append_assoc] using hnodup

/-- The names a call assigns are names of its batch position. -/
theorem callEntries_names (ext : String) (sa ra sa' ra' : Account) (t : Transfer)
    (rootB rootA : List Nat) (pSB pRB pSA pRA : List (List Nat)) (hSB hRB hSA hRA : List Int) :
    ∀ x ∈ entriesBefore ext sa ra t rootB pSB pRB hSB hRB ++
      entriesAfter ext sa' ra' rootA pSA pRA hSA hRA, IsWitnessNameFor ext x.name := by
  obtain ⟨mSB, mRB, mHSB, mHRB⟩ := pathBefore_mem
  obtain ⟨mSA, mRA, mHSA, mHRA⟩ := pathAfter_mem
  unfold entriesBefore entriesAfter
  refine names_append (names_append (names_append (names_append
    (accountsBeforeEntries_names _ _ _) (names_singleton (plain_name (by simp [plainBaseNames]))))
    (proofLoopEntries_names ext mSB mRB mHSB mHRB _ _ _ _ _ _ _))
    (transferEntries_names _ _))
    (names_append (names_append (accountsAfterEntries_names _ _ _)
      (names_singleton (plain_name (by simp [plainBaseNames]))))
      (proofLoopEntries_names ext mSA mRA mHSA mHRA _ _ _ _ _ _ _))

/-- At a batch position none of whose names is in the record, every assignment of a call
is of a new name. -/
theorem callEntries_fresh {o : Operator} {n : Int} (hfresh : o.PositionUnused n)
    (sa ra sa' ra' : Account) (t : Transfer)
    (rootB rootA : List Nat) (pSB pRB pSA pRA : List (List Nat)) (hSB hRB hSA hRA : List Int) :
    NamesFresh o.witnesses (entriesBefore (Itoa n) sa ra t rootB pSB pRB hSB hRB ++
      entriesAfter (Itoa n) sa' ra' rootA pSA pRA hSA hRA) := by
  refine ⟨callEntries_nodup _ _ _ _ _ _ _ _ _ _ _ _ _ _ _ _, ?_⟩
  intro a ha hmem
  obtain ⟨x, hx, hxa⟩ := List.mem_map.mp hmem
  apply hfresh a ha
  rw [← hxa]
  exact callEntries_names _ _ _ _ _ _ _ _ _ _ _ _ _ _ _ _ x hx

/-! ## The indices of the proof loops -/

theorem LoopInRange.congr {bound : Nat} {pS pR : List (List Nat)}
    {hS hR : List Int} {k i : Nat} (h : LoopInRange bound pS pR hS hR k i)
    (pS' pR' : List (List Nat)) (hS' hR' : List Int)
    (e1 : pS'.length = pS.length) (e2 : pR'.length = pR.length)
    (e3 : hS'.length = hS.length) (e4 : hR'.length = hR.length) :
    LoopInRange bound pS' pR' hS' hR' k i := by
  intro j h1 h2
  rw [e1, e2, e3, e4]
  exact h j h1 h2

/-- Two proofs of one length, each with a helper one entry shorter: both loops index in
range. -/
theorem LoopInRange.of_eq {pS pR : List (List Nat)} {hS hR : List Int}
    (h : pS.length = pR.length) (h1 : hS.length = pS.length - 1)
    (h2 : hR.length = pR.length - 1) (bound : Nat) (hb : bound ≤ pS.length) :
    LoopInRange bound pS pR hS hR pS.length 0 := by
  intro j _ hj
  refine ⟨by omega, by omega, fun hjb => ?_⟩
  omega

/-- A loop over a non-empty sender proof whose guard is `len(proofR) - 1`, with helpers
one entry shorter than their proofs, indexes in range only when the two proofs have the
same length. -/
theorem LoopInRange.length_eq {pS pR : List (List Nat)} {hS hR : List Int}
    (h1 : hS.length = pS.length - 1)
    (h : LoopInRange pR.length pS pR hS hR pS.length 0) (hne : pS ≠ []) :
    pS.length = pR.length := by
  have hpos : 0 < pS.length := List.length_pos.mpr hne
  obtain ⟨-, hR', hg⟩ := h (pS.length - 1) (Nat.zero_le _) (by omega)
  by_contra hcon
  have := hg (by omega)
  omega

/-! ## Lemmas on `updateState` -/

theorem updateState_some {env : Env} {o : Operator} {t : Transfer} {n : Int} {r : Outcome}
    (h : o.updateState env t n = some r) :
    (o.AccountMap.lookup (frBytes t.senderPubKey.X) = none ∧
      r = ⟨some .ErrNonExistingAccount, o⟩) ∨
    (∃ posS sa, o.AccountMap.lookup (frBytes t.senderPubKey.X) = some posS ∧
      o.readAccount posS = some (.ok sa) ∧
      o.AccountMap.lookup (frBytes t.receiverPubKey.X) = none ∧
      r = ⟨some .ErrNonExistingAccount, o⟩) ∨
    (∃ posS sa posR ra, o.AccountMap.lookup (frBytes t.senderPubKey.X) = some posS ∧
      o.readAccount posS = some (.ok sa) ∧
      o.AccountMap.lookup (frBytes t.receiverPubKey.X) = some posR ∧
      o.readAccount posR = some (.ok ra) ∧
      o.recordAndApply env t (Itoa n) posS posR sa ra = some r) := by
  unfold Operator.updateState at h
  dsimp only at h
  split at h
  next hs => exact Or.inl ⟨hs, (Option.some.inj h).symm⟩
  next posS hs =>
    right
    split at h
    · cases h
    next e he => exact absurd he readAccount_ne_error
    next sa hsa =>
      split at h
      next hr => exact Or.inl ⟨posS, sa, hs, hsa, hr, (Option.some.inj h).symm⟩
      next posR hr =>
        right
        split at h
        · cases h
        next e he => exact absurd he readAccount_ne_error
        next ra hra => exact ⟨posS, sa, posR, ra, hs, hsa, hr, hra, h⟩

theorem updateState_eq {env : Env} {o : Operator} {t : Transfer} (n : Int)
    {posS posR : Nat} {sa ra : Account}
    (hs : o.AccountMap.lookup (frBytes t.senderPubKey.X) = some posS)
    (hsa : o.readAccount posS = some (.ok sa))
    (hr : o.AccountMap.lookup (frBytes t.receiverPubKey.X) = some posR)
    (hra : o.readAccount posR = some (.ok ra)) :
    o.updateState env t n = o.recordAndApply env t (Itoa n) posS posR sa ra := by
  unfold Operator.updateState
  dsimp only
  rw [hs]
  dsimp only
  rw [hsa]
  dsimp only
  rw [hr]
  dsimp only
  rw [hra]

theorem Verify_err {env : Env} {t : Transfer} {e : Error} (h : (t.Verify env).2 = some e) :
    e = .ErrWrongSignature ∨ ∃ c, e = .external c := by
  unfold Transfer.Verify at h
  dsimp only at h
  split at h
  · exact Or.inr ⟨_, (Option.some.inj h).symm⟩
  · split at h
    · exact Or.inl (Option.some.inj h).symm
    · cases h

/-- A call that returned `nil`, step by step: the identities resolved, the proofs before
update were built and recorded, the checks passed, the ledger was written, the proofs
after update were built and recorded. -/
theorem updateState_nil_trace {env : Env} {o : Operator} {t : Transfer} {n : Int}
    {r : Outcome} (h : o.updateState env t n = some r) (hnil : r.err = none) :
    ∃ posS sa posR ra rootB pSB nB rootB' pRB nB' o2 rootA pSA nA rootA' pRA nA',
      o.AccountMap.lookup (frBytes t.senderPubKey.X) = some posS ∧
      o.readAccount posS = some (.ok sa) ∧
      o.AccountMap.lookup (frBytes t.receiverPubKey.X) = some posR ∧
      o.readAccount posR = some (.ok ra) ∧
      env.buildReaderProof o.HashState env.hsize posS = .ok (rootB, pSB, nB) ∧
      env.buildReaderProof o.HashState env.hsize posR = .ok (rootB', pRB, nB') ∧
      LoopInRange pRB.length pSB pRB (env.generateProofHelper pSB posS nB)
        (env.generateProofHelper pRB posR nB) pSB.length 0 ∧
      t.Verify env = (true, none) ∧
      ToBigIntRegular t.amount ≤ ToBigIntRegular ra.balance ∧
      t.nonce = sa.nonce ∧
      Operator.writeAccounts env
        ⟨o.State, o.HashState, o.AccountMap, o.nbAccounts, o.batch,
          o.witnesses ++ entriesBefore (Itoa n) sa ra t rootB pSB pRB
              (env.generateProofHelper pSB posS nB) (env.generateProofHelper pRB posR nB) ++
            accountsAfterEntries (Itoa n)
              ⟨sa.index, (sa.nonce + 1) % 2 ^ 64, frSub sa.balance t.amount, sa.pubKey⟩
              ⟨ra.index, ra.nonce, frAdd ra.balance t.amount, ra.pubKey⟩⟩ posS posR
        ⟨sa.index, (sa.nonce + 1) % 2 ^ 64, frSub sa.balance t.amount, sa.pubKey⟩
        ⟨ra.index, ra.nonce, frAdd ra.balance t.amount, ra.pubKey⟩ = some o2 ∧
      env.buildReaderProof o2.HashState env.hsize posS = .ok (rootA, pSA, nA) ∧
      env.buildReaderProof o2.HashState env.hsize posR = .ok (rootA', pRA, nA') ∧
      LoopInRange pSA.length pSA pRA (env.generateProofHelper pSA posS nB)
        (env.generateProofHelper pRA posR nB) pSA.length 0 ∧
      r = ⟨none, ⟨o2.State, o2.HashState, o.AccountMap, o.nbAccounts, o.batch,
        o.witnesses ++ (entriesBefore (Itoa n) sa ra t rootB pSB pRB
            (env.generateProofHelper pSB posS nB) (env.generateProofHelper pRB posR nB) ++
          entriesAfter (Itoa n)
            ⟨sa.index, (sa.nonce + 1) % 2 ^ 64, frSub sa.balance t.amount, sa.pubKey⟩
            ⟨ra.index, ra.nonce, frAdd ra.balance t.amount, ra.pubKey⟩ rootA pSA pRA
            (env.generateProofHelper pSA posS nB) (env.generateProofHelper pRA posR nB))⟩⟩ := by
  rcases updateState_some h with ⟨-, rfl⟩ | ⟨_, _, -, -, -, rfl⟩ |
    ⟨posS, sa, posR, ra, hs, hsa, hr, hra, h1⟩
  · cases hnil
  · cases hnil
  rcases recordAndApply_trace h1 with ⟨e, -, rfl⟩ |
    ⟨rootB, pSB, nB, rootB', pRB, nB', hbS, hbR, hrB, h2⟩
  · cases hnil
  rcases validateAndApply_some h2 with ⟨e, -, rfl⟩ | ⟨-, rfl⟩ | ⟨-, -, rfl⟩ | ⟨-, -, -, rfl⟩ |
    ⟨hv, hle, hn, o2, ho2, h3⟩
  · cases hnil
  · cases hnil
  · cases hnil
  · cases hnil
  obtain ⟨_, _, _, _, _, _, a3, a4, a5, a6⟩ := writeAccounts_some ho2
  dsimp only at ho2 a3 a4 a5 a6
  rcases proofsAfter_trace h3 with ⟨e, -, rfl⟩ |
    ⟨rootA, pSA, nA, rootA', pRA, nA', haS, haR, hrA, rfl⟩
  · cases hnil
  refine ⟨posS, sa, posR, ra, rootB, pSB, nB, rootB', pRB, nB', o2, rootA, pSA, nA, rootA',
    pRA, nA', hs, hsa, hr, hra, hbS, hbR, hrB, hv, hle, hn, ho2, haS, haR, hrA, ?_⟩
  rw [a3, a4, a5, a6]
  simp only [entriesAfter, List.append_assoc]

/-- A call that returned `nil` passed every check and wrote both accounts. -/
theorem updateState_nil {env : Env} {o : Operator} {t : Transfer} {n : Int} {r : Outcome}
    (h : o.updateState env t n = some r) (hnil : r.err = none) :
    ∃ posS sa posR ra w o2,
      o.AccountMap.lookup (frBytes t.senderPubKey.X) = some posS ∧
      o.readAccount posS = some (.ok sa) ∧
      o.AccountMap.lookup (frBytes t.receiverPubKey.X) = some posR ∧
      o.readAccount posR = some (.ok ra) ∧
      t.Verify env = (true, none) ∧
      ToBigIntRegular t.amount ≤ ToBigIntRegular ra.balance ∧
      t.nonce = sa.nonce ∧
      Operator.writeAccounts env
        ⟨o.State, o.HashState, o.AccountMap, o.nbAccounts, o.batch, w⟩ posS posR
        ⟨sa.index, (sa.nonce + 1) % 2 ^ 64, frSub sa.balance t.amount, sa.pubKey⟩
        ⟨ra.index, ra.nonce, frAdd ra.balance t.amount, ra.pubKey⟩ = some o2 ∧
      r.op.State = o2.State ∧ r.op.HashState = o2.HashState ∧
      r.op.AccountMap = o.AccountMap ∧ r.op.nbAccounts = o.nbAccounts ∧
      r.op.batch = o.batch := by
  obtain ⟨posS, sa, posR, ra, rootB, pSB, nB, rootB', pRB, nB', o2, rootA, pSA, nA, rootA',
    pRA, nA', hs, hsa, hr, hra, -, -, -, hv, hle, hn, ho2, -, -, -, rfl⟩ :=
    updateState_nil_trace h hnil
  exact ⟨posS, sa, posR, ra, _, o2, hs, hsa, hr, hra, hv, hle, hn, ho2, rfl, rfl, rfl, rfl, rfl⟩

/-- The sender slot after both writes, when the receiver lives in another slot. -/
theorem writeAccounts_read {env : Env} {o o2 : Operator} {posS posR : Nat} {a b : Account}
    (h : o.writeAccounts env posS posR a b = some o2)
    (hS : posS * SizeAccount + SizeAccount ≤ o.State.length)
    (hR : posR * SizeAccount + SizeAccount ≤ o.State.length) :
    o2.State.length = o.State.length ∧
    (o2.State.drop (posR * SizeAccount)).take SizeAccount = b.Serialize ∧
    (posS ≠ posR →
      (o2.State.drop (posS * SizeAccount)).take SizeAccount = a.Serialize) ∧
    ∀ k, k ≠ posS → k ≠ posR →
      (o2.State.drop (k * SizeAccount)).take SizeAccount =
        (o.State.drop (k * SizeAccount)).take SizeAccount := by
  obtain ⟨st1, hs1, h1, -, h3, -, -⟩ := writeAccounts_some h
  have l1 := length_copyFrom h1
  have l2 := length_copyFrom h3
  refine ⟨l2.trans l1, ?_, ?_, ?_⟩
  · exact slot_copyFrom_same h3 (Serialize_length b) (by omega)
  · intro hne
    rw [slot_copyFrom_other h3 (Serialize_length b) hne]
    exact slot_copyFrom_same h1 (Serialize_length a) hS
  · intro k hk1 hk2
    rw [slot_copyFrom_other h3 (Serialize_length b) hk2,
      slot_copyFrom_other h1 (Serialize_length a) hk1]

/-- Reading the two slots back after the ledger update of a transfer whose sender and
receiver live in two different slots. -/
theorem writeAccounts_readBack {env : Env} {o o2 : Operator} {posS posR amount : Nat}
    {sa ra : Account} {w : List Assignment} (hne : posS ≠ posR)
    (hsa : o.readAccount posS = some (.ok sa)) (hra : o.readAccount posR = some (.ok ra))
    (ho2 : Operator.writeAccounts env
      ⟨o.State, o.HashState, o.AccountMap, o.nbAccounts, o.batch, w⟩ posS posR
      ⟨sa.index, (sa.nonce + 1) % 2 ^ 64, frSub sa.balance amount, sa.pubKey⟩
      ⟨ra.index, ra.nonce, frAdd ra.balance amount, ra.pubKey⟩ = some o2) :
    o2.readAccount posS = some (.ok
      ⟨sa.index, (sa.nonce + 1) % 2 ^ 64, frSub sa.balance amount, sa.pubKey⟩) ∧
    o2.readAccount posR = some (.ok
      ⟨ra.index, ra.nonce, frAdd ra.balance amount, ra.pubKey⟩) := by
  obtain ⟨bS, bR⟩ := writeAccounts_bounds ho2
  obtain ⟨hinS, hdS⟩ := readAccount_ok hsa bS
  obtain ⟨hinR, hdR⟩ := readAccount_ok hra bR
  obtain ⟨s1, s2, s3, s4, s5⟩ := Deserialize_reduced hdS
  obtain ⟨r1, r2, r3, r4, r5⟩ := Deserialize_reduced hdR
  obtain ⟨hlen, hslotR, hslotS, -⟩ := writeAccounts_read ho2 hinS hinR
  constructor
  · rw [readAccount_of_slot (by rw [hlen]; exact hinS) (hslotS hne)]
    simp only [s1, s4, s5, Nat.mod_mod, frSub]
  · rw [readAccount_of_slot (by rw [hlen]; exact hinR) hslotR]
    simp only [r1, r2, r4, r5, Nat.mod_mod, frAdd]

/-- A call that reached the recording step returns `nil`, a collaborator's error or one
of the three validation errors; unless it returns `nil` or a collaborator's error, the
ledger is the one it started from. -/
theorem recordAndApply_err {env : Env} {o : Operator} {t : Transfer} {ext : String}
    {posS posR : Nat} {sa ra : Account} {r : Outcome}
    (h : o.recordAndApply env t ext posS posR sa ra = some r) :
    (r.err = none ∨ ∃ c, r.err = some (.external c)) ∨
    ((r.err = some .ErrWrongSignature ∨ r.err = some .ErrAmountTooHigh ∨
        r.err = some .ErrNonce) ∧
      r.op.State = o.State ∧ r.op.HashState = o.HashState) := by
  rcases recordAndApply_some h with ⟨e, w, rfl⟩ | ⟨w, nl, h2⟩
  · exact Or.inl (Or.inr ⟨e, rfl⟩)
  rcases validateAndApply_some h2 with ⟨e, he, rfl⟩ | ⟨-, rfl⟩ | ⟨-, -, rfl⟩ | ⟨-, -, -, rfl⟩ |
    ⟨-, -, -, o2, -, h3⟩
  · rcases Verify_err he with rfl | ⟨c, rfl⟩
    · exact Or.inr ⟨Or.inl rfl, rfl, rfl⟩
    · exact Or.inl (Or.inr ⟨c, rfl⟩)
  · exact Or.inr ⟨Or.inl rfl, rfl, rfl⟩
  · exact Or.inr ⟨Or.inr (Or.inl rfl), rfl, rfl⟩
  · exact Or.inr ⟨Or.inr (Or.inr rfl), rfl, rfl⟩
  · exact Or.inl (proofsAfter_some h3).2.2.2.2.2

theorem writeAccounts_ok (env : Env) (o : Operator) {posS posR : Nat} (a b : Account)
    (hS : posS * SizeAccount + SizeAccount ≤ o.State.length)
    (hR : posR * SizeAccount + SizeAccount ≤ o.State.length)
    (hS' : (posS + 1) * env.hsize ≤ o.HashState.length)
    (hR' : (posR + 1) * env.hsize ≤ o.HashState.length) :
    ∃ o2, o.writeAccounts env posS posR a b = some o2 := by
  have m1 : posS * env.hsize ≤ (posS + 1) * env.hsize :=
    Nat.mul_le_mul_right _ (Nat.le_succ _)
  have m2 : posR * env.hsize ≤ (posR + 1) * env.hsize :=
    Nat.mul_le_mul_right _ (Nat.le_succ _)
  obtain ⟨st1, h1⟩ : ∃ st1, copyFrom o.State (posS * SizeAccount) a.Serialize = some st1 := by
    unfold copyFrom; rw [if_pos (by omega)]; exact ⟨_, rfl⟩
  obtain ⟨hs1, h2⟩ : ∃ hs1, copyRange o.HashState (posS * env.hsize) ((posS + 1) * env.hsize)
      (env.hash a.Serialize) = some hs1 := by
    unfold copyRange; rw [if_pos ⟨m1, hS'⟩]; exact ⟨_, rfl⟩
  have l1 := length_copyFrom h1
  have l2 := length_copyRange h2
  obtain ⟨st2, h3⟩ : ∃ st2, copyFrom st1 (posR * SizeAccount) b.Serialize = some st2 := by
    unfold copyFrom; rw [if_pos (by omega)]; exact ⟨_, rfl⟩
  obtain ⟨hs2, h4⟩ : ∃ hs2, copyRange hs1 (posR * env.hsize) ((posR + 1) * env.hsize)
      (env.hash b.Serialize) = some hs2 := by
    unfold copyRange; rw [if_pos ⟨m2, by omega⟩]; exact ⟨_, rfl⟩
  unfold Operator.writeAccounts
  dsimp only
  rw [h1]; dsimp only
  rw [h2]; dsimp only
  rw [h3]; dsimp only
  rw [h4]
  exact ⟨_, rfl⟩

theorem writeAccounts_hashLength {env : Env} {o o2 : Operator} {posS posR : Nat}
    {a b : Account} (h : o.writeAccounts env posS posR a b = some o2) :
    o2.HashState.length = o.HashState.length ∧
      (posS + 1) * env.hsize ≤ o.HashState.length ∧
      (posR + 1) * env.hsize ≤ o.HashState.length := by
  obtain ⟨st1, hs1, -, h2, -, h4, -⟩ := writeAccounts_some h
  have l2 := length_copyRange h2
  have l4 := length_copyRange h4
  refine ⟨l4.trans l2, ?_, ?_⟩
  · unfold copyRange at h2
    split at h2
    next hc => exact hc.2
    next => cases h2
  · unfold copyRange at h4
    split at h4
    next hc => rw [← l2]; exact hc.2
    next => cases h4

theorem exists_outcome (x : Option Outcome) (e : Option Error)
    (h : x.map (fun r => r.err) = some e) : ∃ r, x = some r ∧ r.err = e := by
  cases x with
  | none => cases h
  | some r => exact ⟨r, rfl, Option.some.inj h⟩

/-- The digests after the ledger update: lengths, the two rewritten segments, the
others. -/
theorem writeAccounts_digests {env : Env} {o o2 : Operator} {posS posR : Nat} {a b : Account}
    (h : o.writeAccounts env posS posR a b = some o2) :
    o2.HashState.length = o.HashState.length ∧
    (env.HashOK → (o2.HashState.drop (posR * env.hsize)).take env.hsize =
      env.hash b.Serialize) ∧
    (env.HashOK → posS ≠ posR →
      (o2.HashState.drop (posS * env.hsize)).take env.hsize = env.hash a.Serialize) ∧
    ∀ k, k ≠ posS → k ≠ posR →
      (o2.HashState.drop (k * env.hsize)).take env.hsize =
        (o.HashState.drop (k * env.hsize)).take env.hsize := by
  obtain ⟨st1, hs1, -, h2, -, h4, -⟩ := writeAccounts_some h
  refine ⟨(length_copyRange h4).trans (length_copyRange h2), ?_, ?_, ?_⟩
  · intro hh
    exact seg_copyRange_same h4 (hh _)
  · intro hh hne
    rw [seg_copyRange_other h4 hne]
    exact seg_copyRange_same h2 (hh _)
  · intro k hk1 hk2
    rw [seg_copyRange_other h4 hk2, seg_copyRange_other h2 hk1]

/-- What a call can do to the ledger: nothing, or the update of the two accounts. -/
theorem updateState_ledger {env : Env} {o : Operator} {t : Transfer} {n : Int} {r : Outcome}
    (h : o.updateState env t n = some r) :
    (r.op.State = o.State ∧ r.op.HashState = o.HashState ∧ r.op.AccountMap = o.AccountMap ∧
      r.op.nbAccounts = o.nbAccounts) ∨
    (∃ posS sa posR ra w o2,
      o.AccountMap.lookup (frBytes t.senderPubKey.X) = some posS ∧
      o.readAccount posS = some (.ok sa) ∧
      o.AccountMap.lookup (frBytes t.receiverPubKey.X) = some posR ∧
      o.readAccount posR = some (.ok ra) ∧
      Operator.writeAccounts env
        ⟨o.State, o.HashState, o.AccountMap, o.nbAccounts, o.batch, w⟩ posS posR
        ⟨sa.index, (sa.nonce + 1) % 2 ^ 64, frSub sa.balance t.amount, sa.pubKey⟩
        ⟨ra.index, ra.nonce, frAdd ra.balance t.amount, ra.pubKey⟩ = some o2 ∧
      r.op.State = o2.State ∧ r.op.HashState = o2.HashState ∧
      r.op.AccountMap = o.AccountMap ∧ r.op.nbAccounts = o.nbAccounts) := by
  rcases updateState_some h with ⟨-, rfl⟩ | ⟨_, _, -, -, -, rfl⟩ |
    ⟨posS, sa, posR, ra, hs, hsa, hr, hra, h1⟩
  · exact Or.inl ⟨rfl, rfl, rfl, rfl⟩
  · exact Or.inl ⟨rfl, rfl, rfl, rfl⟩
  rcases recordAndApply_some h1 with ⟨e, w, rfl⟩ | ⟨w, nl, h2⟩
  · exact Or.inl ⟨rfl, rfl, rfl, rfl⟩
  rcases validateAndApply_some h2 with ⟨e, -, rfl⟩ | ⟨-, rfl⟩ | ⟨-, -, rfl⟩ | ⟨-, -, -, rfl⟩ |
    ⟨-, -, -, o2, ho2, h3⟩
  · exact Or.inl ⟨rfl, rfl, rfl, rfl⟩
  · exact Or.inl ⟨rfl, rfl, rfl, rfl⟩
  · exact Or.inl ⟨rfl, rfl, rfl, rfl⟩
  · exact Or.inl ⟨rfl, rfl, rfl, rfl⟩
  obtain ⟨e1, e2, e3, e4, -⟩ := proofsAfter_some h3
  obtain ⟨_, _, _, _, _, _, a3, a4, _, _⟩ := writeAccounts_some ho2
  exact Or.inr ⟨posS, sa, posR, ra, _, o2, hs, hsa, hr, hra, ho2, e1, e2, e3.trans a3,
    e4.trans a4⟩

/-! ## The witness record of a call -/

/-- The witness record after a call that returned `nil`: the record at entry followed
by the assignments of the call, in program order. -/
theorem updateState_nil_log {env : Env} {o : Operator} {t : Transfer} {n : Int}
    {r : Outcome} (h : o.updateState env t n = some r) (hnil : r.err = none) :
    ∃ posS sa posR ra rootB pSB nB rootB' pRB nB' rootA pSA nA rootA' pRA nA',
      o.AccountMap.lookup (frBytes t.senderPubKey.X) = some posS ∧
      o.readAccount posS = some (.ok sa) ∧
      o.AccountMap.lookup (frBytes t.receiverPubKey.X) = some posR ∧
      o.readAccount posR = some (.ok ra) ∧
      env.buildReaderProof o.HashState env.hsize posS = .ok (rootB, pSB, nB) ∧
      env.buildReaderProof o.HashState env.hsize posR = .ok (rootB', pRB, nB') ∧
      env.buildReaderProof r.op.HashState env.hsize posS = .ok (rootA, pSA, nA) ∧
      env.buildReaderProof r.op.HashState env.hsize posR = .ok (rootA', pRA, nA') ∧
      r.op.witnesses = o.witnesses ++
        (accountsBeforeEntries (Itoa n) sa ra ++
         [⟨.Public, baseNameRootHashBefore ++ Itoa n, .bytes rootB⟩] ++
         proofLoopEntries baseNameSenderMerkleBefore baseNameReceiverMerkleBefore
           baseNameSenderProofHelperBefore baseNameReceiverProofHelperBefore (Itoa n)
           pRB.length pSB pRB (env.generateProofHelper pSB posS nB)
           (env.generateProofHelper pRB posR nB) pSB.length 0 ++
         transferEntries (Itoa n) t ++
         accountsAfterEntries (Itoa n)
           ⟨sa.index, (sa.nonce + 1) % 2 ^ 64, frSub sa.balance t.amount, sa.pubKey⟩
           ⟨ra.index, ra.nonce, frAdd ra.balance t.amount, ra.pubKey⟩ ++
         [⟨.Public, baseNameRootHashAfter ++ Itoa n, .bytes rootA⟩] ++
         proofLoopEntries baseNameSenderMerkleAfter baseNameReceiverMerkleAfter
           baseNameSenderProofHelperAfter baseNameReceiverProofHelperAfter (Itoa n)
           pSA.length pSA pRA (env.generateProofHelper pSA posS nB)
           (env.generateProofHelper pRA posR nB) pSA.length 0) ∧
      (∀ j, j < pSB.length → ∃ ps pr, pSB[j]? = some ps ∧ pRB[j]? = some pr) ∧
      (∀ j, j < pSA.length → ∃ ps pr, pSA[j]? = some ps ∧ pRA[j]? = some pr) := by
  obtain ⟨posS, sa, posR, ra, rootB, pSB, nB, rootB', pRB, nB', o2, rootA, pSA, nA, rootA',
    pRA, nA', hs, hsa, hr, hra, hbS, hbR, hrB, -, -, -, -, haS, haR, hrA, rfl⟩ :=
    updateState_nil_trace h hnil
  refine ⟨posS, sa, posR, ra, rootB, pSB, nB, rootB', pRB, nB', rootA, pSA, nA, rootA', pRA,
    nA', hs, hsa, hr, hra, hbS, hbR, haS, haR, ?_, ?_, ?_⟩
  · simp only [entriesBefore, entriesAfter, List.append_assoc]
  · intro j hj
    obtain ⟨h1, h2, -⟩ := hrB j (Nat.zero_le j) (by omega)
    exact ⟨_, _, List.getElem?_eq_getElem h1, List.getElem?_eq_getElem h2⟩
  · intro j hj
    obtain ⟨h1, h2, -⟩ := hrA j (Nat.zero_le j) (by omega)
    exact ⟨_, _, List.getElem?_eq_getElem h1, List.getElem?_eq_getElem h2⟩

/-- Validation and update only add to the witness record, and what they add bears names
of the batch position. -/
theorem validateAndApply_names {env : Env} {o : Operator} {t : Transfer} {ext : String}
    {posS posR nl : Nat} {sa ra : Account} {r : Outcome}
    (h : o.validateAndApply env t ext posS posR nl sa ra = some r) :
    ∃ rest, r.op.witnesses = o.witnesses ++ rest ∧ ∀ x ∈ rest, IsWitnessNameFor ext x.name := by
  rcases validateAndApply_some h with ⟨e, -, rfl⟩ | ⟨-, rfl⟩ | ⟨-, -, rfl⟩ | ⟨-, -, -, rfl⟩ |
    ⟨-, -, -, o2, ho2, h3⟩
  · exact ⟨[], (List.append_nil _).symm, fun x hx => by cases hx⟩
  · exact ⟨[], (List.append_nil _).symm, fun x hx => by cases hx⟩
  · exact ⟨[], (List.append_nil _).symm, fun x hx => by cases hx⟩
  · exact ⟨[], (List.append_nil _).symm, fun x hx => by cases hx⟩
  obtain ⟨_, _, _, _, _, _, _, _, _, hw2⟩ := writeAccounts_some ho2
  dsimp only at hw2
  rcases proofsAfter_trace h3 with ⟨e, -, rfl⟩ | ⟨rootA, pSA, nA, rootA', pRA, nA', -, -, -, rfl⟩
  · exact ⟨_, hw2, accountsAfterEntries_names _ _ _⟩
  · refine ⟨entriesAfter ext
        ⟨sa.index, (sa.nonce + 1) % 2 ^ 64, frSub sa.balance t.amount, sa.pubKey⟩
        ⟨ra.index, ra.nonce, frAdd ra.balance t.amount, ra.pubKey⟩ rootA pSA pRA
        (env.generateProofHelper pSA posS nl) (env.generateProofHelper pRA posR nl), ?_, ?_⟩
    · show o2.witnesses ++ _ = _
      rw [hw2]
      simp only [entriesAfter, List.append_assoc]
    · intro x hx
      exact callEntries_names ext sa ra _ _ t [] rootA [] [] pSA pRA [] [] _ _ x
        (List.mem_append_right _ hx)

theorem validateAndApply_witnesses {env : Env} {o : Operator} {t : Transfer} {ext : String}
    {posS posR nl : Nat} {sa ra : Account} {r : Outcome}
    (h : o.validateAndApply env t ext posS posR nl sa ra = some r) :
    ∃ rest, r.op.witnesses = o.witnesses ++ rest := by
  obtain ⟨rest, hrest, -⟩ := validateAndApply_names h
  exact ⟨rest, hrest⟩

/-- Every entry a call adds to the witness record bears a name of its batch position. -/
theorem updateState_names {env : Env} {o : Operator} {t : Transfer} {n : Int} {r : Outcome}
    (h : o.updateState env t n = some r) :
    ∃ new, r.op.witnesses = o.witnesses ++ new ∧ ∀ x ∈ new, IsWitnessName n x.name := by
  rcases updateState_some h with ⟨-, rfl⟩ | ⟨_, _, -, -, -, rfl⟩ |
    ⟨posS, sa, posR, ra, hs, hsa, hr, hra, h1⟩
  · exact ⟨[], (List.append_nil _).symm, fun x hx => by cases hx⟩
  · exact ⟨[], (List.append_nil _).symm, fun x hx => by cases hx⟩
  rcases recordAndApply_trace h1 with ⟨e, -, rfl⟩ |
    ⟨rootB, pSB, nB, rootB', pRB, nB', -, -, -, h2⟩
  · exact ⟨_, rfl, accountsBeforeEntries_names _ _ _⟩
  obtain ⟨rest, hrest, hnames⟩ := validateAndApply_names h2
  dsimp only at hrest
  rw [List.append_assoc] at hrest
  refine ⟨_, hrest, names_append ?_ hnames⟩
  intro x hx
  exact callEntries_names (Itoa n) sa ra sa ra t rootB [] pSB pRB [] []
    (env.generateProofHelper pSB posS nB) (env.generateProofHelper pRB posR nB) [] [] x
    (List.mem_append_left _ hx)

/-- The snapshot taken before the update, in every call that got past it. -/
theorem updateState_snapshot_before {env : Env} {o : Operator} {t : Transfer} {n : Int}
    {r : Outcome} {posS posR : Nat} (h : o.updateState env t n = some r)
    (hs : o.AccountMap.lookup (frBytes t.senderPubKey.X) = some posS)
    (hr : o.AccountMap.lookup (frBytes t.receiverPubKey.X) = some posR) :
    (∃ e, r.err = some (.external e) ∧
      (env.buildReaderProof o.HashState env.hsize posS = .error e ∨
        env.buildReaderProof o.HashState env.hsize posR = .error e) ∧
      r.op.State = o.State ∧ r.op.HashState = o.HashState) ∨
    SnapshotRecorded env o.HashState posS posR baseNameRootHashBefore
      baseNameSenderMerkleBefore baseNameReceiverMerkleBefore (Itoa n) r.op.witnesses := by
  rcases updateState_some h with ⟨hs', -⟩ | ⟨_, _, -, -, hr', -⟩ |
    ⟨posS', sa, posR', ra, hs', hsa, hr', hra, h1⟩
  · rw [hs] at hs'; cases hs'
  · rw [hr] at hr'; cases hr'
  obtain rfl : posS' = posS := Option.some.inj (hs'.symm.trans hs)
  obtain rfl : posR' = posR := Option.some.inj (hr'.symm.trans hr)
  rcases recordAndApply_trace h1 with ⟨e, he, rfl⟩ |
    ⟨rootB, pSB, nB, rootB', pRB, nB', hbS, hbR, hrB, h2⟩
  · exact Or.inl ⟨e, rfl, he, rfl, rfl⟩
  right
  obtain ⟨rest, hrest⟩ := validateAndApply_witnesses h2
  dsimp only at hrest
  have hsub : ∀ x ∈ entriesBefore (Itoa n) sa ra t rootB pSB pRB
      (env.generateProofHelper pSB posS' nB) (env.generateProofHelper pRB posR' nB),
      x ∈ r.op.witnesses := by
    intro x hx
    rw [hrest]
    exact List.mem_append_left _ (List.mem_append_right _ hx)
  refine ⟨rootB, pSB, nB, rootB', pRB, nB', hbS, hbR, hsub _ ?_, ?_⟩
  · simp [entriesBefore]
  · intro j hj
    obtain ⟨ps, pr, e1, e2, m1, m2⟩ := proofLoopEntries_elems baseNameSenderMerkleBefore
      baseNameReceiverMerkleBefore baseNameSenderProofHelperBefore
      baseNameReceiverProofHelperBefore (Itoa n) pSB.length hrB j
      (Nat.zero_le j) (by omega)
    refine ⟨ps, pr, e1, e2, hsub _ ?_, hsub _ ?_⟩
    · unfold entriesBefore
      exact List.mem_append_left _ (List.mem_append_right _ m1)
    · unfold entriesBefore
      exact List.mem_append_left _ (List.mem_append_right _ m2)

/-- The snapshot taken after the update, in a call that returned `nil`. -/
theorem updateState_snapshot_after {env : Env} {o : Operator} {t : Transfer} {n : Int}
    {r : Outcome} {posS posR : Nat} (h : o.updateState env t n = some r)
    (hs : o.AccountMap.lookup (frBytes t.senderPubKey.X) = some posS)
    (hr : o.AccountMap.lookup (frBytes t.receiverPubKey.X) = some posR)
    (hnil : r.err = none) :
    SnapshotRecorded env r.op.HashState posS posR baseNameRootHashAfter
      baseNameSenderMerkleAfter baseNameReceiverMerkleAfter (Itoa n) r.op.witnesses := by
  obtain ⟨posS', sa, posR', ra, rootB, pSB, nB, rootB', pRB, nB', o2, rootA, pSA, nA, rootA',
    pRA, nA', hs', hsa, hr', hra, hbS, hbR, hrB, -, -, -, -, haS, haR, hrA, rfl⟩ :=
    updateState_nil_trace h hnil
  obtain rfl : posS' = posS := Option.some.inj (hs'.symm.trans hs)
  obtain rfl : posR' = posR := Option.some.inj (hr'.symm.trans hr)
  refine ⟨rootA, pSA, nA, rootA', pRA, nA', haS, haR, ?_, ?_⟩
  · simp [entriesAfter]
  · intro j hj
    obtain ⟨ps, pr, e1, e2, m1, m2⟩ := proofLoopEntries_elems baseNameSenderMerkleAfter
      baseNameReceiverMerkleAfter baseNameSenderProofHelperAfter
      baseNameReceiverProofHelperAfter (Itoa n) pSA.length hrA j
      (Nat.zero_le j) (by omega)
    refine ⟨ps, pr, e1, e2, ?_, ?_⟩
    · unfold entriesAfter
      exact List.mem_append_right _ (List.mem_append_right _ (List.mem_append_right _ m1))
    · unfold entriesAfter
      exact List.mem_append_right _ (List.mem_append_right _ (List.mem_append_right _ m2))

/-! ## Calls that do not panic -/

/-- With the accumulator's contract, two leaves that lie at one depth in a digest
sequence lie at one depth in every digest sequence of that length. -/
theorem Env.MerkleOK.sameDepth {env : Env} (hm : env.MerkleOK) {hs hs' : List Nat} {i j : Nat}
    (hd : env.SameDepth hs i j) (hlen : hs'.length = hs.length)
    (hi : (i + 1) * env.hsize ≤ hs.length) (hj : (j + 1) * env.hsize ≤ hs.length) :
    env.SameDepth hs' i j := by
  obtain ⟨ri0, hri0⟩ := hm.build hs i hi
  obtain ⟨rj0, hrj0⟩ := hm.build hs j hj
  intro ri rj hri hrj
  rw [hm.shape hs' hs i ri ri0 hlen hri hri0, hm.shape hs' hs j rj rj0 hlen hrj hrj0]
  exact hd ri0 rj0 hri0 hrj0

/-- On a well-formed operator, at a batch position none of whose names is in the record,
with leaves at one depth, a call whose identities resolve records the accounts and the
proofs before update and reaches the signature check. -/
theorem updateState_reach {env : Env} {o : Operator} (t : Transfer) {n : Int}
    {posS posR : Nat} {sa ra : Account} (hwf : o.WellFormed env) (hm : env.MerkleOK)
    (hd : env.SameDepth o.HashState posS posR) (hfresh : o.PositionUnused n)
    (hs : o.AccountMap.lookup (frBytes t.senderPubKey.X) = some posS)
    (hsa : o.readAccount posS = some (.ok sa))
    (hr : o.AccountMap.lookup (frBytes t.receiverPubKey.X) = some posR)
    (hra : o.readAccount posR = some (.ok ra)) :
    ∃ rootB pSB nB rootB' pRB nB',
      env.buildReaderProof o.HashState env.hsize posS = .ok (rootB, pSB, nB) ∧
      env.buildReaderProof o.HashState env.hsize posR = .ok (rootB', pRB, nB') ∧
      o.updateState env t n =
        Operator.validateAndApply env
          ⟨o.State, o.HashState, o.AccountMap, o.nbAccounts, o.batch,
            o.witnesses ++ entriesBefore (Itoa n) sa ra t rootB pSB pRB
              (env.generateProofHelper pSB posS nB) (env.generateProofHelper pRB posR nB)⟩
          t (Itoa n) posS posR nB sa ra := by
  obtain ⟨⟨rootB, pSB, nB⟩, hbS⟩ := hm.build o.HashState posS
    (Operator.WellFormed.slot_in hwf hs).2
  obtain ⟨⟨rootB', pRB, nB'⟩, hbR⟩ := hm.build o.HashState posR
    (Operator.WellFormed.slot_in hwf hr).2
  have hlen : pSB.length = pRB.length := hd _ _ hbS hbR
  have hrB := LoopInRange.of_eq hlen (hm.helper pSB posS nB) (hm.helper pRB posR nB)
    pRB.length (by omega)
  have hf := (NamesFresh.append (callEntries_fresh hfresh sa ra sa ra t rootB [] pSB pRB [] []
    (env.generateProofHelper pSB posS nB) (env.generateProofHelper pRB posR nB) [] [])).1
  exact ⟨rootB, pSB, nB, rootB', pRB, nB', hbS, hbR,
    (updateState_eq n hs hsa hr hra).trans (recordAndApply_eq t (Itoa n) sa ra hbS hbR hrB hf)⟩

/-- The update step of a transfer that passed the checks returns `nil`, when the slots
lie inside the ledger, the two leaves lie at one depth and the names are new. -/
theorem validateAndApply_apply {env : Env} {o : Operator} {t : Transfer} (ext : String)
    {posS posR : Nat} (nl : Nat) {sa ra : Account} (hv : t.Verify env = (true, none))
    (hle : ToBigIntRegular t.amount ≤ ToBigIntRegular ra.balance) (heq : t.nonce = sa.nonce)
    (hm : env.MerkleOK) (hd : env.SameDepth o.HashState posS posR)
    (hS : posS * SizeAccount + SizeAccount ≤ o.State.length)
    (hR : posR * SizeAccount + SizeAccount ≤ o.State.length)
    (hS' : (posS + 1) * env.hsize ≤ o.HashState.length)
    (hR' : (posR + 1) * env.hsize ≤ o.HashState.length)
    (hf : ∀ rootA pSA pRA hSA hRA, NamesFresh o.witnesses (entriesAfter ext
      ⟨sa.index, (sa.nonce + 1) % 2 ^ 64, frSub sa.balance t.amount, sa.pubKey⟩
      ⟨ra.index, ra.nonce, frAdd ra.balance t.amount, ra.pubKey⟩ rootA pSA pRA hSA hRA)) :
    ∃ o', o.validateAndApply env t ext posS posR nl sa ra = some ⟨none, o'⟩ := by
  obtain ⟨o2, ho2⟩ := writeAccounts_ok env
    ⟨o.State, o.HashState, o.AccountMap, o.nbAccounts, o.batch,
      o.witnesses ++ accountsAfterEntries ext
        ⟨sa.index, (sa.nonce + 1) % 2 ^ 64, frSub sa.balance t.amount, sa.pubKey⟩
        ⟨ra.index, ra.nonce, frAdd ra.balance t.amount, ra.pubKey⟩⟩
    ⟨sa.index, (sa.nonce + 1) % 2 ^ 64, frSub sa.balance t.amount, sa.pubKey⟩
    ⟨ra.index, ra.nonce, frAdd ra.balance t.amount, ra.pubKey⟩ hS hR hS' hR'
  obtain ⟨hl, -, -⟩ := writeAccounts_hashLength ho2
  dsimp only at hl
  obtain ⟨_, _, _, _, _, _, _, _, _, hw2⟩ := writeAccounts_some ho2
  dsimp only at hw2
  obtain ⟨⟨rootA, pSA, nA⟩, haS⟩ := hm.build o2.HashState posS (by rw [hl]; exact hS')
  obtain ⟨⟨rootA', pRA, nA'⟩, haR⟩ := hm.build o2.HashState posR (by rw [hl]; exact hR')
  have hlen : pSA.length = pRA.length := hm.sameDepth hd hl hS' hR' _ _ haS haR
  have hrA := LoopInRange.of_eq hlen (hm.helper pSA posS nl) (hm.helper pRA posR nl)
    pSA.length (Nat.le_refl _)
  have hfA := hf rootA pSA pRA (env.generateProofHelper pSA posS nl)
    (env.generateProofHelper pRA posR nl)
  unfold entriesAfter at hfA
  rw [List.append_assoc] at hfA
  obtain ⟨hf1, hf2⟩ := NamesFresh.append hfA
  rw [validateAndApply_write ext nl hv hle heq hf1 ho2]
  refine ⟨_, (proofsAfter_ok_iff haS haR).mpr ⟨hrA, ?_, rfl⟩⟩
  rw [hw2]
  exact hf2

/-! ## The concrete instance -/

theorem exists_isSome {α} (x : Option α) (h : x.isSome = true) : ∃ a, x = some a :=
  Option.isSome_iff_exists.mp h

theorem Demo.treePath_length (k : Nat) : ∀ (ls : List (List Nat)) (i : Nat),
    (Demo.treePath k ls i).length = Demo.pathLength k ls.length i := by
  induction k with
  | zero => intro ls i; rfl
  | succ k ih =>
    intro ls i
    unfold Demo.treePath Demo.pathLength
    by_cases h1 : ls.length ≤ 1
    · rw [if_pos h1, if_pos h1]; rfl
    · rw [if_neg h1, if_neg h1]
      by_cases h2 : i < Demo.splitPoint ls.length
      · rw [if_pos h2, if_pos h2, List.length_append, ih, List.length_take]
        rfl
      · rw [if_neg h2, if_neg h2, List.length_append, ih, List.length_drop]
        rfl

theorem Demo.leaves_length (hs : List Nat) (seg : Nat) :
    (Demo.leaves hs seg).length = (hs.length + seg - 1) / seg := by
  unfold Demo.leaves
  rw [List.length_map, List.length_range]

theorem Demo.buildReaderProof_eq (hs : List Nat) (i : Nat) :
    Demo.env.buildReaderProof hs Demo.env.hsize i =
      if (32 : Nat) = 0 ∨ hs.length ≤ i * 32 then .error 1
      else .ok (Demo.treeRoot (Demo.leaves hs 32).length (Demo.leaves hs 32),
        (hs.drop (i * 32)).take 32 ::
          Demo.treePath (Demo.leaves hs 32).length (Demo.leaves hs 32) i,
        (Demo.leaves hs 32).length) := rfl

/-- The accumulator of the concrete instance keeps the contract. -/
theorem Demo.env_merkleOK : Demo.env.MerkleOK where
  build := by
    intro hs i hi
    have h32 : Demo.env.hsize = 32 := rfl
    rw [Demo.buildReaderProof_eq]
    rw [h32] at hi
    rw [if_neg (by omega)]
    exact ⟨_, rfl⟩
  shape := by
    intro hs hs' i res res' hlen h h'
    rw [Demo.buildReaderProof_eq] at h h'
    split at h
    · cases h
    split at h'
    · cases h'
    rw [← Except.ok.inj h, ← Except.ok.inj h']
    simp only [List.length_cons, Demo.treePath_length, Demo.leaves_length, hlen]
  helper := by
    intro proof i n
    show ((List.range (proof.length - 1)).map _).length = _
    rw [List.length_map, List.length_range]

theorem Demo.op2_wellFormed : Demo.op2.WellFormed Demo.env :=
  ⟨by decide!, by decide!, by decide!⟩

/-- The digest sequences of the length of the ledger of two accounts: the two leaves lie
at one depth. -/
theorem Demo.sameDepth_two (hs : List Nat) (h : hs.length = 64) :
    Demo.env.SameDepth hs 0 1 := by
  intro ri rj hi hj
  rw [Demo.buildReaderProof_eq] at hi hj
  split at hi
  · cases hi
  split at hj
  · cases hj
  rw [← Except.ok.inj hi, ← Except.ok.inj hj]
  simp only [List.length_cons, Demo.treePath_length, Demo.leaves_length, h]
  decide!

theorem Demo.op2_unused (n : Int) : Demo.op2.PositionUnused n := by
  intro a ha
  cases ha

/-- The names of another batch position stay out of the record: a call for position `a`
adds no name of position `b`. -/
theorem updateState_unused {env : Env} {o : Operator} {t : Transfer} {r : Outcome}
    {a b : Nat} (ha : a < BatchSize) (hb : b < BatchSize) (hab : a ≠ b)
    (hu : o.PositionUnused b) (h : o.updateState env t a = some r) :
    r.op.PositionUnused b := by
  obtain ⟨new, hnew, hn⟩ := updateState_names h
  intro x hx hxb
  rw [hnew] at hx
  rcases List.mem_append.mp hx with hx | hx
  · exact hu x hx hxb
  · exact witnessName_disjoint a b ha hb hab _ _ (hn x hx) hxb rfl

/-! ## The claims -/

/-- C1. For a transfer whose sender and receiver identities resolve to two different
slots, a call of `updateState` that returns `nil` leaves in the sender slot the same
index and public key, the nonce incremented (the `uint64` increment of `nonce++`) and
the balance reduced by the amount (field subtraction), and in the receiver slot the same
index, nonce and public key with the balance increased by the amount (field addition). -/
theorem updateState_apply (env : Env) (o : Operator) (t : Transfer) (n : Int)
    (posS posR : Nat) (sa ra : Account) (r : Outcome)
    (hs : o.AccountMap.lookup (frBytes t.senderPubKey.X) = some posS)
    (hr : o.AccountMap.lookup (frBytes t.receiverPubKey.X) = some posR)
    (hne : posS ≠ posR)
    (hsa : o.readAccount posS = some (.ok sa))
    (hra : o.readAccount posR = some (.ok ra))
    (h : o.updateState env t n = some r) (hnil : r.err = none) :
    r.op.readAccount posS = some (.ok
      ⟨sa.index, (sa.nonce + 1) % 2 ^ 64, frSub sa.balance t.amount, sa.pubKey⟩) ∧
    r.op.readAccount posR = some (.ok
      ⟨ra.index, ra.nonce, frAdd ra.balance t.amount, ra.pubKey⟩) := by
  obtain ⟨posS', sa', posR', ra', w, o2, hs', hsa', hr', hra', -, -, -, ho2, e1, -⟩ :=
    updateState_nil h hnil
  obtain rfl : posS' = posS := Option.some.inj (hs'.symm.trans hs)
  obtain rfl : posR' = posR := Option.some.inj (hr'.symm.trans hr)
  obtain rfl : sa' = sa := by
    have := hsa'.symm.trans hsa; simpa using this
  obtain rfl : ra' = ra := by
    have := hra'.symm.trans hra; simpa using this
  rw [readAccount_congr e1 posS', readAccount_congr e1 posR']
  exact writeAccounts_readBack hne hsa hra ho2

/-- The transfer of 10 from slot 0 (balance 100) to slot 1 (balance 50) is applied. -/
theorem updateState_apply_witness :
    ∃ r, Demo.op2.updateState Demo.env (Demo.transfer 10 0 1 0) 0 = some r ∧ r.err = none ∧
      r.op.readAccount 0 = some (.ok ⟨0, 1, 90, ⟨1000, 2000⟩⟩) ∧
      r.op.readAccount 1 = some (.ok ⟨1, 0, 60, ⟨1001, 2001⟩⟩) := by
  obtain ⟨r, hr, he⟩ := exists_outcome
    (Demo.op2.updateState Demo.env (Demo.transfer 10 0 1 0) 0) none (by decide!)
  exact ⟨r, hr, he, updateState_apply Demo.env Demo.op2 (Demo.transfer 10 0 1 0) 0 0 1
    (Demo.account 0 0 100) (Demo.account 1 0 50) r (by decide!) (by decide!) (by decide)
    (by decide!) (by decide!) hr he⟩

/-- C2. Conservation fails on a transfer from an account to itself: sender and receiver
resolve to the same slot 0, which holds 100 before the call; `updateState` returns `nil`
and the slot holds 110 afterwards, so the sum of the sender's and the receiver's balance
goes from 200 to 220. -/
theorem updateState_selfTransfer_balance :
    Demo.op2.AccountMap.lookup (frBytes (Demo.transfer 10 0 0 0).senderPubKey.X) = some 0 ∧
    Demo.op2.AccountMap.lookup (frBytes (Demo.transfer 10 0 0 0).receiverPubKey.X) = some 0 ∧
    Demo.op2.balanceAt 0 = some 100 ∧
    (Demo.op2.updateState Demo.env (Demo.transfer 10 0 0 0) 0).map
      (fun r => (r.err, r.op.balanceAt 0)) = some (none, some 110) := by
  decide!

/-- C3. The nonce is not incremented on a transfer from an account to itself: the
sender resolves to slot 1, whose nonce is 0 before the call; `updateState` returns `nil`
and the nonce stored in slot 1 is still 0. -/
theorem updateState_selfTransfer_nonce :
    Demo.op2.AccountMap.lookup (frBytes (Demo.transfer 7 1 1 0).senderPubKey.X) = some 1 ∧
    Demo.op2.AccountMap.lookup (frBytes (Demo.transfer 7 1 1 0).receiverPubKey.X) = some 1 ∧
    Demo.op2.nonceAt 1 = some 0 ∧
    (Demo.op2.updateState Demo.env (Demo.transfer 7 1 1 0) 0).map
      (fun r => (r.err, r.op.nonceAt 1)) = some (none, some 0) := by
  decide!

/-- C4. Rejection leaves the ledger alone: when `updateState` returns
`ErrNonExistingAccount`, `ErrWrongSignature`, `ErrAmountTooHigh` or `ErrNonce`, `State`
and `HashState` are what they were before the call. -/
theorem updateState_rejection_noop (env : Env) (o : Operator) (t : Transfer) (n : Int)
    (r : Outcome) (h : o.updateState env t n = some r)
    (he : r.err = some .ErrNonExistingAccount ∨ r.err = some .ErrWrongSignature ∨
      r.err = some .ErrAmountTooHigh ∨ r.err = some .ErrNonce) :
    r.op.State = o.State ∧ r.op.HashState = o.HashState := by
  rcases updateState_some h with ⟨-, rfl⟩ | ⟨_, _, -, -, -, rfl⟩ |
    ⟨posS, sa, posR, ra, -, -, -, -, h1⟩
  · exact ⟨rfl, rfl⟩
  · exact ⟨rfl, rfl⟩
  rcases recordAndApply_err h1 with (h0 | ⟨c, hc⟩) | ⟨-, hst⟩
  · rw [h0] at he; simp at he
  · rw [hc] at he; simp at he
  · exact hst

/-- A transfer of 60 to a receiver holding 50 is rejected and the ledger is untouched. -/
theorem updateState_rejection_noop_witness :
    ∃ r, Demo.op2.updateState Demo.env (Demo.transfer 60 0 1 0) 0 = some r ∧
      r.err = some .ErrAmountTooHigh ∧
      r.op.State = Demo.op2.State ∧ r.op.HashState = Demo.op2.HashState := by
  obtain ⟨r, hr, he⟩ := exists_outcome
    (Demo.op2.updateState Demo.env (Demo.transfer 60 0 1 0) 0) (some .ErrAmountTooHigh)
    (by decide!)
  exact ⟨r, hr, he, updateState_rejection_noop Demo.env Demo.op2 (Demo.transfer 60 0 1 0) 0 r
    hr (Or.inr (Or.inr (Or.inl he)))⟩

/-- C5. In the scenario (16 accounts, slot 0 with balance 100 and nonce 0, slot 1 with
balance 0, a correctly signed transfer of 10 with nonce 0 from account 0 to account 1)
`updateState` does not return `nil`: it returns `ErrAmountTooHigh` and account 0 keeps
balance 100 and nonce 0, account 1 balance 0. -/
theorem updateState_scenario :
    Demo.op16.nbAccounts = 16 ∧
    Demo.op16.readAccount 0 = some (.ok (Demo.account 0 0 100)) ∧
    Demo.op16.readAccount 1 = some (.ok (Demo.account 1 0 0)) ∧
    (Demo.transfer 10 0 1 0).Verify Demo.env = (true, none) ∧
    (Demo.op16.updateState Demo.env (Demo.transfer 10 0 1 0) 0).map
      (fun r => (r.err, r.op.balanceAt 0, r.op.nonceAt 0, r.op.balanceAt 1)) =
      some (some .ErrAmountTooHigh, some 100, some 0, some 0) := by
  decide!

/-- C6. A sender can overdraw: with 5 in the sender's account and 50 in the receiver's,
a transfer of 10 is applied (`updateState` returns `nil`) and the sender's balance wraps
around to the field order minus 5. -/
theorem updateState_overdraw :
    Demo.opPoor.balanceAt 0 = some 5 ∧ Demo.opPoor.balanceAt 1 = some 50 ∧
    (Demo.transfer 10 0 1 0).amount = 10 ∧
    (Demo.opPoor.updateState Demo.env (Demo.transfer 10 0 1 0) 0).map
      (fun r => (r.err, r.op.balanceAt 0)) = some (none, some (frModulus - 5)) := by
  decide!

/-- C7, as stated, fails. On a ledger of three accounts the proofs of inclusion of slots 0
and 2 have three and two entries: for a signed transfer of 80 from slot 0 to slot 2, whose
balance is 70, the loop of lines 224-232 indexes the receiver's proof out of range and the
call panics. At a batch position already used (position 0, after the transfer of 10 from
slot 0 to slot 1 was applied there) a signed transfer of 70 to slot 1, whose balance is then
60, panics at the first assignment, the name being assigned already. And with an accumulator
that returns an error, a transfer of 60 to slot 1, whose balance is 50, returns that error. -/
theorem updateState_amountTooHigh_counterexample :
    (Demo.op3.AccountMap.lookup (frBytes (Demo.transfer 80 0 2 0).senderPubKey.X) = some 0 ∧
      Demo.op3.AccountMap.lookup (frBytes (Demo.transfer 80 0 2 0).receiverPubKey.X) = some 2 ∧
      Demo.op3.readAccount 2 = some (.ok (Demo.account 2 0 70)) ∧
      (Demo.transfer 80 0 2 0).Verify Demo.env = (true, none) ∧
      ToBigIntRegular (Demo.transfer 80 0 2 0).amount >
        ToBigIntRegular (Demo.account 2 0 70).balance ∧
      Demo.op3.updateState Demo.env (Demo.transfer 80 0 2 0) 0 = none) ∧
    ((Demo.op2.updateState Demo.env (Demo.transfer 10 0 1 0) 0).map
        (fun r => (r.err, r.op.balanceAt 1)) = some (none, some 60) ∧
      (Demo.transfer 70 0 1 1).Verify Demo.env = (true, none) ∧
      (Demo.op2.updateState Demo.env (Demo.transfer 10 0 1 0) 0).bind
        (fun r => r.op.updateState Demo.env (Demo.transfer 70 0 1 1) 0) = none) ∧
    (Demo.op2.updateState Demo.envNoProof (Demo.transfer 60 0 1 0) 0).map (fun r => r.err)
      = some (some (.external 3)) := by
  decide!

/-- C7 (amended). On a well-formed operator, for a transfer whose identities resolve to two
slots whose proofs of inclusion have the same length, at a batch position none of whose
witness names is in the record yet, and whose signature verifies, `updateState` returns
`ErrAmountTooHigh` exactly when the integer representative of the amount is strictly
greater than that of the balance stored in the receiver's account (not the sender's). The
accumulator is the library's: it builds a proof for every leaf of the digest sequence, of
a length that depends on the number of leaves and on the leaf only, and the proof helper
has one entry less than the proof. -/
theorem updateState_amountTooHigh_iff (env : Env) (o : Operator) (t : Transfer) (n : Int)
    (posS posR : Nat) (ra : Account) (hwf : o.WellFormed env) (hm : env.MerkleOK)
    (hd : env.SameDepth o.HashState posS posR) (hfresh : o.PositionUnused n)
    (hs : o.AccountMap.lookup (frBytes t.senderPubKey.X) = some posS)
    (hr : o.AccountMap.lookup (frBytes t.receiverPubKey.X) = some posR)
    (hra : o.readAccount posR = some (.ok ra))
    (hv : t.Verify env = (true, none)) :
    (∃ o', o.updateState env t n = some ⟨some .ErrAmountTooHigh, o'⟩) ↔
      ToBigIntRegular t.amount > ToBigIntRegular ra.balance := by
  obtain ⟨sa, hsa⟩ := readAccount_of_in (Operator.WellFormed.slot_in hwf hs).1
  obtain ⟨rootB, pSB, nB, rootB', pRB, nB', -, -, hrec⟩ :=
    updateState_reach t hwf hm hd hfresh hs hsa hr hra
  rw [hrec]
  constructor
  · rintro ⟨o', h⟩
    rcases validateAndApply_some h with ⟨e, he, -⟩ | ⟨hf, -⟩ | ⟨-, hgt, -⟩ | ⟨-, -, -, hx⟩ |
      ⟨-, -, -, o2, -, h3⟩
    · rw [hv] at he; cases he
    · rw [hv] at hf; cases hf
    · exact hgt
    · cases hx
    · rcases (proofsAfter_some h3).2.2.2.2.2 with h0 | ⟨c, h0⟩ <;> cases h0
  · intro hgt
    exact ⟨_, validateAndApply_amount hv hgt⟩

/-- A transfer of 60 to a receiver holding 50: `ErrAmountTooHigh`, and 60 > 50. -/
theorem updateState_amountTooHigh_iff_witness :
    (∃ o, Demo.op2.updateState Demo.env (Demo.transfer 60 0 1 0) 0 =
        some ⟨some .ErrAmountTooHigh, o⟩) ∧
      ToBigIntRegular (Demo.transfer 60 0 1 0).amount >
        ToBigIntRegular (Demo.account 1 0 50).balance :=
  ⟨(updateState_amountTooHigh_iff Demo.env Demo.op2 (Demo.transfer 60 0 1 0) 0 0 1
    (Demo.account 1 0 50) Demo.op2_wellFormed Demo.env_merkleOK
    (Demo.sameDepth_two _ (by decide!)) (Demo.op2_unused 0) (by decide!) (by decide!)
    (by decide!) (by decide!)).mpr (by decide!), by decide!⟩

/-- C8, as stated, fails. On a ledger of three accounts, where the proofs of inclusion of
slots 0 and 2 have three and two entries, a signed transfer of 10 from slot 0 to slot 2
panics, with the stored nonce 0 as with the nonce 5. At a batch position already used
(position 0, after the transfer of 10 from slot 0 to slot 1 was applied there) the same
transfer, whose nonce 0 is no longer the stored nonce 1, panics at the first assignment.
And with an accumulator that returns an error the call returns that error, with the
stored nonce as with another. -/
theorem updateState_nonce_counterexample :
    (Demo.op3.AccountMap.lookup (frBytes (Demo.transfer 10 0 2 0).senderPubKey.X) = some 0 ∧
      Demo.op3.AccountMap.lookup (frBytes (Demo.transfer 10 0 2 0).receiverPubKey.X) = some 2 ∧
      Demo.op3.readAccount 0 = some (.ok (Demo.account 0 0 100)) ∧
      Demo.op3.readAccount 2 = some (.ok (Demo.account 2 0 70)) ∧
      (Demo.transfer 10 0 2 0).Verify Demo.env = (true, none) ∧
      (Demo.transfer 10 0 2 5).Verify Demo.env = (true, none) ∧
      Demo.op3.updateState Demo.env (Demo.transfer 10 0 2 0) 0 = none ∧
      Demo.op3.updateState Demo.env (Demo.transfer 10 0 2 5) 0 = none) ∧
    ((Demo.op2.updateState Demo.env (Demo.transfer 10 0 1 0) 0).map
        (fun r => (r.err, r.op.nonceAt 0, r.op.balanceAt 1)) = some (none, some 1, some 60) ∧
      (Demo.op2.updateState Demo.env (Demo.transfer 10 0 1 0) 0).bind
        (fun r => r.op.updateState Demo.env (Demo.transfer 10 0 1 0) 0) = none) ∧
    ((Demo.op2.updateState Demo.envNoProof (Demo.transfer 10 0 1 0) 0).map (fun r => r.err)
        = some (some (.external 3)) ∧
      (Demo.op2.updateState Demo.envNoProof (Demo.transfer 10 0 1 3) 0).map (fun r => r.err)
        = some (some (.external 3))) := by
  decide!

/-- C8 (amended). On a well-formed operator, for a transfer whose identities resolve to two
slots whose proofs of inclusion have the same length, at a batch position none of whose
witness names is in the record yet, whose signature verifies and whose amount does not
exceed the receiver's balance, `updateState` returns `ErrNonce` exactly when the transfer's
nonce differs from the nonce stored in the sender's account, and returns `nil` otherwise.
The accumulator is the library's: it builds a proof for every leaf of the digest sequence,
of a length that depends on the number of leaves and on the leaf only, and the proof helper
has one entry less than the proof. -/
theorem updateState_nonce_iff (env : Env) (o : Operator) (t : Transfer) (n : Int)
    (posS posR : Nat) (sa ra : Account) (hwf : o.WellFormed env) (hm : env.MerkleOK)
    (hd : env.SameDepth o.HashState posS posR) (hfresh : o.PositionUnused n)
    (hs : o.AccountMap.lookup (frBytes t.senderPubKey.X) = some posS)
    (hr : o.AccountMap.lookup (frBytes t.receiverPubKey.X) = some posR)
    (hsa : o.readAccount posS = some (.ok sa))
    (hra : o.readAccount posR = some (.ok ra))
    (hv : t.Verify env = (true, none))
    (hle : ToBigIntRegular t.amount ≤ ToBigIntRegular ra.balance) :
    ((∃ o', o.updateState env t n = some ⟨some .ErrNonce, o'⟩) ↔ t.nonce ≠ sa.nonce) ∧
    (t.nonce = sa.nonce → ∃ o', o.updateState env t n = some ⟨none, o'⟩) := by
  obtain ⟨rootB, pSB, nB, rootB', pRB, nB', -, -, hrec⟩ :=
    updateState_reach t hwf hm hd hfresh hs hsa hr hra
  rw [hrec]
  refine ⟨⟨?_, ?_⟩, ?_⟩
  · rintro ⟨o', h⟩
    rcases validateAndApply_some h with ⟨e, he, -⟩ | ⟨hf, -⟩ | ⟨-, -, hx⟩ | ⟨-, -, hne, -⟩ |
      ⟨-, -, -, o2, -, h3⟩
    · rw [hv] at he; cases he
    · rw [hv] at hf; cases hf
    · cases hx
    · exact hne
    · rcases (proofsAfter_some h3).2.2.2.2.2 with h0 | ⟨c, h0⟩ <;> cases h0
  · intro hne
    exact ⟨_, validateAndApply_nonce hv hle hne⟩
  · intro heq
    exact validateAndApply_apply (Itoa n) nB hv hle heq hm hd
      (Operator.WellFormed.slot_in hwf hs).1 (Operator.WellFormed.slot_in hwf hr).1
      (Operator.WellFormed.slot_in hwf hs).2 (Operator.WellFormed.slot_in hwf hr).2
      (fun rootA pSA pRA hSA hRA => (NamesFresh.append (callEntries_fresh hfresh sa ra _ _ t
        rootB rootA pSB pRB pSA pRA _ _ hSA hRA)).2)

/-- A transfer with nonce 3 from an account whose nonce is 0 returns `ErrNonce`; the same
transfer with nonce 0 returns `nil`. -/
theorem updateState_nonce_iff_witness :
    (∃ o, Demo.op2.updateState Demo.env (Demo.transfer 10 0 1 3) 0 =
        some ⟨some .ErrNonce, o⟩) ∧
    (∃ o, Demo.op2.updateState Demo.env (Demo.transfer 10 0 1 0) 0 = some ⟨none, o⟩) :=
  ⟨(updateState_nonce_iff Demo.env Demo.op2 (Demo.transfer 10 0 1 3) 0 0 1
      (Demo.account 0 0 100) (Demo.account 1 0 50) Demo.op2_wellFormed Demo.env_merkleOK
      (Demo.sameDepth_two _ (by decide!)) (Demo.op2_unused 0)
      (by decide!) (by decide!) (by decide!) (by decide!) (by decide!) (by decide!)).1.mpr
      (by decide!),
    (updateState_nonce_iff Demo.env Demo.op2 (Demo.transfer 10 0 1 0) 0 0 1
      (Demo.account 0 0 100) (Demo.account 1 0 50) Demo.op2_wellFormed Demo.env_merkleOK
      (Demo.sameDepth_two _ (by decide!)) (Demo.op2_unused 0)
      (by decide!) (by decide!) (by decide!) (by decide!) (by decide!) (by decide!)).2
      (by decide!)⟩

/-- C9, as stated, fails. With the receiver five units below the field order, a transfer
of 10 is applied and its replay returns `ErrAmountTooHigh`, not `ErrNonce`; the replay
of a transfer from an account to itself returns `nil` again and changes the ledger
(balance 100, then 110, then 120); and the replay of a transfer at the batch position
where it was applied panics at the first assignment, the name being assigned already. -/
theorem updateState_replay_counterexample :
    ((Demo.opFull.updateState Demo.env (Demo.transfer 10 0 1 0) 0).map (fun r => r.err)
        = some none ∧
      ((Demo.opFull.updateState Demo.env (Demo.transfer 10 0 1 0) 0).bind
        (fun r => r.op.updateState Demo.env (Demo.transfer 10 0 1 0) 1)).map (fun r => r.err)
        = some (some .ErrAmountTooHigh)) ∧
    ((Demo.op2.updateState Demo.env (Demo.transfer 10 0 0 0) 0).map
        (fun r => (r.err, r.op.balanceAt 0)) = some (none, some 110) ∧
      ((Demo.op2.updateState Demo.env (Demo.transfer 10 0 0 0) 0).bind
        (fun r => r.op.updateState Demo.env (Demo.transfer 10 0 0 0) 1)).map
        (fun r => (r.err, r.op.balanceAt 0)) = some (none, some 120)) ∧
    ((Demo.op2.updateState Demo.env (Demo.transfer 10 0 1 0) 0).map (fun r => r.err)
        = some none ∧
      (Demo.op2.updateState Demo.env (Demo.transfer 10 0 1 0) 0).bind
        (fun r => r.op.updateState Demo.env (Demo.transfer 10 0 1 0) 0) = none) := by
  decide!

/-- C9 (amended). Replay is rejected: for a transfer whose sender and receiver resolve to
two different slots, after a call of `updateState` that returned `nil` a second call
with the same transfer, at a batch position none of whose witness names is in the record
yet, returns `ErrNonce`, or `ErrAmountTooHigh` when the amount exceeds the receiver's new
balance, and leaves `State` and `HashState` as the first call left them. The accumulator
is the library's: the length of the proof of a leaf depends on the number of leaves and
on the leaf only, and the proof helper has one entry less than the proof. -/
theorem updateState_replay_rejected (env : Env) (o : Operator) (t : Transfer) (n m : Int)
    (posS posR : Nat) (ra : Account) (r : Outcome) (hm : env.MerkleOK)
    (hs : o.AccountMap.lookup (frBytes t.senderPubKey.X) = some posS)
    (hr : o.AccountMap.lookup (frBytes t.receiverPubKey.X) = some posR)
    (hne : posS ≠ posR)
    (hra : o.readAccount posR = some (.ok ra))
    (h : o.updateState env t n = some r) (hnil : r.err = none)
    (hfresh : r.op.PositionUnused m) :
    ∃ r2, r.op.updateState env t m = some r2 ∧
      r2.err = (if ToBigIntRegular t.amount > ToBigIntRegular (frAdd ra.balance t.amount)
        then some .ErrAmountTooHigh else some .ErrNonce) ∧
      r2.op.State = r.op.State ∧ r2.op.HashState = r.op.HashState := by
  obtain ⟨posS', sa, posR', ra', rootB, pSB, nB, rootB', pRB, nB', o2, rootA, pSA, nA, rootA',
    pRA, nA', hs', hsa, hr', hra', hbS, hbR, hrB, hv, -, hn, ho2, haS, haR, -, hrop⟩ :=
    updateState_nil_trace h hnil
  obtain rfl : posS' = posS := Option.some.inj (hs'.symm.trans hs)
  obtain rfl : posR' = posR := Option.some.inj (hr'.symm.trans hr)
  obtain rfl : ra' = ra := by
    have := hra'.symm.trans hra; simpa using this
  have e1 : r.op.State = o2.State := by rw [hrop]
  have e2 : r.op.HashState = o2.HashState := by rw [hrop]
  have e3 : r.op.AccountMap = o.AccountMap := by rw [hrop]
  obtain ⟨hS2, hR2⟩ := writeAccounts_readBack hne hsa hra ho2
  rw [← readAccount_congr e1 posS'] at hS2
  rw [← readAccount_congr e1 posR'] at hR2
  obtain ⟨hl, -, -⟩ := writeAccounts_hashLength ho2
  dsimp only at hl
  rw [← e2] at haS haR
  have l1 : pSA.length = pSB.length := hm.shape _ _ posS' _ _ (by rw [e2]; exact hl) haS hbS
  have l2 : pRA.length = pRB.length := hm.shape _ _ posR' _ _ (by rw [e2]; exact hl) haR hbR
  have hrange := hrB.congr pSA pRA
    (env.generateProofHelper pSA posS' nA) (env.generateProofHelper pRA posR' nA)
    l1 l2 (by rw [hm.helper, hm.helper, l1]) (by rw [hm.helper, hm.helper, l2])
  rw [← l1, ← l2] at hrange
  have hf := (NamesFresh.append (callEntries_fresh hfresh
    ⟨sa.index, (sa.nonce + 1) % 2 ^ 64, frSub sa.balance t.amount, sa.pubKey⟩
    ⟨ra'.index, ra'.nonce, frAdd ra'.balance t.amount, ra'.pubKey⟩
    (Demo.account 0 0 0) (Demo.account 0 0 0) t rootA [] pSA pRA [] []
    (env.generateProofHelper pSA posS' nA) (env.generateProofHelper pRA posR' nA) [] [])).1
  rw [updateState_eq m (by rw [e3]; exact hs) hS2 (by rw [e3]; exact hr) hR2,
    recordAndApply_eq t (Itoa m) _ _ haS haR hrange hf]
  by_cases hgt : ToBigIntRegular t.amount > ToBigIntRegular (frAdd ra'.balance t.amount)
  · rw [validateAndApply_amount hv hgt, if_pos hgt]
    exact ⟨_, rfl, rfl, rfl, rfl⟩
  · have hlt : sa.nonce < 2 ^ 64 := by
      obtain ⟨data, hd⟩ := readAccount_deser hsa
      have := (Deserialize_reduced hd).2.1
      rw [← this]
      exact Nat.mod_lt _ (by decide)
    have hne' : t.nonce ≠ (sa.nonce + 1) % 2 ^ 64 := by
      rw [hn]
      omega
    rw [validateAndApply_nonce hv (Nat.le_of_not_gt hgt) hne', if_neg hgt]
    exact ⟨_, rfl, rfl, rfl, rfl⟩

/-- The replay, at position 1, of the transfer of 10 from slot 0 to slot 1 applied at
position 0 returns `ErrNonce`. -/
theorem updateState_replay_rejected_witness :
    ∃ r, Demo.op2.updateState Demo.env (Demo.transfer 10 0 1 0) 0 = some r ∧ r.err = none ∧
      ∃ r2, r.op.updateState Demo.env (Demo.transfer 10 0 1 0) 1 = some r2 ∧
        r2.err = some .ErrNonce ∧
        r2.op.State = r.op.State ∧ r2.op.HashState = r.op.HashState := by
  obtain ⟨r, hr, he⟩ := exists_outcome
    (Demo.op2.updateState Demo.env (Demo.transfer 10 0 1 0) 0) none (by decide!)
  exact ⟨r, hr, he, updateState_replay_rejected Demo.env Demo.op2 (Demo.transfer 10 0 1 0) 0 1
    0 1 (Demo.account 1 0 50) r Demo.env_merkleOK (by decide!) (by decide!) (by decide)
    (by decide!) hr he
    (updateState_unused (a := 0) (b := 1) (by decide) (by decide) (by decide)
      (Demo.op2_unused _) hr)⟩

/-- C10. On a well-formed operator `updateState` returns `ErrNonExistingAccount` exactly
when the X coordinate of the sender's or of the receiver's public key is not a key of
`AccountMap`; and whenever it returns that error the operator (`State`, `HashState`,
the witness record and all the rest) is unchanged. -/
theorem updateState_nonExisting_iff (env : Env) (o : Operator) (t : Transfer) (n : Int)
    (hwf : o.WellFormed env) :
    ((∃ o', o.updateState env t n = some ⟨some .ErrNonExistingAccount, o'⟩) ↔
      (o.AccountMap.lookup (frBytes t.senderPubKey.X) = none ∨
        o.AccountMap.lookup (frBytes t.receiverPubKey.X) = none)) ∧
    ∀ r, o.updateState env t n = some r → r.err = some .ErrNonExistingAccount → r.op = o := by
  have key : ∀ r, o.updateState env t n = some r → r.err = some .ErrNonExistingAccount →
      r.op = o ∧ (o.AccountMap.lookup (frBytes t.senderPubKey.X) = none ∨
        o.AccountMap.lookup (frBytes t.receiverPubKey.X) = none) := by
    intro r h he
    rcases updateState_some h with ⟨hs, rfl⟩ | ⟨_, _, -, -, hr, rfl⟩ |
      ⟨posS, sa, posR, ra, -, -, -, -, h1⟩
    · exact ⟨rfl, Or.inl hs⟩
    · exact ⟨rfl, Or.inr hr⟩
    · rcases recordAndApply_err h1 with (h0 | ⟨c, h0⟩) | ⟨h0 | h0 | h0, -⟩ <;>
        (rw [h0] at he; simp at he)
  refine ⟨⟨?_, ?_⟩, fun r h he => (key r h he).1⟩
  · rintro ⟨o', h⟩
    exact (key _ h rfl).2
  · intro hnone
    unfold Operator.updateState
    dsimp only
    cases hs : o.AccountMap.lookup (frBytes t.senderPubKey.X) with
    | none => exact ⟨o, rfl⟩
    | some posS =>
      obtain ⟨sa, hsa⟩ := readAccount_of_in (Operator.WellFormed.slot_in hwf hs).1
      rcases hnone with h | h
      · rw [hs] at h; cases h
      · dsimp only
        rw [hsa]
        dsimp only
        rw [h]
        exact ⟨o, rfl⟩

/-- A transfer to an identity that is not in the map: `ErrNonExistingAccount`. -/
theorem updateState_nonExisting_iff_witness :
    ((∃ o, Demo.op2.updateState Demo.env (Demo.transfer 10 0 7 0) 0 =
        some ⟨some .ErrNonExistingAccount, o⟩) ↔
      (Demo.op2.AccountMap.lookup (frBytes (Demo.transfer 10 0 7 0).senderPubKey.X) = none ∨
        Demo.op2.AccountMap.lookup (frBytes (Demo.transfer 10 0 7 0).receiverPubKey.X)
          = none)) ∧
    ∀ r, Demo.op2.updateState Demo.env (Demo.transfer 10 0 7 0) 0 = some r →
      r.err = some .ErrNonExistingAccount → r.op = Demo.op2 :=
  updateState_nonExisting_iff Demo.env Demo.op2 (Demo.transfer 10 0 7 0) 0 Demo.op2_wellFormed

/-- C19. Frame: a call of `updateState` leaves the lengths of `State` and `HashState`
and the `AccountMap` as they were, and for every slot `k` that is neither the resolved
sender slot nor the resolved receiver slot the `SizeAccount` bytes of `State` at `k`
and the digest segment of `HashState` at `k` are unchanged. -/
theorem updateState_frame (env : Env) (o : Operator) (t : Transfer) (n : Int) (r : Outcome)
    (h : o.updateState env t n = some r) :
    r.op.State.length = o.State.length ∧ r.op.HashState.length = o.HashState.length ∧
    r.op.AccountMap = o.AccountMap ∧
    ∀ k, o.AccountMap.lookup (frBytes t.senderPubKey.X) ≠ some k →
      o.AccountMap.lookup (frBytes t.receiverPubKey.X) ≠ some k →
      (r.op.State.drop (k * SizeAccount)).take SizeAccount =
        (o.State.drop (k * SizeAccount)).take SizeAccount ∧
      (r.op.HashState.drop (k * env.hsize)).take env.hsize =
        (o.HashState.drop (k * env.hsize)).take env.hsize := by
  rcases updateState_ledger h with ⟨e1, e2, e3, -⟩ |
    ⟨posS, sa, posR, ra, w, o2, hs, hsa, hr, hra, ho2, e1, e2, e3, -⟩
  · rw [e1, e2, e3]
    exact ⟨rfl, rfl, rfl, fun k _ _ => ⟨rfl, rfl⟩⟩
  · obtain ⟨hlen, -, -, hother⟩ := writeAccounts_read ho2
      (readAccount_ok hsa (writeAccounts_bounds ho2).1).1
      (readAccount_ok hra (writeAccounts_bounds ho2).2).1
    obtain ⟨hlen', -, -, hother'⟩ := writeAccounts_digests ho2
    rw [e1, e2, e3]
    refine ⟨hlen, hlen', rfl, fun k hk1 hk2 => ?_⟩
    have n1 : k ≠ posS := fun hk => hk1 (hk ▸ hs)
    have n2 : k ≠ posR := fun hk => hk2 (hk ▸ hr)
    exact ⟨hother k n1 n2, hother' k n1 n2⟩

theorem slot_replicate (N i w : Nat) (hi : i < N) :
    ((List.replicate (w * N) 0).drop (i * w)).take w = List.replicate w 0 := by
  have h1 : (i + 1) * w ≤ w * N := by
    rw [Nat.mul_comm w N]; exact Nat.mul_le_mul_right w hi
  rw [Nat.succ_mul] at h1
  rw [List.drop_replicate, List.take_replicate]
  congr 1
  omega

/-- The loop of `NewOperator` does not panic and fills the segments it visits with the
digests of the slots, leaving the segments below its start as they are. -/
theorem hashLoop_spec (env : Env) (hh : env.HashOK) (state : List Nat) (N : Nat)
    (hstate : state.length = SizeAccount * N) (k i : Nat) (hs : List Nat)
    (hlen : hs.length = env.hsize * N) (hik : i + k ≤ N) :
    ∃ out, NewOperator.hashLoop env state k i hs = some out ∧ out.length = hs.length ∧
      (∀ j, j < i → (out.drop (j * env.hsize)).take env.hsize =
        (hs.drop (j * env.hsize)).take env.hsize) ∧
      (∀ j, i ≤ j → j < i + k → (out.drop (j * env.hsize)).take env.hsize =
        env.hash ((state.drop (j * SizeAccount)).take SizeAccount)) := by
  induction k generalizing i hs with
  | zero => exact ⟨hs, rfl, rfl, fun _ _ => rfl, fun j h1 h2 => by omega⟩
  | succ k ih =>
    have hiN : i < N := by omega
    have b1 : i * SizeAccount + SizeAccount ≤ state.length := by
      rw [hstate, ← Nat.succ_mul, Nat.mul_comm SizeAccount N]
      exact Nat.mul_le_mul_right _ hiN
    have b2 : (i + 1) * env.hsize ≤ hs.length := by
      rw [hlen, Nat.mul_comm env.hsize N]
      exact Nat.mul_le_mul_right _ hiN
    have b3 : i * env.hsize ≤ (i + 1) * env.hsize := Nat.mul_le_mul_right _ (Nat.le_succ i)
    obtain ⟨hs1, h1⟩ : ∃ hs1, copyRange hs (i * env.hsize) ((i + 1) * env.hsize)
        (env.hash ((state.drop (i * SizeAccount)).take SizeAccount)) = some hs1 := by
      unfold copyRange; rw [if_pos ⟨b3, b2⟩]; exact ⟨_, rfl⟩
    have l1 := length_copyRange h1
    obtain ⟨out, ho, hl, hlow, hhigh⟩ := ih (i + 1) hs1 (by rw [l1]; exact hlen) (by omega)
    refine ⟨out, ?_, by rw [hl, l1], ?_, ?_⟩
    · unfold NewOperator.hashLoop slice
      rw [if_pos ⟨by omega, b1⟩]
      dsimp only
      rw [Nat.add_sub_cancel_left, h1]
      exact ho
    · intro j hj
      rw [hlow j (by omega), seg_copyRange_other h1 (by omega)]
    · intro j hj1 hj2
      by_cases hji : j = i
      · subst hji
        rw [hlow j (by omega)]
        exact seg_copyRange_same h1 (hh _)
      · exact hhigh j (by omega) (by omega)

/-- C13. Digest consistency is an invariant, for a hash whose `Sum` returns `Size()`
bytes: `NewOperator` returns a ledger whose slots are `SizeAccount` zero bytes each and
whose digest segments are the digests of the slots; and every call of `updateState`,
whatever it returns, on a digest-consistent operator leaves a digest-consistent
operator. -/
theorem digestConsistent_invariant (env : Env) (hh : env.HashOK) :
    (∀ nbAccounts, ∃ o, NewOperator env nbAccounts = some o ∧ o.nbAccounts = nbAccounts ∧
      (∀ i, i < nbAccounts →
        (o.State.drop (i * SizeAccount)).take SizeAccount = List.replicate SizeAccount 0) ∧
      o.DigestConsistent env) ∧
    (∀ (o : Operator) (t : Transfer) (n : Int) (r : Outcome), o.DigestConsistent env →
      o.updateState env t n = some r → r.op.DigestConsistent env) := by
  constructor
  · intro N
    obtain ⟨out, ho, -, -, hhigh⟩ := hashLoop_spec env hh (List.replicate (SizeAccount * N) 0) N
      (List.length_replicate _ _) N 0 (List.replicate (env.hsize * N) 0)
      (List.length_replicate _ _) (by omega)
    refine ⟨⟨List.replicate (SizeAccount * N) 0, out, [], N, 0, []⟩, ?_, rfl, ?_, ?_⟩
    · unfold NewOperator
      dsimp only
      rw [ho]
    · intro i hi
      exact slot_replicate N i SizeAccount hi
    · intro i hi
      have hi' : i < N := hi
      exact hhigh i (Nat.zero_le i) (by omega)
  · intro o t n r hinv h i hi
    rcases updateState_ledger h with ⟨e1, e2, -, e4⟩ |
      ⟨posS, sa, posR, ra, w, o2, hs, hsa, hr, hra, ho2, e1, e2, -, e4⟩
    · rw [e1, e2]
      exact hinv i (e4 ▸ hi)
    · obtain ⟨-, hR, hS, hother⟩ := writeAccounts_read ho2
        (readAccount_ok hsa (writeAccounts_bounds ho2).1).1
        (readAccount_ok hra (writeAccounts_bounds ho2).2).1
      obtain ⟨-, hR', hS', hother'⟩ := writeAccounts_digests ho2
      rw [e1, e2]
      by_cases hiR : i = posR
      · subst hiR
        rw [hR, hR' hh]
      · by_cases hiS : i = posS
        · subst hiS
          rw [hS hiR, hS' hh hiR]
        · rw [hother i hiS hiR, hother' i hiS hiR]
          exact hinv i (e4 ▸ hi)

theorem filter_public_secret (l : List Assignment) (h : ∀ x ∈ l, x.visibility = .Secret) :
    l.filter (fun a => decide (a.visibility = .Public)) = [] := by
  rw [List.filter_eq_nil_iff]
  intro x hx
  rw [h x hx]
  decide

theorem secret_of_filter (new : List Assignment) (eB eA : Assignment)
    (hf : new.filter (fun a => decide (a.visibility = .Public)) = [eB, eA]) :
    ∀ x ∈ new, x ≠ eB → x ≠ eA → x.visibility = .Secret := by
  intro x hx h1 h2
  cases hv : x.visibility with
  | Secret => rfl
  | Public =>
    have hmem : x ∈ new.filter (fun a => decide (a.visibility = .Public)) :=
      List.mem_filter.mpr ⟨hx, by simp [hv]⟩
    rw [hf] at hmem
    simp only [List.mem_cons, List.mem_singleton, List.not_mem_nil, or_false] at hmem
    rcases hmem with h | h
    · exact absurd h h1
    · exact absurd h h2

/-- C14. Public/private split: among the witness entries a successful `updateState(t, n)`
assigns, exactly two are public, named `merkle_rh_before_` + n and `merkle_rh_after_` + n
and holding the roots the accumulator returns for `HashState` before and after the
mutation; every other entry assigned by the call is secret. -/
theorem updateState_public_split (env : Env) (o : Operator) (t : Transfer) (n : Int)
    (r : Outcome) (h : o.updateState env t n = some r) (hnil : r.err = none) :
    ∃ new posS rootB proofB nB rootA proofA nA,
      r.op.witnesses = o.witnesses ++ new ∧
      o.AccountMap.lookup (frBytes t.senderPubKey.X) = some posS ∧
      env.buildReaderProof o.HashState env.hsize posS = .ok (rootB, proofB, nB) ∧
      env.buildReaderProof r.op.HashState env.hsize posS = .ok (rootA, proofA, nA) ∧
      new.filter (fun a => decide (a.visibility = .Public)) =
        [⟨.Public, baseNameRootHashBefore ++ Itoa n, .bytes rootB⟩,
         ⟨.Public, baseNameRootHashAfter ++ Itoa n, .bytes rootA⟩] ∧
      ∀ x ∈ new, x ≠ ⟨.Public, baseNameRootHashBefore ++ Itoa n, .bytes rootB⟩ →
        x ≠ ⟨.Public, baseNameRootHashAfter ++ Itoa n, .bytes rootA⟩ →
        x.visibility = .Secret := by
  obtain ⟨posS, sa, posR, ra, rootB, pSB, nB, rootB', pRB, nB', rootA, pSA, nA, rootA', pRA, nA',
    hs, -, -, -, hbS, -, haS, -, hlog, -, -⟩ := updateState_nil_log h hnil
  refine ⟨_, posS, rootB, pSB, nB, rootA, pSA, nA, hlog, hs, hbS, haS, ?_⟩
  refine (fun hp => ⟨hp, secret_of_filter _ _ _ hp⟩) ?_
  simp only [List.filter_append]
  rw [filter_public_secret _ (fun x hx => (proofLoopEntries_secret _ _ _ _ _ _ _ _ _ _ _ _ x hx).1),
    filter_public_secret _ (fun x hx => (proofLoopEntries_secret _ _ _ _ _ _ _ _ _ _ _ _ x hx).1),
    filter_public_secret (accountsBeforeEntries _ _ _) (by simp [accountsBeforeEntries]),
    filter_public_secret (transferEntries _ _) (by simp [transferEntries]),
    filter_public_secret (accountsAfterEntries _ _ _) (by simp [accountsAfterEntries])]
  simp

/-- C20. Frozen snapshots: in every call of `updateState` whose identities resolve,
unless the accumulator fails to build a `before` proof, the sender's and the receiver's
`before` proofs are both built from `HashState` at entry and the recorded `before` root
is the root returned for that sequence; and when the call returns `nil`, the sender's
and the receiver's `after` proofs are both built from `HashState` as the call leaves it,
after both slots were rewritten, and the recorded `after` root is the root returned for
that sequence. -/
theorem updateState_frozen_snapshots (env : Env) (o : Operator) (t : Transfer) (n : Int)
    (r : Outcome) (posS posR : Nat) (h : o.updateState env t n = some r)
    (hs : o.AccountMap.lookup (frBytes t.senderPubKey.X) = some posS)
    (hr : o.AccountMap.lookup (frBytes t.receiverPubKey.X) = some posR) :
    ((∃ e, r.err = some (.external e) ∧
        (env.buildReaderProof o.HashState env.hsize posS = .error e ∨
          env.buildReaderProof o.HashState env.hsize posR = .error e)) ∨
      SnapshotRecorded env o.HashState posS posR baseNameRootHashBefore
        baseNameSenderMerkleBefore baseNameReceiverMerkleBefore (Itoa n) r.op.witnesses) ∧
    (r.err = none →
      SnapshotRecorded env r.op.HashState posS posR baseNameRootHashAfter
        baseNameSenderMerkleAfter baseNameReceiverMerkleAfter (Itoa n) r.op.witnesses) := by
  constructor
  · rcases updateState_snapshot_before h hs hr with ⟨e, he, hb, -⟩ | hsnap
    · exact Or.inl ⟨e, he, hb⟩
    · exact Or.inr hsnap
  · intro hnil
    exact updateState_snapshot_after h hs hr hnil

/-- C12 (amended). A failure to build an inclusion proof is fatal: when the accumulator
returns an error for the sender's or the receiver's proof before the mutation,
`updateState` returns an error and leaves `State` and `HashState` untouched; and a call
that returns `nil` has built all four proofs, before and after, without error. -/
theorem updateState_proof_failure_fatal (env : Env) (o : Operator) (t : Transfer) (n : Int)
    (r : Outcome) (posS posR : Nat) (h : o.updateState env t n = some r)
    (hs : o.AccountMap.lookup (frBytes t.senderPubKey.X) = some posS)
    (hr : o.AccountMap.lookup (frBytes t.receiverPubKey.X) = some posR) :
    (((∃ e, env.buildReaderProof o.HashState env.hsize posS = .error e) ∨
        (∃ e, env.buildReaderProof o.HashState env.hsize posR = .error e)) →
      r.err ≠ none ∧ r.op.State = o.State ∧ r.op.HashState = o.HashState) ∧
    (((∃ e, env.buildReaderProof r.op.HashState env.hsize posS = .error e) ∨
        (∃ e, env.buildReaderProof r.op.HashState env.hsize posR = .error e)) →
      r.err ≠ none) := by
  constructor
  · intro hfail
    rcases updateState_snapshot_before h hs hr with ⟨e, he, -, h1, h2⟩ |
      ⟨_, _, _, _, _, _, hbS, hbR, -⟩
    · exact ⟨by rw [he]; simp, h1, h2⟩
    · rcases hfail with ⟨e, he⟩ | ⟨e, he⟩
      · rw [hbS] at he; cases he
      · rw [hbR] at he; cases he
  · intro hfail hnil
    obtain ⟨_, _, _, _, _, _, haS, haR, -⟩ := updateState_snapshot_after h hs hr hnil
    rcases hfail with ⟨e, he⟩ | ⟨e, he⟩
    · rw [haS] at he; cases he
    · rw [haR] at he; cases he

/-- `Transfer.Verify` in terms of the verifier's answer for the message built from the
public keys the transfer carries. -/
theorem Verify_eq (env : Env) (t : Transfer) :
    t.Verify env =
      match env.eddsaVerify t.signature
          (signedMessage env t.nonce t.amount t.senderPubKey t.receiverPubKey)
          t.senderPubKey with
      | .error e => (false, some (.external e))
      | .ok resSig => if !resSig then (false, some .ErrWrongSignature) else (true, none) :=
  rfl

/-- C11 (amended). Signature authenticity: on a well-formed operator, for a transfer
whose identities resolve to two slots whose proofs of inclusion have the same length, at a
batch position none of whose witness names is in the record yet, `updateState` passes the
signature step (it goes on to return `nil`, `ErrAmountTooHigh` or `ErrNonce`) exactly when
`eddsa.Verify` accepts the signature under the public key carried by the transfer, for the
message hash of the transfer's nonce, amount and its own sender and receiver keys; when
the verifier answers false it returns `ErrWrongSignature`, and when the verifier returns
an error it returns that error. The accumulator is the library's: it builds a proof for
every leaf of the digest sequence, of a length that depends on the number of leaves and on
the leaf only, and the proof helper has one entry less than the proof. -/
theorem updateState_signature_step (env : Env) (o : Operator) (t : Transfer) (n : Int)
    (posS posR : Nat) (hwf : o.WellFormed env) (hm : env.MerkleOK)
    (hd : env.SameDepth o.HashState posS posR) (hfresh : o.PositionUnused n)
    (hs : o.AccountMap.lookup (frBytes t.senderPubKey.X) = some posS)
    (hr : o.AccountMap.lookup (frBytes t.receiverPubKey.X) = some posR) :
    ((∃ r, o.updateState env t n = some r ∧
        (r.err = none ∨ r.err = some .ErrAmountTooHigh ∨ r.err = some .ErrNonce)) ↔
      env.eddsaVerify t.signature
        (signedMessage env t.nonce t.amount t.senderPubKey t.receiverPubKey)
        t.senderPubKey = .ok true) ∧
    (env.eddsaVerify t.signature
        (signedMessage env t.nonce t.amount t.senderPubKey t.receiverPubKey)
        t.senderPubKey = .ok false →
      ∃ o', o.updateState env t n = some ⟨some .ErrWrongSignature, o'⟩) ∧
    (∀ e, env.eddsaVerify t.signature
        (signedMessage env t.nonce t.amount t.senderPubKey t.receiverPubKey)
        t.senderPubKey = .error e →
      ∃ o', o.updateState env t n = some ⟨some (.external e), o'⟩) := by
  obtain ⟨sa, hsa⟩ := readAccount_of_in (Operator.WellFormed.slot_in hwf hs).1
  obtain ⟨ra, hra⟩ := readAccount_of_in (Operator.WellFormed.slot_in hwf hr).1
  obtain ⟨rootB, pSB, nB, rootB', pRB, nB', -, -, hrec⟩ :=
    updateState_reach t hwf hm hd hfresh hs hsa hr hra
  rw [hrec]
  have hV := Verify_eq env t
  cases hv : env.eddsaVerify t.signature
      (signedMessage env t.nonce t.amount t.senderPubKey t.receiverPubKey) t.senderPubKey with
  | error e =>
    rw [hv] at hV
    have hres := validateAndApply_verifyError ⟨o.State, o.HashState, o.AccountMap,
      o.nbAccounts, o.batch, o.witnesses ++ entriesBefore (Itoa n) sa ra t rootB pSB pRB
        (env.generateProofHelper pSB posS nB) (env.generateProofHelper pRB posR nB)⟩
      (Itoa n) posS posR nB sa ra hV
    refine ⟨⟨?_, (fun h => by cases h)⟩, (fun h => by cases h), ?_⟩
    · rintro ⟨r, h1, h2⟩
      rw [hres] at h1
      cases h1
      simp at h2
    · intro e' he'
      cases he'
      exact ⟨_, hres⟩
  | ok b =>
    rw [hv] at hV
    cases b with
    | false =>
      have hres := validateAndApply_verifyError ⟨o.State, o.HashState, o.AccountMap,
        o.nbAccounts, o.batch, o.witnesses ++ entriesBefore (Itoa n) sa ra t rootB pSB pRB
          (env.generateProofHelper pSB posS nB) (env.generateProofHelper pRB posR nB)⟩
        (Itoa n) posS posR nB sa ra hV
      refine ⟨⟨?_, (fun h => by cases h)⟩, fun _ => ⟨_, hres⟩, (fun e h => by cases h)⟩
      rintro ⟨r, h1, h2⟩
      rw [hres] at h1
      cases h1
      simp at h2
    | true =>
      refine ⟨⟨fun _ => rfl, fun _ => ?_⟩, (fun h => by cases h), (fun e h => by cases h)⟩
      have hV' : t.Verify env = (true, none) := hV
      by_cases hgt : ToBigIntRegular t.amount > ToBigIntRegular ra.balance
      · exact ⟨_, validateAndApply_amount hV' hgt, Or.inr (Or.inl rfl)⟩
      · by_cases hne : t.nonce = sa.nonce
        · obtain ⟨o', ho'⟩ := validateAndApply_apply (o := ⟨o.State, o.HashState, o.AccountMap,
            o.nbAccounts, o.batch, o.witnesses ++ entriesBefore (Itoa n) sa ra t rootB pSB pRB
              (env.generateProofHelper pSB posS nB) (env.generateProofHelper pRB posR nB)⟩)
            (Itoa n) nB hV' (Nat.le_of_not_gt hgt) hne hm hd
            (Operator.WellFormed.slot_in hwf hs).1 (Operator.WellFormed.slot_in hwf hr).1
            (Operator.WellFormed.slot_in hwf hs).2 (Operator.WellFormed.slot_in hwf hr).2
            (fun rootA pSA pRA hSA hRA => (NamesFresh.append (callEntries_fresh hfresh sa ra
              _ _ t rootB rootA pSB pRB pSA pRA _ _ hSA hRA)).2)
          exact ⟨_, ho', Or.inl rfl⟩
        · exact ⟨_, validateAndApply_nonce hV' (Nat.le_of_not_gt hgt) hne, Or.inr (Or.inr rfl)⟩

/-- C15. Per-position namespacing: for two different batch positions `a` and `b` below
`BatchSize`, no witness name of position `a` (a base name followed by `decimal(a)`, or a
proof-path base name followed by `decimal(a)` and `decimal(i)`) equals a witness name of
position `b`; in particular no entry that a call of `updateState` for position `a` adds
to a witness record bears the name of an entry that a call for position `b` adds. -/
theorem witness_names_namespaced (a b : Nat) (ha : a < BatchSize) (hb : b < BatchSize)
    (hab : a ≠ b) :
    (∀ x y, IsWitnessName a x → IsWitnessName b y → x ≠ y) ∧
    (∀ (env env' : Env) (o o' : Operator) (t t' : Transfer) (r r' : Outcome),
      o.updateState env t a = some r → o'.updateState env' t' b = some r' →
      ∀ x ∈ r.op.witnesses.drop o.witnesses.length,
      ∀ y ∈ r'.op.witnesses.drop o'.witnesses.length, x.name ≠ y.name) := by
  have key := witnessName_disjoint a b ha hb hab
  refine ⟨key, ?_⟩
  intro env env' o o' t t' r r' h h' x hx y hy
  obtain ⟨new, hnew, hn⟩ := updateState_names h
  obtain ⟨new', hnew', hn'⟩ := updateState_names h'
  rw [hnew, List.drop_left] at hx
  rw [hnew', List.drop_left] at hy
  exact key _ _ (hn x hx) (hn' y hy)

/-- C16 (amended). Read of a slot: on an operator whose `State` is a slice of `SizeAccount`
bytes per account, `readAccount(i)` for `i < nbAccounts` deserializes exactly the bytes
`State[i*SizeAccount, (i+1)*SizeAccount)` and returns the account without error. For
`i >= nbAccounts` it never returns an error, there being no check of `i`: the offset
`int(i)*SizeAccount` is computed in 64 bits; the call panics when the slot at that offset
does not lie inside `State`, which is the case whenever the product does not wrap around,
and otherwise it returns without error the account deserialized from the bytes at that
offset. -/
theorem readAccount_bounded (o : Operator) (i : Nat)
    (hlen : o.State.length = SizeAccount * o.nbAccounts) (hslice : o.State.length < 2 ^ 63) :
    (i < o.nbAccounts →
      ∃ a, Deserialize ((o.State.drop (i * SizeAccount)).take SizeAccount) = .ok a ∧
        o.readAccount i = some (.ok a)) ∧
    (o.nbAccounts ≤ i →
      (∀ e, o.readAccount i ≠ some (.error e)) ∧
      (i * SizeAccount < 2 ^ 64 → o.readAccount i = none) ∧
      (o.readAccount i = none ↔ o.State.length < i * SizeAccount % 2 ^ 64 + SizeAccount) ∧
      (i * SizeAccount % 2 ^ 64 + SizeAccount ≤ o.State.length →
        ∃ a, Deserialize ((o.State.drop (i * SizeAccount % 2 ^ 64)).take SizeAccount) = .ok a ∧
          o.readAccount i = some (.ok a))) := by
  have hdef : o.readAccount i =
      if i * SizeAccount % 2 ^ 64 + SizeAccount ≤ o.State.length then
        some (Deserialize ((o.State.drop (i * SizeAccount % 2 ^ 64)).take SizeAccount))
      else none := by
    unfold Operator.readAccount slotOffset
    rw [if_pos hslice]
  constructor
  · intro hi
    have hin : i * SizeAccount + SizeAccount ≤ o.State.length := by
      rw [hlen, ← Nat.succ_mul, Nat.mul_comm SizeAccount]
      exact Nat.mul_le_mul_right _ hi
    obtain ⟨a, ha⟩ := readAccount_of_in hin
    exact ⟨a, (readAccount_ok ha (by omega)).2, ha⟩
  · intro hi
    have hge : o.State.length ≤ i * SizeAccount := by
      rw [hlen, Nat.mul_comm SizeAccount]
      exact Nat.mul_le_mul_right _ hi
    have h160 : 0 < SizeAccount := by decide
    refine ⟨fun e => readAccount_ne_error, ?_, ?_, ?_⟩
    · intro hlt
      rw [hdef, Nat.mod_eq_of_lt hlt, if_neg (by omega)]
    · rw [hdef]
      constructor
      · intro h
        split at h
        · cases h
        · omega
      · intro h
        rw [if_neg (by omega)]
    · intro hin
      obtain ⟨a, ha⟩ := Deserialize_slot_ok o.State (i * SizeAccount % 2 ^ 64) hin
      exact ⟨a, ha, by rw [hdef, if_pos hin, ha]⟩

/-- C17. Width of a write: the serialized form of an account always has `SizeAccount` bytes,
so that a form of another length is never written; and a call of `updateState` either
leaves `State` and `HashState` as they were or replaces exactly the `SizeAccount` bytes of
the receiver's slot by the serialized receiver and those of the sender's slot by the
serialized sender, `State` keeping its length and every other slot its bytes: nothing is
truncated, padded or spilled into a neighbouring slot. -/
theorem updateState_write_width (env : Env) (o : Operator) (t : Transfer) (n : Int)
    (r : Outcome) (h : o.updateState env t n = some r) :
    (∀ a : Account, a.Serialize.length = SizeAccount) ∧
    r.op.State.length = o.State.length ∧
    ((r.op.State = o.State ∧ r.op.HashState = o.HashState) ∨
      ∃ posS posR sa ra,
        o.AccountMap.lookup (frBytes t.senderPubKey.X) = some posS ∧
        o.AccountMap.lookup (frBytes t.receiverPubKey.X) = some posR ∧
        o.readAccount posS = some (.ok sa) ∧ o.readAccount posR = some (.ok ra) ∧
        (r.op.State.drop (posR * SizeAccount)).take SizeAccount =
          (⟨ra.index, ra.nonce, frAdd ra.balance t.amount, ra.pubKey⟩ : Account).Serialize ∧
        (posS ≠ posR → (r.op.State.drop (posS * SizeAccount)).take SizeAccount =
          (⟨sa.index, (sa.nonce + 1) % 2 ^ 64, frSub sa.balance t.amount, sa.pubKey⟩ :
            Account).Serialize) ∧
        ∀ k, k ≠ posS → k ≠ posR →
          (r.op.State.drop (k * SizeAccount)).take SizeAccount =
            (o.State.drop (k * SizeAccount)).take SizeAccount) := by
  refine ⟨Serialize_length, ?_⟩
  rcases updateState_ledger h with ⟨e1, e2, -, -⟩ |
    ⟨posS, sa, posR, ra, w, o2, hs, hsa, hr, hra, ho2, e1, e2, -, -⟩
  · exact ⟨by rw [e1], Or.inl ⟨e1, e2⟩⟩
  · obtain ⟨hlen, hR, hS, hother⟩ := writeAccounts_read ho2
      (readAccount_ok hsa (writeAccounts_bounds ho2).1).1
      (readAccount_ok hra (writeAccounts_bounds ho2).2).1
    rw [e1]
    exact ⟨hlen, Or.inr ⟨posS, posR, sa, ra, hs, hr, hsa, hra, hR, hS, hother⟩⟩

/-! ## Concrete runs for the claims above -/

/-- The hash of the concrete instance returns `Size()` bytes. -/
theorem Demo.env_hashOK : Demo.env.HashOK := fun _ => toBytesBE_length _ _

/-- C11, as stated, fails. A transfer signed by the sender of slot 0, whose receiver key has
the X of slot 1 and another Y than the stored key, passes the signature step and is
applied, although the signature does not verify for the message built from the stored
identities; when `eddsa.Verify` returns an error, `updateState` returns that error, not
`ErrWrongSignature`. A signed transfer does not pass the signature step either when the
call panics before it: on a ledger of three accounts, where the proofs of inclusion of
slots 0 and 2 have three and two entries, and at a batch position already used, where the
first assignment finds its name assigned; nor when the accumulator returns an error. -/
theorem updateState_signature_counterexample :
    (Demo.op2.AccountMap.lookup (frBytes Demo.otherY.senderPubKey.X) = some 0 ∧
      Demo.op2.AccountMap.lookup (frBytes Demo.otherY.receiverPubKey.X) = some 1 ∧
      Demo.op2.readAccount 0 = some (.ok (Demo.account 0 0 100)) ∧
      Demo.op2.readAccount 1 = some (.ok (Demo.account 1 0 50)) ∧
      Demo.otherY.senderPubKey = (Demo.account 0 0 100).pubKey ∧
      Demo.otherY.receiverPubKey ≠ (Demo.account 1 0 50).pubKey ∧
      Demo.env.eddsaVerify Demo.otherY.signature
        (signedMessage Demo.env Demo.otherY.nonce Demo.otherY.amount
          (Demo.account 0 0 100).pubKey (Demo.account 1 0 50).pubKey)
        (Demo.account 0 0 100).pubKey = .ok false ∧
      (Demo.op2.updateState Demo.env Demo.otherY 0).map
        (fun r => (r.err, r.op.balanceAt 0, r.op.balanceAt 1)) = some (none, some 90, some 60)) ∧
    (Demo.op2.updateState Demo.envFailing (Demo.transfer 10 0 1 0) 0).map (fun r => r.err)
      = some (some (.external 7)) ∧
    (Demo.op3.AccountMap.lookup (frBytes (Demo.transfer 10 0 2 0).senderPubKey.X) = some 0 ∧
      Demo.op3.AccountMap.lookup (frBytes (Demo.transfer 10 0 2 0).receiverPubKey.X) = some 2 ∧
      (Demo.transfer 10 0 2 0).Verify Demo.env = (true, none) ∧
      Demo.op3.updateState Demo.env (Demo.transfer 10 0 2 0) 0 = none) ∧
    ((Demo.op2.updateState Demo.env (Demo.transfer 10 0 1 0) 0).map (fun r => r.err)
        = some none ∧
      (Demo.transfer 10 0 1 1).Verify Demo.env = (true, none) ∧
      (Demo.op2.updateState Demo.env (Demo.transfer 10 0 1 0) 0).bind
        (fun r => r.op.updateState Demo.env (Demo.transfer 10 0 1 1) 0) = none) ∧
    ((Demo.transfer 10 0 1 0).Verify Demo.envNoProof = (true, none) ∧
      (Demo.op2.updateState Demo.envNoProof (Demo.transfer 10 0 1 0) 0).map (fun r => r.err)
        = some (some (.external 3))) := by
  decide!

/-- C12, as stated, fails. With a `VerifyProof` that rejects every proof, the transfer of 10
from slot 0 to slot 1 still returns `nil` and the ledger is mutated. -/
theorem updateState_proof_check_counterexample :
    (∀ root proof i k, Demo.envRejecting.verifyProof root proof i k = false) ∧
    (Demo.op2.updateState Demo.envRejecting (Demo.transfer 10 0 1 0) 0).map
      (fun r => (r.err, r.op.balanceAt 0, r.op.balanceAt 1)) = some (none, some 90, some 60) :=
  ⟨fun _ _ _ _ => rfl, by decide!⟩

/-- C16, as stated, fails. On a ledger of two accounts `readAccount(2)` returns no error
value: the slice expression is out of range and the call panics; and
`readAccount(115292150460684698)`, whose offset wraps around to 64, returns an account and
no error. -/
theorem readAccount_counterexample :
    Demo.op2.nbAccounts = 2 ∧ Demo.op2.readAccount 2 = none ∧
    115292150460684698 * SizeAccount % 2 ^ 64 = 64 ∧
    Demo.op2.readAccount 115292150460684698 =
      some (.ok ⟨100, 1000, 2000, ⟨1, 0⟩⟩) := by
  decide!

/-- C18. On a transfer from an account to itself the post-state witness disagrees with the
ledger: `updateState` returns `nil`, the witness entries of the sender after the update
are nonce 1 and balance 90, and the account stored in the sender's slot has nonce 0 and
balance 110. -/
theorem updateState_selfTransfer_witness_mismatch :
    Demo.op2.AccountMap.lookup (frBytes (Demo.transfer 10 0 0 0).senderPubKey.X) = some 0 ∧
    Demo.op2.AccountMap.lookup (frBytes (Demo.transfer 10 0 0 0).receiverPubKey.X) = some 0 ∧
    (Demo.op2.updateState Demo.env (Demo.transfer 10 0 0 0) 0).map
      (fun r => (r.err,
        witnessValue r.op.witnesses (baseNameSenderAccountNonceAfter ++ Itoa 0),
        witnessValue r.op.witnesses (baseNameSenderAccountBalanceAfter ++ Itoa 0),
        r.op.nonceAt 0, r.op.balanceAt 0)) =
      some (none, some (.u64 1), some (.fe 90), some 0, some 110) := by
  decide!

/-- The signed transfer of 10 from slot 0 to slot 1 passes the signature step. -/
theorem updateState_signature_step_witness :
    (∃ r, Demo.op2.updateState Demo.env (Demo.transfer 10 0 1 0) 0 = some r ∧
        (r.err = none ∨ r.err = some .ErrAmountTooHigh ∨ r.err = some .ErrNonce)) ∧
      Demo.env.eddsaVerify (Demo.transfer 10 0 1 0).signature
        (signedMessage Demo.env (Demo.transfer 10 0 1 0).nonce (Demo.transfer 10 0 1 0).amount
          (Demo.transfer 10 0 1 0).senderPubKey (Demo.transfer 10 0 1 0).receiverPubKey)
        (Demo.transfer 10 0 1 0).senderPubKey = .ok true :=
  ⟨(updateState_signature_step Demo.env Demo.op2 (Demo.transfer 10 0 1 0) 0 0 1
    Demo.op2_wellFormed Demo.env_merkleOK (Demo.sameDepth_two _ (by decide!))
    (Demo.op2_unused 0) (by decide!) (by decide!)).1.mpr (by decide!), by decide!⟩

/-- With an accumulator that builds no proof the call returns an error and the ledger is
untouched. -/
theorem updateState_proof_failure_fatal_witness :
    ∃ r, Demo.op2.updateState Demo.envNoProof (Demo.transfer 10 0 1 0) 0 = some r ∧
      r.err ≠ none ∧ r.op.State = Demo.op2.State ∧ r.op.HashState = Demo.op2.HashState := by
  obtain ⟨r, hr, -⟩ := exists_outcome
    (Demo.op2.updateState Demo.envNoProof (Demo.transfer 10 0 1 0) 0) (some (.external 3))
    (by decide!)
  exact ⟨r, hr, (updateState_proof_failure_fatal Demo.envNoProof Demo.op2
    (Demo.transfer 10 0 1 0) 0 r 0 1 hr (by decide!) (by decide!)).1 (Or.inl ⟨3, rfl⟩)⟩

/-- Digest consistency with the hash of the concrete instance. -/
theorem digestConsistent_invariant_witness :
    (∀ nbAccounts, ∃ o, NewOperator Demo.env nbAccounts = some o ∧ o.nbAccounts = nbAccounts ∧
      (∀ i, i < nbAccounts →
        (o.State.drop (i * SizeAccount)).take SizeAccount = List.replicate SizeAccount 0) ∧
      o.DigestConsistent Demo.env) ∧
    (∀ (o : Operator) (t : Transfer) (n : Int) (r : Outcome), o.DigestConsistent Demo.env →
      o.updateState Demo.env t n = some r → r.op.DigestConsistent Demo.env) :=
  digestConsistent_invariant Demo.env Demo.env_hashOK

/-- The two public entries of the transfer of 10 from slot 0 to slot 1 at position 0. -/
theorem updateState_public_split_witness :
    ∃ r, Demo.op2.updateState Demo.env (Demo.transfer 10 0 1 0) 0 = some r ∧ r.err = none ∧
      ∃ new rootB rootA, r.op.witnesses = Demo.op2.witnesses ++ new ∧
        new.filter (fun a => decide (a.visibility = .Public)) =
          [⟨.Public, baseNameRootHashBefore ++ Itoa 0, .bytes rootB⟩,
           ⟨.Public, baseNameRootHashAfter ++ Itoa 0, .bytes rootA⟩] := by
  obtain ⟨r, hr, he⟩ := exists_outcome
    (Demo.op2.updateState Demo.env (Demo.transfer 10 0 1 0) 0) none (by decide!)
  obtain ⟨new, _, rootB, _, _, rootA, _, _, h1, _, _, _, h2, _⟩ :=
    updateState_public_split Demo.env Demo.op2 (Demo.transfer 10 0 1 0) 0 r hr he
  exact ⟨r, hr, he, new, rootB, rootA, h1, h2⟩

/-- The name of proof-path ordinal 11 at position 0 and that of ordinal 1 at position 1
differ. -/
theorem witness_names_namespaced_witness :
    IsWitnessName (0 : Nat) (baseNameSenderMerkleBefore ++ Itoa (0 : Nat) ++ Itoa (11 : Nat)) ∧
    IsWitnessName (1 : Nat) (baseNameSenderMerkleBefore ++ Itoa (1 : Nat) ++ Itoa (1 : Nat)) ∧
    baseNameSenderMerkleBefore ++ Itoa (0 : Nat) ++ Itoa (11 : Nat) ≠
      baseNameSenderMerkleBefore ++ Itoa (1 : Nat) ++ Itoa (1 : Nat) :=
  have h0 : IsWitnessName (0 : Nat)
      (baseNameSenderMerkleBefore ++ Itoa (0 : Nat) ++ Itoa (11 : Nat)) :=
    Or.inr ⟨_, by simp [pathBaseNames], 11, rfl⟩
  have h1 : IsWitnessName (1 : Nat)
      (baseNameSenderMerkleBefore ++ Itoa (1 : Nat) ++ Itoa (1 : Nat)) :=
    Or.inr ⟨_, by simp [pathBaseNames], 1, rfl⟩
  ⟨h0, h1, (witness_names_namespaced 0 1 (by decide) (by decide) (by decide)).1 _ _ h0 h1⟩

/-- Reading slot 1 of a ledger of two accounts, and slot 2, which is beyond it. -/
theorem readAccount_bounded_witness :
    (∃ a, Deserialize ((Demo.op2.State.drop (1 * SizeAccount)).take SizeAccount) = .ok a ∧
        Demo.op2.readAccount 1 = some (.ok a)) ∧
    Demo.op2.readAccount 2 = none :=
  ⟨(readAccount_bounded Demo.op2 1 (by decide!) (by decide!)).1 (by decide!),
    ((readAccount_bounded Demo.op2 2 (by decide!) (by decide!)).2 (by decide!)).2.1
      (by decide!)⟩

/-- The transfer of 10 from slot 0 to slot 1 of a ledger of two accounts writes the two
slots exactly. -/
theorem updateState_write_width_witness :
    ∃ r, Demo.op2.updateState Demo.env (Demo.transfer 10 0 1 0) 0 = some r ∧ r.err = none ∧
      r.op.State.length = Demo.op2.State.length ∧
      r.op.State ≠ Demo.op2.State := by
  obtain ⟨r, hr, hs, he⟩ : ∃ r, Demo.op2.updateState Demo.env (Demo.transfer 10 0 1 0) 0
      = some r ∧ r.op.State ≠ Demo.op2.State ∧ r.err = none := by
    have hx : (Demo.op2.updateState Demo.env (Demo.transfer 10 0 1 0) 0).map
        (fun r => (decide (r.op.State ≠ Demo.op2.State), r.err)) = some (true, none) := by
      decide!
    cases hrun : Demo.op2.updateState Demo.env (Demo.transfer 10 0 1 0) 0 with
    | none => rw [hrun] at hx; cases hx
    | some r =>
      rw [hrun] at hx
      simp only [Option.map_some', Option.some.injEq, Prod.mk.injEq, decide_eq_true_eq] at hx
      exact ⟨r, rfl, hx.1, hx.2⟩
  exact ⟨r, hr, he,
    (updateState_write_width Demo.env Demo.op2 (Demo.transfer 10 0 1 0) 0 r hr).2.1, hs⟩

/-- A transfer between slots 0 and 2 of a ledger of four accounts leaves slot 1 alone. -/
theorem updateState_frame_witness :
    ∃ r, Demo.op4.updateState Demo.env (Demo.transfer 10 0 2 0) 0 = some r ∧ r.err = none ∧
      r.op.State.length = Demo.op4.State.length ∧
      r.op.HashState.length = Demo.op4.HashState.length ∧
      r.op.AccountMap = Demo.op4.AccountMap ∧
      (r.op.State.drop (1 * SizeAccount)).take SizeAccount =
        (Demo.op4.State.drop (1 * SizeAccount)).take SizeAccount ∧
      (r.op.HashState.drop (1 * Demo.env.hsize)).take Demo.env.hsize =
        (Demo.op4.HashState.drop (1 * Demo.env.hsize)).take Demo.env.hsize := by
  obtain ⟨r, hr, he⟩ := exists_outcome
    (Demo.op4.updateState Demo.env (Demo.transfer 10 0 2 0) 0) none (by decide!)
  obtain ⟨h1, h2, h3, h4⟩ :=
    updateState_frame Demo.env Demo.op4 (Demo.transfer 10 0 2 0) 0 r hr
  exact ⟨r, hr, he, h1, h2, h3, h4 1 (by decide!) (by decide!)⟩

/-- The snapshot after the transfer of 10 from slot 0 to slot 1. -/
theorem updateState_frozen_snapshots_witness :
    ∃ r, Demo.op2.updateState Demo.env (Demo.transfer 10 0 1 0) 0 = some r ∧ r.err = none ∧
      SnapshotRecorded Demo.env r.op.HashState 0 1 baseNameRootHashAfter
        baseNameSenderMerkleAfter baseNameReceiverMerkleAfter (Itoa 0) r.op.witnesses := by
  obtain ⟨r, hr, he⟩ := exists_outcome
    (Demo.op2.updateState Demo.env (Demo.transfer 10 0 1 0) 0) none (by decide!)
  exact ⟨r, hr, he, (updateState_frozen_snapshots Demo.env Demo.op2 (Demo.transfer 10 0 1 0) 0
    r 0 1 hr (by decide!) (by decide!)).2 he⟩

/-- C22. No witness name is written twice within one call: for every batch position `n`
and whatever the length of the proofs the accumulator returns, the names of the
assignments that a call of `updateState` returning `nil` appends to the witness record are
pairwise distinct; each is a base name suffixed with `decimal(n)`, or a proof-path or
proof-helper name suffixed with `decimal(n)` and `decimal(i)`, every plain base name is
among them, and every assignment of the call is the one found under its name. -/
theorem updateState_names_distinct (env : Env) (o : Operator) (t : Transfer) (n : Int)
    (r : Outcome) (h : o.updateState env t n = some r) (hnil : r.err = none) :
    ∃ new, r.op.witnesses = o.witnesses ++ new ∧
      (new.map Assignment.name).Nodup ∧
      (∀ x ∈ new, IsWitnessName n x.name) ∧
      (∀ b ∈ plainBaseNames, b ++ Itoa n ∈ new.map Assignment.name) ∧
      ∀ x ∈ new, witnessValue new x.name = some x.value := by
  obtain ⟨posS, sa, posR, ra, rootB, pSB, nB, rootB', pRB, nB', rootA, pSA, nA, rootA', pRA,
    nA', -, -, -, -, -, -, -, -, hlog, -, -⟩ := updateState_nil_log h hnil
  have hSB : baseNameSenderMerkleBefore ∈ pathBaseNames := by simp [pathBaseNames]
  have hRB : baseNameReceiverMerkleBefore ∈ pathBaseNames := by simp [pathBaseNames]
  have hHSB : baseNameSenderProofHelperBefore ∈ pathBaseNames := by simp [pathBaseNames]
  have hHRB : baseNameReceiverProofHelperBefore ∈ pathBaseNames := by simp [pathBaseNames]
  have hSA : baseNameSenderMerkleAfter ∈ pathBaseNames := by simp [pathBaseNames]
  have hRA : baseNameReceiverMerkleAfter ∈ pathBaseNames := by simp [pathBaseNames]
  have hHSA : baseNameSenderProofHelperAfter ∈ pathBaseNames := by simp [pathBaseNames]
  have hHRA : baseNameReceiverProofHelperAfter ∈ pathBaseNames := by simp [pathBaseNames]
  have hplain := plainEntries_names (Itoa n) sa ra
    ⟨sa.index, (sa.nonce + 1) % 2 ^ 64, frSub sa.balance t.amount, sa.pubKey⟩
    ⟨ra.index, ra.nonce, frAdd ra.balance t.amount, ra.pubKey⟩ t rootB rootA
  have hLB := proofLoopEntries_path (Itoa n) hSB hRB hHSB hHRB pRB.length pSB pRB
    (env.generateProofHelper pSB posS nB) (env.generateProofHelper pRB posR nB) pSB.length 0
  have hLA := proofLoopEntries_path (Itoa n) hSA hRA hHSA hHRA pSA.length pSA pRA
    (env.generateProofHelper pSA posS nB) (env.generateProofHelper pRA posR nB) pSA.length 0
  have hplainMem : ∀ x ∈ callPlainBaseNames.map (fun b => b ++ Itoa n),
      ∃ p ∈ plainBaseNames, x = p ++ Itoa n := by
    intro x hx
    obtain ⟨p, hp, rfl⟩ := List.mem_map.mp hx
    exact ⟨p, callPlainBaseNames_plain p hp, rfl⟩
  have hnodup := nodup_interleave
    (hplain ▸ List.Nodup.map (append_ext_inj (Itoa n)) callPlainBaseNames_nodup)
    (proofLoopEntries_nodup (Itoa n) hSB hRB hHSB hHRB pathBefore_nodup pRB.length pSB pRB
      (env.generateProofHelper pSB posS nB) (env.generateProofHelper pRB posR nB) pSB.length 0)
    (proofLoopEntries_nodup (Itoa n) hSA hRA hHSA hHRA pathAfter_nodup pSA.length pSA pRA
      (env.generateProofHelper pSA posS nB) (env.generateProofHelper pRA posR nB) pSA.length 0)
    (by
      intro x hx hx'
      rw [hplain] at hx
      obtain ⟨p, hp, rfl⟩ := hplainMem x hx
      obtain ⟨q, -, hq, j, e⟩ := hLB _ hx'
      exact plain_ne_path hp hq _ j e)
    (by
      intro x hx hx'
      rw [hplain] at hx
      obtain ⟨p, hp, rfl⟩ := hplainMem x hx
      obtain ⟨q, -, hq, j, e⟩ := hLA _ hx'
      exact plain_ne_path hp hq _ j e)
    (by
      intro x hx hx'
      obtain ⟨q, hq4, hq, j, rfl⟩ := hLB _ hx
      obtain ⟨q', hq4', hq', j', e⟩ := hLA _ hx'
      exact pathBefore_ne_after q hq4 q' hq4' (pathName_inj hq hq' _ j j' e).1)
  refine ⟨_, hlog, ?_, ?_, ?_, ?_⟩
  · simpa only [List.map_append, List.append_assoc] using hnodup
  · obtain ⟨new, hnew, hnames⟩ := updateState_names h
    rw [hlog] at hnew
    rw [List.append_cancel_left hnew]
    exact hnames
  · intro b hb
    have hmem : b ++ Itoa n ∈ callPlainBaseNames.map (fun b => b ++ Itoa n) :=
      List.mem_map_of_mem _ (plainBaseNames_call b hb)
    rw [← hplain] at hmem
    simp only [List.map_append, List.mem_append] at hmem ⊢
    tauto
  · apply witnessValue_of_nodup
    simpa only [List.map_append, List.append_assoc] using hnodup

/-! ## Signing and verifying a transfer -/

theorem signMessage_written (env : Env) (t : Transfer) (h : Hasher) :
    (t.signMessage env h).1.written = t.specEncoding := by
  simp [Transfer.signMessage, Transfer.specEncoding, Hasher.Reset, Hasher.Write]

theorem verifyMessage_written (env : Env) (t : Transfer) (h : Hasher) :
    (t.verifyMessage env h).1.written = t.specEncoding := by
  simp [Transfer.verifyMessage, Transfer.specEncoding, Hasher.Reset, Hasher.Write]

theorem signMessage_msg (env : Env) (t : Transfer) (h : Hasher) :
    (t.signMessage env h).2 = frSetBytes (env.hash t.specEncoding) := by
  simp [Transfer.signMessage, Transfer.specEncoding, Hasher.Reset, Hasher.Write, Hasher.Sum]

theorem verifyMessage_msg (env : Env) (t : Transfer) (h : Hasher) :
    (t.verifyMessage env h).2 = frSetBytes (env.hash t.specEncoding) := by
  simp [Transfer.verifyMessage, Transfer.specEncoding, Hasher.Reset, Hasher.Write, Hasher.Sum]

/-- `Transfer.Sign` signs the message of `signMessage`, whatever the state of the hash
object at entry. -/
theorem Sign_eq (env : Env) (t : Transfer) (priv : PrivateKey) (h : Hasher) :
    t.Sign env priv =
      match env.eddsaSign (t.signMessage env h).2 t.senderPubKey priv with
      | .error e => (none, some (.external e), t)
      | .ok sig => (some sig, none, { t with signature := sig }) := by
  rw [signMessage_msg]
  rfl

/-- `Transfer.Verify` verifies the message of `verifyMessage`, whatever the state of the
hash object at entry. -/
theorem Verify_message (env : Env) (t : Transfer) (h : Hasher) :
    t.Verify env =
      match env.eddsaVerify t.signature (t.verifyMessage env h).2 t.senderPubKey with
      | .error e => (false, some (.external e))
      | .ok resSig => if !resSig then (false, some .ErrWrongSignature) else (true, none) := by
  rw [verifyMessage_msg]
  rfl

theorem Sign_frame (env : Env) (t : Transfer) (priv : PrivateKey) :
    (t.Sign env priv).2.2.nonce = t.nonce ∧ (t.Sign env priv).2.2.amount = t.amount ∧
    (t.Sign env priv).2.2.senderPubKey = t.senderPubKey ∧
    (t.Sign env priv).2.2.receiverPubKey = t.receiverPubKey := by
  rw [Sign_eq env t priv ⟨[]⟩]
  cases env.eddsaSign (t.signMessage env ⟨[]⟩).2 t.senderPubKey priv <;> simp

theorem specEncoding_congr {t t' : Transfer} (h1 : t'.nonce = t.nonce)
    (h2 : t'.amount = t.amount) (h3 : t'.senderPubKey = t.senderPubKey)
    (h4 : t'.receiverPubKey = t.receiverPubKey) : t'.specEncoding = t.specEncoding := by
  simp [Transfer.specEncoding, h1, h2, h3, h4]

/-- C21. Sign/Verify round trip: whatever the state of the hash object at entry, `Sign`
and `Verify` have written to it, when they call `Sum`, the one byte sequence
`nonce || amount || sender X || sender Y || receiver X || receiver Y` of the transfer, so
that the message `Verify` hands to `eddsa.Verify` after `Sign` is the message `Sign` handed
to `eddsa.Sign`; `Sign` and `Verify` are determined by these messages; hence, when
`eddsa.Verify` accepts what `eddsa.Sign` produces for the sender key of the transfer and
`priv`, `Verify` returns `(true, nil)` after a `Sign` that returned `nil`, the signature
returned being the one stored; and `Sign` changes no field of the transfer other than
`signature`. -/
theorem sign_verify_roundTrip (env : Env) (t : Transfer) (priv : PrivateKey)
    (hscheme : ∀ msg sig, env.eddsaSign msg t.senderPubKey priv = .ok sig →
      env.eddsaVerify sig msg t.senderPubKey = .ok true) :
    (∀ h h' : Hasher,
      (t.signMessage env h).1.written = t.specEncoding ∧
      ((t.Sign env priv).2.2.verifyMessage env h').1.written = t.specEncoding ∧
      ((t.Sign env priv).2.2.verifyMessage env h').2 = (t.signMessage env h).2) ∧
    (∀ h : Hasher, t.Sign env priv =
      match env.eddsaSign (t.signMessage env h).2 t.senderPubKey priv with
      | .error e => (none, some (.external e), t)
      | .ok sig => (some sig, none, { t with signature := sig })) ∧
    (∀ (u : Transfer) (h : Hasher), u.Verify env =
      match env.eddsaVerify u.signature (u.verifyMessage env h).2 u.senderPubKey with
      | .error e => (false, some (.external e))
      | .ok resSig => if !resSig then (false, some .ErrWrongSignature) else (true, none)) ∧
    ((t.Sign env priv).2.1 = none →
      (t.Sign env priv).2.2.Verify env = (true, none) ∧
      (t.Sign env priv).1 = some (t.Sign env priv).2.2.signature) ∧
    ((t.Sign env priv).2.2.nonce = t.nonce ∧ (t.Sign env priv).2.2.amount = t.amount ∧
      (t.Sign env priv).2.2.senderPubKey = t.senderPubKey ∧
      (t.Sign env priv).2.2.receiverPubKey = t.receiverPubKey) := by
  obtain ⟨f1, f2, f3, f4⟩ := Sign_frame env t priv
  have henc : (t.Sign env priv).2.2.specEncoding = t.specEncoding :=
    specEncoding_congr f1 f2 f3 f4
  refine ⟨?_, Sign_eq env t priv, fun u h => Verify_message env u h, ?_, f1, f2, f3, f4⟩
  · intro h h'
    refine ⟨signMessage_written env t h, ?_, ?_⟩
    · rw [verifyMessage_written, henc]
    · rw [verifyMessage_msg, signMessage_msg, henc]
  · intro hok
    rw [Verify_message env _ ⟨[]⟩, verifyMessage_msg, henc, f3]
    have hs := Sign_eq env t priv ⟨[]⟩
    rw [signMessage_msg] at hs
    cases hsig : env.eddsaSign (frSetBytes (env.hash t.specEncoding)) t.senderPubKey priv with
    | error e =>
      rw [hsig] at hs
      rw [hs] at hok
      cases hok
    | ok sig =>
      rw [hsig] at hs
      rw [hs]
      simp [hscheme _ _ hsig]

/-- The transfer of 10 from slot 0 to slot 1, signed and then verified. -/
theorem sign_verify_roundTrip_witness :
    (Transfer.Sign Demo.env Demo.unsigned 5).2.1 = none ∧
    (Transfer.Sign Demo.env Demo.unsigned 5).2.2.Verify Demo.env = (true, none) :=
  have hok : (Transfer.Sign Demo.env Demo.unsigned 5).2.1 = none := by decide!
  ⟨hok, ((sign_verify_roundTrip Demo.env Demo.unsigned 5 (by
    intro msg sig h
    simp only [Demo.env, Except.ok.injEq] at h
    subst h
    simp [Demo.env])).2.2.2.1 hok).1⟩

/-- The names of the transfer of 10 from slot 0 to slot 1 at position 3. -/
theorem updateState_names_distinct_witness :
    ∃ r, Demo.op2.updateState Demo.env (Demo.transfer 10 0 1 0) 3 = some r ∧ r.err = none ∧
      ∃ new, r.op.witnesses = Demo.op2.witnesses ++ new ∧
        (new.map Assignment.name).Nodup := by
  obtain ⟨r, hr, he⟩ := exists_outcome
    (Demo.op2.updateState Demo.env (Demo.transfer 10 0 1 0) 3) none (by decide!)
  obtain ⟨new, h1, h2, -⟩ :=
    updateState_names_distinct Demo.env Demo.op2 (Demo.transfer 10 0 1 0) 3 r hr he
  exact ⟨r, hr, he, new, h1, h2⟩

end Rollup
